import Mathlib

/-! Verification development for the 5x5 terminal puzzle (`src/main.c`, `src/main.h`).

The C program is embedded shallowly:

* `uint16_t` fields (`w`, `h`, `sc`, `cursor.y`, `cursor.x`) are natural numbers; every
  store into such a field that could leave the range is reduced modulo `2 ^ 16`
  explicitly (`to_u16`, `u16_dec`, `u16_inc`).
* `int` is the 32-bit two's complement type of the usual platforms: the products and sums
  of the index and coordinate expressions go through `imul`, `iadd`, `isub`, which reduce
  the exact result into `-2 ^ 31 .. 2 ^ 31 - 1` (`wrap_int`).  Signed overflow is undefined
  in C; the wrapped value is what the compiled program computes.  Differences such as
  `ctx->h - 1` of a 16-bit value and a constant cannot overflow and are written exactly.
* the grid buffer `uint8_t* grid` is a `List Nat`, indexed by an `int`; an access outside
  the buffer (a negative index included) makes the operation return `none`.
* `char` is signed and `chtype` is an unsigned 32-bit type (`to_char`, `to_chtype`).
* the ncurses display is a list of calls (`term_call`) in program order, with the `int`
  arguments they receive.
-/

namespace FiveByFive

/-! ## `main.h` -/

/-- Default width. -/
def DEFAULT_W : Nat := 5
/-- Default height. -/
def DEFAULT_H : Nat := 5
/-- Default scale. -/
def DEFAULT_S : Nat := 3
/-- Minimum width. -/
def MIN_W : Nat := 5
/-- Minimum height. -/
def MIN_H : Nat := 5
/-- Key code of Ctrl-C as returned by `getch()` in raw mode. -/
def KEY_CTRLC : Int := 3

/-- On tile, the character `#`. -/
def ON_CH : Nat := 35
/-- Off tile, the character `.`. -/
def OFF_CH : Nat := 46

/-- Point in the context grid (`point_t`); both fields are `uint16_t`. -/
structure point_t where
  y : Nat
  x : Nat
deriving DecidableEq, Repr

/-- Game context (`ctx_t`); `w`, `h`, `sc` are `uint16_t`, `grid` holds one byte per cell. -/
structure ctx_t where
  w : Nat
  h : Nat
  sc : Nat
  cursor : point_t
  grid : List Nat
deriving DecidableEq, Repr

/-- Conversion of an `int` value to `uint16_t`. -/
def to_u16 (v : Int) : Nat := (v % 65536).toNat

/-- The statement `v--` on a `uint16_t`: subtracting one modulo `2 ^ 16`, that is adding
`2 ^ 16 - 1`. -/
def u16_dec (v : Nat) : Nat := (65535 + v) % 65536

/-- The statement `v++` on a `uint16_t`. -/
def u16_inc (v : Nat) : Nat := (v + 1) % 65536

/-! ## The type `int` -/

/-- Largest value of `int`. -/
def INT_MAX : Nat := 2147483647

/-- Value of an `int` expression whose exact result is `v`: the representative of `v`
modulo `2 ^ 32` in `-2 ^ 31 .. 2 ^ 31 - 1`. -/
def wrap_int (v : Int) : Int := (v + 2147483648) % 4294967296 - 2147483648

/-- The `int` sum `a + b`. -/
def iadd (a b : Int) : Int := wrap_int (a + b)

/-- The `int` difference `a - b`. -/
def isub (a b : Int) : Int := wrap_int (a - b)

/-- The `int` product `a * b`. -/
def imul (a b : Int) : Int := wrap_int (a * b)

/-- Values taken by `i` in `for (int i = a; i < b; i++)`; the increment never overflows
because `i < b`. -/
def int_range (a b : Int) : List Int :=
  (List.range (b - a).toNat).map fun (i : Nat) => a + (i : Int)

/-- Conversion of a `uint8_t` to `char` (signed, 8 bits). -/
def to_char (b : Nat) : Int := if b < 128 then (b : Int) else (b : Int) - 256

/-- Conversion of an `int` or `char` argument to `chtype` (unsigned, 32 bits). -/
def to_chtype (v : Int) : Nat := (v % 4294967296).toNat

/-! ## Grid buffer -/

/-- Load `grid[i]` for an `int` index; `none` when `i` is outside the buffer. -/
def grid_read (g : List Nat) (i : Int) : Option Nat :=
  if 0 ≤ i then g[i.toNat]? else none

/-- Store `grid[i] = v` for an `int` index; `none` when `i` is outside the buffer. -/
def grid_write (g : List Nat) (i : Int) (v : Nat) : Option (List Nat) :=
  if 0 ≤ i ∧ i.toNat < g.length then some (g.set i.toNat v) else none

/-- The statement `if (grid[i] == ON_CH) grid[i] = OFF_CH; else grid[i] = ON_CH;`. -/
def toggle_cell (g : List Nat) (i : Int) : Option (List Nat) :=
  match grid_read g i with
  | none => none
  | some v => if v = ON_CH then grid_write g i OFF_CH else grid_write g i ON_CH

/-- The cell of row `r`, column `c` of the grid: the element `r * w + c` of the buffer. -/
def cell (ctx : ctx_t) (r c : Nat) : Option Nat := ctx.grid[r * ctx.w + c]?

/-- `toggle_adjacent` (main.c 237-278): toggles the cursor cell, then the cells above,
below, left and right of it, each under the guard of the source.  `y` and `x` are the
`int` copies of the cursor; every index is an `int` expression. -/
def toggle_adjacent (ctx : ctx_t) : Option ctx_t :=
  let y := ctx.cursor.y
  let x := ctx.cursor.x
  let w : Int := ctx.w
  (toggle_cell ctx.grid (iadd (imul y w) x)).bind fun g0 =>
  (if y > 0 then toggle_cell g0 (iadd (imul (isub y 1) w) x) else some g0).bind fun g1 =>
  (if (y : Int) < (ctx.h : Int) - 1 then toggle_cell g1 (iadd (imul (iadd y 1) w) x)
    else some g1).bind fun g2 =>
  (if x > 0 then toggle_cell g2 (iadd (imul y w) (isub x 1)) else some g2).bind fun g3 =>
  (if (x : Int) < (ctx.w : Int) - 1 then toggle_cell g3 (iadd (imul y w) (iadd x 1))
    else some g3).bind fun g4 =>
  some { ctx with grid := g4 }

/-- The cursor is inside the grid: `0 <= y < h` and `0 <= x < w`. -/
def cursor_in_bounds (ctx : ctx_t) : Prop := ctx.cursor.y < ctx.h ∧ ctx.cursor.x < ctx.w

instance (ctx : ctx_t) : Decidable (cursor_in_bounds ctx) := by
  unfold cursor_in_bounds; infer_instance

/-- Every cell of the buffer holds `ON_CH` or `OFF_CH`. -/
def binary_grid (g : List Nat) : Prop := ∀ v ∈ g, v = ON_CH ∨ v = OFF_CH

instance (g : List Nat) : Decidable (binary_grid g) := by
  unfold binary_grid; infer_instance

/-- The grid buffer has exactly `w * h` cells. -/
def grid_sized (ctx : ctx_t) : Prop := ctx.grid.length = ctx.w * ctx.h

instance (ctx : ctx_t) : Decidable (grid_sized ctx) := by
  unfold grid_sized; infer_instance

/-- The number of cells `w * h` is a value of `int`, so that no index `y * w + x` of the
grid overflows. -/
def int_sized (ctx : ctx_t) : Prop := ctx.w * ctx.h ≤ INT_MAX

instance (ctx : ctx_t) : Decidable (int_sized ctx) := by
  unfold int_sized; infer_instance

/-- The terminal coordinates of the frame, up to `h * scale + 1` and `w * scale + 1`, are
values of `int`, so that no coordinate expression of the drawing code overflows. -/
def render_fits (ctx : ctx_t) : Prop :=
  ctx.h * ctx.sc + 1 ≤ INT_MAX ∧ ctx.w * ctx.sc + 1 ≤ INT_MAX

instance (ctx : ctx_t) : Decidable (render_fits ctx) := by
  unfold render_fits; infer_instance

/-- The fields `w`, `h` and `sc` hold values of `uint16_t`. -/
def u16_fields (ctx : ctx_t) : Prop := ctx.w < 65536 ∧ ctx.h < 65536 ∧ ctx.sc < 65536

instance (ctx : ctx_t) : Decidable (u16_fields ctx) := by
  unfold u16_fields; infer_instance

/-- `init_grid` (main.c 131-139): with `random` nothing is written; otherwise every cell
`y * w + x` for `y < h`, `x < w` is set to `OFF_CH`, row by row.  The loop counters stay
below the 16-bit bounds; the index is an `int` expression. -/
def init_grid (ctx : ctx_t) (random : Bool) : Option ctx_t :=
  if random then some ctx
  else
    ((List.range ctx.h).foldlM (fun g (y : Nat) =>
      (List.range ctx.w).foldlM (fun g (x : Nat) =>
        grid_write g (iadd (imul (y : Int) (ctx.w : Int)) (x : Int)) OFF_CH) g)
      ctx.grid).map fun g => { ctx with grid := g }

/-! ## Display -/

/-- Calls made to the terminal library, in program order. -/
inductive term_call where
  | initscr
  | mvaddch (y x : Int) (ch : Nat)
  | move (y x : Int)
  | refresh
  | clear_line (y : Int)
  | endwin
deriving DecidableEq, Repr

/-- The character `+`. -/
def CH_PLUS : Nat := 43
/-- The character `-`. -/
def CH_MINUS : Nat := 45
/-- The character `|`. -/
def CH_BAR : Nat := 124

/-- The constant `border_sz` of `redraw_grid`. -/
def border_sz : Int := 1

/-- The `int` variable `real_w` of `draw_border` (main.c 161). -/
def real_w (ctx : ctx_t) : Int := imul ctx.w ctx.sc

/-- The `int` variable `real_h` of `draw_border` (main.c 162). -/
def real_h (ctx : ctx_t) : Int := imul ctx.h ctx.sc

/-- `draw_border` (main.c 160-183): first line, mid lines, last line.  The mid lines loop
`for (y = 1; y <= real_h; y++)` takes the values `1 .. real_h` (`real_h` is never
`INT_MAX` for 16-bit `h` and `sc`). -/
def draw_border (ctx : ctx_t) : List term_call :=
  [term_call.mvaddch 0 0 CH_PLUS]
    ++ (int_range 0 (real_w ctx)).map (fun x => term_call.mvaddch 0 (iadd x 1) CH_MINUS)
    ++ [term_call.mvaddch 0 (iadd (real_w ctx) 1) CH_PLUS]
    ++ (int_range 1 (real_h ctx + 1)).flatMap (fun y =>
        [term_call.mvaddch y 0 CH_BAR, term_call.mvaddch y (iadd (real_w ctx) 1) CH_BAR])
    ++ [term_call.mvaddch (iadd (real_h ctx) 1) 0 CH_PLUS]
    ++ (int_range 0 (real_w ctx)).map
        (fun x => term_call.mvaddch (iadd (real_h ctx) 1) (iadd x 1) CH_MINUS)
    ++ [term_call.mvaddch (iadd (real_h ctx) 1) (iadd (real_w ctx) 1) CH_PLUS]

/-- The `int` variable `term_y` of `redraw_grid` for the row `y` (main.c 212). -/
def term_y (ctx : ctx_t) (y : Nat) : Int := iadd (imul y ctx.sc) border_sz

/-- The `int` variable `term_x` of `redraw_grid` for the column `x` (main.c 213). -/
def term_x (ctx : ctx_t) (x : Nat) : Int := iadd (imul x ctx.sc) border_sz

/-- Character that reaches `mvaddch` for the byte `b` of the grid: the byte is stored in
a `const char` (main.c 209) and passed as a `chtype`. -/
def glyph (b : Nat) : Nat := to_chtype (to_char b)

/-- Body of the cell loops of `redraw_grid` (main.c 209-216) for the cell of row `y`
and column `x`: reads the cell and writes it at every terminal position of its tile. -/
def draw_tile (ctx : ctx_t) (y x : Nat) : Option (List term_call) :=
  (grid_read ctx.grid (iadd (imul (y : Int) (ctx.w : Int)) (x : Int))).map fun b =>
    (int_range (term_y ctx y) (iadd (term_y ctx y) ctx.sc)).flatMap fun ty =>
      (int_range (term_x ctx x) (iadd (term_x ctx x) ctx.sc)).map fun tx =>
        term_call.mvaddch ty tx (glyph b)

/-- Runs a list of drawing steps in order; fails as soon as one of them fails. -/
def seq_calls : List (Option (List term_call)) → Option (List term_call)
  | [] => some []
  | none :: _ => none
  | some a :: rest => (seq_calls rest).map fun b => a ++ b

/-- The cell loops of `redraw_grid` (main.c 207-218): rows outermost, then columns. -/
def draw_tiles (ctx : ctx_t) : Option (List term_call) :=
  seq_calls ((List.range ctx.h).flatMap fun y =>
    (List.range ctx.w).map fun x => draw_tile ctx y x)

/-- Terminal row passed to `move` by `redraw_grid` (main.c 225-226), an `int`. -/
def real_y (ctx : ctx_t) : Int :=
  isub (iadd (iadd (imul ctx.cursor.y ctx.sc) (isub ctx.sc ((ctx.sc : Int) / 2))) border_sz) 1

/-- Terminal column passed to `move` by `redraw_grid` (main.c 227-228), an `int`. -/
def real_x (ctx : ctx_t) : Int :=
  isub (iadd (iadd (imul ctx.cursor.x ctx.sc) (isub ctx.sc ((ctx.sc : Int) / 2))) border_sz) 1

/-- `redraw_grid` (main.c 201-230): border, tiles, then the cursor. -/
def redraw_grid (ctx : ctx_t) : Option (List term_call) :=
  (draw_tiles ctx).map fun tiles =>
    draw_border ctx ++ tiles ++ [term_call.move (real_y ctx) (real_x ctx)]

/-! ## Input handling -/

/-- Key code of the down arrow (`ncurses.h`). -/
def KEY_DOWN : Int := 258
/-- Key code of the up arrow (`ncurses.h`). -/
def KEY_UP : Int := 259
/-- Key code of the left arrow (`ncurses.h`). -/
def KEY_LEFT : Int := 260
/-- Key code of the right arrow (`ncurses.h`). -/
def KEY_RIGHT : Int := 261

/-- The C function `tolower` in the C locale. -/
def tolower (c : Int) : Int := if 65 ≤ c ∧ c ≤ 90 then c + 32 else c

/-- The `switch (c)` of the main loop (main.c 334-367).  Returns the context and the
value of `c` after the switch (Ctrl-C stores `q` into `c`). -/
def key_switch (ctx : ctx_t) (c : Int) : Option (ctx_t × Int) :=
  if c = 107 ∨ c = KEY_UP then
    some (if ctx.cursor.y > 0
      then { ctx with cursor := { ctx.cursor with y := u16_dec ctx.cursor.y } }
      else ctx, c)
  else if c = 106 ∨ c = KEY_DOWN then
    some (if (ctx.cursor.y : Int) < (ctx.h : Int) - 1
      then { ctx with cursor := { ctx.cursor with y := u16_inc ctx.cursor.y } }
      else ctx, c)
  else if c = 104 ∨ c = KEY_LEFT then
    some (if ctx.cursor.x > 0
      then { ctx with cursor := { ctx.cursor with x := u16_dec ctx.cursor.x } }
      else ctx, c)
  else if c = 108 ∨ c = KEY_RIGHT then
    some (if (ctx.cursor.x : Int) < (ctx.w : Int) - 1
      then { ctx with cursor := { ctx.cursor with x := u16_inc ctx.cursor.x } }
      else ctx, c)
  else if c = 32 then
    (toggle_adjacent ctx).map fun ctx1 => (ctx1, c)
  else if c = 114 then
    some (ctx, c)
  else if c = KEY_CTRLC then
    some (ctx, 113)
  else
    some (ctx, c)

/-- State of the program after a run on a finite key sequence: `exit_code` is `none`
while the program waits in `getch()`. -/
structure run_result where
  exit_code : Option Int
  ctx : ctx_t
  calls : List term_call
deriving DecidableEq, Repr

/-- The `do ... while (c != 'q')` loop of `main` (main.c 320-368) fed with the keys
returned by `getch()`, and the `endwin()` and `return 0` that follow it when the loop
ends. -/
def main_loop : ctx_t → List Int → Option run_result
  | ctx, [] =>
    (redraw_grid ctx).map fun d => ⟨none, ctx, d ++ [term_call.refresh]⟩
  | ctx, k :: ks =>
    (redraw_grid ctx).bind fun d =>
    let frame := d ++ [term_call.refresh, term_call.clear_line (iadd ctx.h 3)]
    (key_switch ctx (tolower k)).bind fun r =>
    if r.2 ≠ 113 then
      (main_loop r.1 ks).map fun res => { res with calls := frame ++ res.calls }
    else
      some ⟨some 0, r.1, frame ++ [term_call.endwin]⟩

/-! ## Command line -/

/-- The C function `isspace` in the C locale. -/
def isspace (c : Char) : Bool := decide (c.toNat = 32 ∨ (9 ≤ c.toNat ∧ c.toNat ≤ 13))

/-- The C function `isdigit`. -/
def isdigit (c : Char) : Bool := decide (48 ≤ c.toNat ∧ c.toNat ≤ 57)

/-- Digit loop of `atoi`. -/
def atoi_digits (acc : Int) : List Char → Int
  | [] => acc
  | c :: cs => if isdigit c then atoi_digits (acc * 10 + ((c.toNat : Int) - 48)) cs else acc

/-- The C library function `atoi`: leading white space, an optional sign, decimal digits;
the value is exact. -/
def atoi (s : List Char) : Int :=
  match s.dropWhile isspace with
  | [] => 0
  | c :: cs =>
    if c = '-' then - atoi_digits 0 cs
    else if c = '+' then atoi_digits 0 cs
    else atoi_digits 0 (c :: cs)

/-- `parse_resolution` (main.c 26-43): the pair `(*w, *h)` stored for the string `src`.
Both values are `uint16_t`. -/
def parse_resolution (src : List Char) : Nat × Nat :=
  match src.dropWhile (fun c => c ≠ 'x') with
  | [] => (0, 0)
  | _ :: tail => (to_u16 (atoi (src.takeWhile (fun c => c ≠ 'x'))), to_u16 (atoi tail))

/-- How the argument loop of `parse_args` ends. -/
inductive parse_outcome where
  | done (ctx : ctx_t)
  | arg_error (ctx : ctx_t)
  | keys (ctx : ctx_t)
deriving DecidableEq, Repr

/-- The `for` loop of `parse_args` (main.c 55-102) over `argv[i], argv[i+1], ...`. -/
def parse_args_loop (ctx : ctx_t) : List String → parse_outcome
  | [] => parse_outcome.done ctx
  | a :: rest =>
    if a = "-r" ∨ a = "--resolution" then
      match rest with
      | [] => parse_outcome.arg_error ctx
      | s :: rest1 =>
        let wh := parse_resolution s.toList
        let ctx1 := { ctx with w := wh.1, h := wh.2 }
        if ctx1.w < MIN_W ∨ ctx1.h < MIN_H then parse_outcome.arg_error ctx1
        else parse_args_loop ctx1 rest1
    else if a = "-s" ∨ a = "--scale" then
      match rest with
      | [] => parse_outcome.arg_error ctx
      | s :: rest1 =>
        let ctx1 := { ctx with sc := to_u16 (atoi s.toList) }
        if ctx1.sc < 1 then parse_outcome.arg_error ctx1
        else parse_args_loop ctx1 rest1
    else if a = "-k" ∨ a = "--keys" then parse_outcome.keys ctx
    else if a = "-h" ∨ a = "--help" then parse_outcome.arg_error ctx
    else parse_args_loop ctx rest

/-- `parse_args` (main.c 53-123): the returned flag and the context written.  The loop
starts at `argv[1]`. -/
def parse_args (argv : List String) (ctx : ctx_t) : Bool × ctx_t :=
  match parse_args_loop ctx (argv.drop 1) with
  | parse_outcome.done c => (true, c)
  | parse_outcome.arg_error c => (false, c)
  | parse_outcome.keys c => (false, c)

/-- Context of `main` before the arguments are parsed (main.c 288-294). -/
def default_ctx : ctx_t :=
  { w := DEFAULT_W, h := DEFAULT_H, sc := DEFAULT_S, cursor := ⟨0, 0⟩, grid := [] }

/-- Cursor stored by `main` after the arguments are parsed (main.c 301-304). -/
def initial_cursor (ctx : ctx_t) : point_t :=
  { y := to_u16 ((ctx.h : Int) - (ctx.h : Int) / 2 - 1),
    x := to_u16 ((ctx.w : Int) - (ctx.w : Int) / 2 - 1) }

/-- The call `calloc(n, sizeof(uint8_t))` for the `int` value `n` (main.c 315).  A negative
`n` becomes a `size_t` above `2 ^ 63` and the allocation fails (`NULL`); a request of at
most `INT_MAX` bytes is taken to succeed and gives `n` zero bytes. -/
def calloc (n : Int) : Option (List Nat) :=
  if 0 ≤ n then some (List.replicate n.toNat 0) else none

/-- `main` (main.c 286-373) on the argument vector `argv` and the keys delivered by
`getch()`.  The result of `calloc` is not checked by the source: with a `NULL` buffer the
first store of `init_grid` is outside any buffer and the run has no result. -/
def main (argv : List String) (keys : List Int) : Option run_result :=
  let p := parse_args argv default_ctx
  if p.1 = false then some ⟨some 1, p.2, []⟩
  else
    let ctx1 := { p.2 with cursor := initial_cursor p.2 }
    (calloc (imul ctx1.w ctx1.h)).bind fun g =>
    (init_grid { ctx1 with grid := g } false).bind fun ctx3 =>
    (main_loop ctx3 keys).map fun res =>
      { res with calls := term_call.initscr :: res.calls }

/-! ## Auxiliary definitions for the proofs -/

/-- Value stored by one toggle of a cell. -/
def flip_ch (v : Nat) : Nat := if v = ON_CH then OFF_CH else ON_CH

/-- Guarded toggle as a total function on the buffer. -/
def flip_if (b : Prop) [Decidable b] (g : List Nat) (i : Nat) : List Nat :=
  if b then g.set i (flip_ch (g.getD i 0)) else g

/-- Buffer left by `toggle_adjacent`, as five guarded toggles. -/
def toggled_grid (ctx : ctx_t) : List Nat :=
  let y := ctx.cursor.y
  let x := ctx.cursor.x
  flip_if ((x : Int) < (ctx.w : Int) - 1)
    (flip_if (x > 0)
      (flip_if ((y : Int) < (ctx.h : Int) - 1)
        (flip_if (y > 0) (flip_if True ctx.grid (y * ctx.w + x)) ((y - 1) * ctx.w + x))
        ((y + 1) * ctx.w + x))
      (y * ctx.w + (x - 1)))
    (y * ctx.w + (x + 1))

/-- The cell `(r, c)` is the cell `(y, x)` or one of its four orthogonal neighbours. -/
def in_plus (y x r c : Nat) : Prop :=
  (r = y ∧ c = x) ∨ (r + 1 = y ∧ c = x) ∨ (r = y + 1 ∧ c = x)
    ∨ (r = y ∧ c + 1 = x) ∨ (r = y ∧ c = x + 1)

instance (y x r c : Nat) : Decidable (in_plus y x r c) := by
  unfold in_plus; infer_instance

/-- The position `(ty, tx)` lies on the frame of a playfield of `H` rows and `W` columns
and carries the character `ch` of the frame there. -/
def on_frame (H W ty tx : Int) (ch : Nat) : Prop :=
  ((ty = 0 ∨ ty = H + 1) ∧ (tx = 0 ∨ tx = W + 1) ∧ ch = CH_PLUS)
    ∨ ((ty = 0 ∨ ty = H + 1) ∧ 1 ≤ tx ∧ tx ≤ W ∧ ch = CH_MINUS)
    ∨ (1 ≤ ty ∧ ty ≤ H ∧ (tx = 0 ∨ tx = W + 1) ∧ ch = CH_BAR)

instance (H W ty tx : Int) (ch : Nat) : Decidable (on_frame H W ty tx ch) := by
  unfold on_frame; infer_instance

/-- The position and character of a call of `draw_border`, in terms of the `int` values
`real_h`, `real_w`, `real_h + 1` and `real_w + 1` of the source. -/
def on_border (ctx : ctx_t) (ty tx : Int) (ch : Nat) : Prop :=
  ((ty = 0 ∨ ty = iadd (real_h ctx) 1) ∧ (tx = 0 ∨ tx = iadd (real_w ctx) 1) ∧ ch = CH_PLUS)
    ∨ ((ty = 0 ∨ ty = iadd (real_h ctx) 1)
        ∧ 1 ≤ tx ∧ tx ≤ real_w ctx ∧ ch = CH_MINUS)
    ∨ (1 ≤ ty ∧ ty ≤ real_h ctx ∧ (tx = 0 ∨ tx = iadd (real_w ctx) 1) ∧ ch = CH_BAR)

instance (ctx : ctx_t) (ty tx : Int) (ch : Nat) : Decidable (on_border ctx ty tx ch) := by
  unfold on_border; infer_instance

/-- A 5x5 board, all off, with the cursor on the central cell and scale 1. -/
def board5 : ctx_t :=
  { w := 5, h := 5, sc := 1, cursor := ⟨2, 2⟩, grid := List.replicate 25 OFF_CH }

/-- The 5x5 board with the cursor on the top-left cell. -/
def board5_corner : ctx_t := { board5 with cursor := ⟨0, 0⟩ }

/-- Calls that write the character `v` at the rows `ty0 .. ty1 - 1` and the columns
`tx0 .. tx1 - 1`, row by row. -/
def tile_block (ty0 ty1 tx0 tx1 : Int) (v : Nat) : List term_call :=
  (int_range ty0 ty1).flatMap fun ty =>
    (int_range tx0 tx1).map fun tx => term_call.mvaddch ty tx v

/-- Twice the distance between the index `r` and the geometric centre `(n - 1) / 2` of
the indices `0 .. n - 1`. -/
def center_dist2 (n r : Int) : Int :=
  if n - 1 ≤ 2 * r then 2 * r - (n - 1) else (n - 1) - 2 * r

/-- Argument vector asking for the resolution `-65531x5`. -/
def argv_negative_width : List String := ["5x5", "-r", "-65531x5"]


/-- Argument vector asking for the scale `-65535`. -/
def argv_negative_scale : List String := ["5x5", "-s", "-65535"]

/-- The configuration satisfies the minimums: `w >= MIN_W`, `h >= MIN_H`, `sc >= 1`. -/
def valid_config (ctx : ctx_t) : Prop := MIN_W ≤ ctx.w ∧ MIN_H ≤ ctx.h ∧ 1 ≤ ctx.sc

instance (ctx : ctx_t) : Decidable (valid_config ctx) := by
  unfold valid_config; infer_instance

/-- The string is one of the options recognised by `parse_args`. -/
def is_option (a : String) : Prop :=
  (a = "-r" ∨ a = "--resolution") ∨ (a = "-s" ∨ a = "--scale")
    ∨ (a = "-k" ∨ a = "--keys") ∨ (a = "-h" ∨ a = "--help")

instance (a : String) : Decidable (is_option a) := by
  unfold is_option; infer_instance


/-- Argument vector giving the resolution twice and the scale once, all accepted. -/
def argv_accepted : List String := ["5x5", "-r", "7x9", "-s", "2", "--resolution", "6x8"]


/-- A 3x2 context whose buffer holds arbitrary bytes, as before initialisation. -/
def board_raw : ctx_t :=
  { w := 3, h := 2, sc := 2, cursor := ⟨0, 1⟩, grid := [0, 35, 7, 46, 255, 1] }

/-- Row `y` of a buffer of row length `w` filled with `v`, as a total function. -/
def fill_row (w v : Nat) (g : List Nat) (y : Nat) : List Nat :=
  (List.range w).foldl (fun g x => g.set (y * w + x) v) g

/-- Rows `0 .. h - 1` of a buffer of row length `w` filled with `v`, as a total function. -/
def fill_rows (w h v : Nat) (g : List Nat) : List Nat :=
  (List.range h).foldl (fill_row w v) g


/-- The 5x5 board drawn at scale 2, cursor on the central cell. -/
def board5_s2 : ctx_t := { board5 with sc := 2 }

/-- A 6x6 configuration as left by `parse_args`, before the cursor is placed. -/
def config6 : ctx_t := { default_ctx with w := 6, h := 6 }


/-- Every cell inside the grid holds `ON_CH` or `OFF_CH`. -/
def binary_cells (ctx : ctx_t) : Prop :=
  ∀ r c, r < ctx.h → c < ctx.w → cell ctx r c = some ON_CH ∨ cell ctx r c = some OFF_CH

/-- Context of `main` after the cursor is placed and the buffer is allocated by `calloc`
(main.c 301-315), for the configuration `c` left by `parse_args`. -/
def start_ctx (c : ctx_t) : ctx_t :=
  { c with cursor := initial_cursor c, grid := List.replicate (c.w * c.h) 0 }

/-- A buffer of `n` off cells. -/
def off_cells (n : Nat) : List Nat := List.replicate n OFF_CH

/-- A 65535x65535 grid of off cells at scale 1 with the cursor at `(65534, 7)`: the index
of the cursor cell, `65534 * 65535 + 7`, is above `INT_MAX`. -/
def huge_board : ctx_t :=
  { w := 65535, h := 65535, sc := 1, cursor := ⟨65534, 7⟩,
    grid := off_cells (65535 * 65535) }

/-- A 65535x5 grid of off cells drawn at scale 65535 (the configuration of
`-r 65535x5 -s 65535`) with the cursor at column 32769: `w * scale` and
`cursor.x * scale` are above `INT_MAX`. -/
def wide_board : ctx_t :=
  { w := 65535, h := 5, sc := 65535, cursor := ⟨2, 32769⟩, grid := off_cells (65535 * 5) }

/-- A 5x65535 grid of off cells drawn at scale 65535 (the configuration of
`-r 5x65535 -s 65535`) with the cursor at row 32769: `h * scale` and `cursor.y * scale`
are above `INT_MAX`. -/
def tall_board : ctx_t :=
  { w := 5, h := 65535, sc := 65535, cursor := ⟨32769, 2⟩, grid := off_cells (5 * 65535) }

/-- A 5x65535 grid of off cells drawn at the even scale 65534 with the cursor at row
32770: `cursor.y * scale` is above `INT_MAX`. -/
def tall_board_even : ctx_t :=
  { w := 5, h := 65535, sc := 65534, cursor := ⟨32770, 2⟩, grid := off_cells (5 * 65535) }

/-- A 65535x5 grid of off cells drawn at the even scale 65534 with the cursor at column
32770: `cursor.x * scale` is above `INT_MAX`. -/
def wide_board_even : ctx_t :=
  { w := 65535, h := 5, sc := 65534, cursor := ⟨2, 32770⟩, grid := off_cells (65535 * 5) }

/-- Characters written at the terminal position `(ty, tx)` by a list of calls, in program
order. -/
def writes_at (calls : List term_call) (ty tx : Int) : List Nat :=
  calls.filterMap fun call =>
    match call with
    | term_call.mvaddch y x ch => if y = ty ∧ x = tx then some ch else none
    | _ => none


/-- The statement `if (grid[i] == ON_CH) grid[i] = OFF_CH; else grid[i] = ON_CH;` as a total
function on the buffer (nothing happens outside the buffer). -/
def flip_at (g : List Nat) (i : Nat) : List Nat := g.set i (flip_ch (g.getD i 0))

/-- Cells `(row, column)` that `toggle_adjacent` addresses for the cursor `cur` on a grid
of width `w` and height `h`, in program order and under the guards of the source. -/
def toggle_targets (w h : Nat) (cur : point_t) : List (Nat × Nat) :=
  [(cur.y, cur.x)]
    ++ (if cur.y > 0 then [(cur.y - 1, cur.x)] else [])
    ++ (if (cur.y : Int) < (h : Int) - 1 then [(cur.y + 1, cur.x)] else [])
    ++ (if cur.x > 0 then [(cur.y, cur.x - 1)] else [])
    ++ (if (cur.x : Int) < (w : Int) - 1 then [(cur.y, cur.x + 1)] else [])

/-- Values of the index expressions that `toggle_adjacent` evaluates (main.c 242-276), in
program order and under the guards of the source; each is an `int`. -/
def toggle_indices (ctx : ctx_t) : List Int :=
  let y := ctx.cursor.y
  let x := ctx.cursor.x
  let w : Int := ctx.w
  [iadd (imul y w) x]
    ++ (if y > 0 then [iadd (imul (isub y 1) w) x] else [])
    ++ (if (y : Int) < (ctx.h : Int) - 1 then [iadd (imul (iadd y 1) w) x] else [])
    ++ (if x > 0 then [iadd (imul y w) (isub x 1)] else [])
    ++ (if (x : Int) < (ctx.w : Int) - 1 then [iadd (imul y w) (iadd x 1)] else [])

/-- `toggle_adjacent` with the cursor placed at `p`. -/
def toggle_at (ctx : ctx_t) (p : point_t) : Option ctx_t :=
  toggle_adjacent { ctx with cursor := p }

/-- `toggle_adjacent` at each position of a list, one after the other. -/
def toggle_all : ctx_t → List point_t → Option ctx_t
  | ctx, [] => some ctx
  | ctx, p :: ps => (toggle_at ctx p).bind fun c => toggle_all c ps

/-- The position lies inside the grid of the context. -/
def point_in_bounds (ctx : ctx_t) (p : point_t) : Prop := p.y < ctx.h ∧ p.x < ctx.w

instance (ctx : ctx_t) (p : point_t) : Decidable (point_in_bounds ctx p) := by
  unfold point_in_bounds; infer_instance

/-- Buffer left by `toggle_adjacent` for the cursor `p` on a buffer `g` of a `w x h`
grid. -/
def toggled_at (w h : Nat) (g : List Nat) (p : point_t) : List Nat :=
  toggled_grid { w := w, h := h, sc := 0, cursor := p, grid := g }


/-- The key code (after `tolower`) is one of the up or down keys of the main loop. -/
def is_vertical_key (c : Int) : Prop := (c = 107 ∨ c = KEY_UP) ∨ (c = 106 ∨ c = KEY_DOWN)

/-- The key code (after `tolower`) is one of the left or right keys of the main loop. -/
def is_horizontal_key (c : Int) : Prop := (c = 104 ∨ c = KEY_LEFT) ∨ (c = 108 ∨ c = KEY_RIGHT)

instance (c : Int) : Decidable (is_vertical_key c) := by
  unfold is_vertical_key; infer_instance

instance (c : Int) : Decidable (is_horizontal_key c) := by
  unfold is_horizontal_key; infer_instance

/-! ## Theorems -/

/-! ## Facts on `int` arithmetic -/

theorem wrap_int_eq (v : Int) (h0 : -2147483648 ≤ v) (h1 : v ≤ 2147483647) :
    wrap_int v = v := by
  unfold wrap_int; omega

theorem wrap_int_range (v : Int) : -2147483648 ≤ wrap_int v ∧ wrap_int v ≤ 2147483647 := by
  unfold wrap_int; omega

/-- `wrap_int` is injective on `0 .. 2 ^ 32 - 1`. -/
theorem wrap_int_inj (a b : Int) (ha : 0 ≤ a) (ha1 : a < 4294967296) (hb : 0 ≤ b)
    (hb1 : b < 4294967296) (h : wrap_int a = wrap_int b) : a = b := by
  unfold wrap_int at h; omega

theorem imul_cast (a b : Nat) (h : a * b ≤ 2147483647) :
    imul (a : Int) (b : Int) = ((a * b : Nat) : Int) := by
  unfold imul
  rw [← Int.ofNat_mul]
  exact wrap_int_eq _ (by omega) (by exact_mod_cast h)

theorem iadd_cast (a b : Nat) (h : a + b ≤ 2147483647) :
    iadd (a : Int) (b : Int) = ((a + b : Nat) : Int) := by
  unfold iadd
  rw [← Int.ofNat_add]
  exact wrap_int_eq _ (by omega) (by exact_mod_cast h)

theorem isub_cast (a b : Nat) (hb : b ≤ a) (h : a ≤ 2147483647) :
    isub (a : Int) (b : Int) = ((a - b : Nat) : Int) := by
  unfold isub
  rw [Int.ofNat_sub hb]
  exact wrap_int_eq _ (by omega) (by omega)

/-- The index expression `y * w + x` when the index is a value of `int`. -/
theorem idx_cast (y w x : Nat) (h : y * w + x ≤ 2147483647) :
    iadd (imul (y : Int) (w : Int)) (x : Int) = ((y * w + x : Nat) : Int) := by
  rw [imul_cast y w (by omega), iadd_cast (y * w) x h]

theorem mem_int_range (a b z : Int) : z ∈ int_range a b ↔ a ≤ z ∧ z < b := by
  unfold int_range
  simp only [List.mem_map, List.mem_range]
  constructor
  · rintro ⟨i, hi, rfl⟩
    omega
  · rintro ⟨h1, h2⟩
    exact ⟨(z - a).toNat, by omega, by omega⟩

theorem int_range_length (a b : Int) : (int_range a b).length = (b - a).toNat := by
  unfold int_range; simp

/-! ## Auxiliary facts on the grid buffer -/

theorem toggle_cell_neg (g : List Nat) (i : Int) (hi : i < 0) : toggle_cell g i = none := by
  unfold toggle_cell grid_read
  rw [if_neg (by omega)]

theorem grid_write_neg (g : List Nat) (i : Int) (v : Nat) (hi : i < 0) :
    grid_write g i v = none := by
  unfold grid_write
  rw [if_neg (by omega)]

theorem grid_read_cast (g : List Nat) (i : Nat) : grid_read g (i : Int) = g[i]? := by
  unfold grid_read
  rw [if_pos (by omega), Int.toNat_ofNat]

theorem grid_write_cast (g : List Nat) (i v : Nat) (hi : i < g.length) :
    grid_write g (i : Int) v = some (g.set i v) := by
  unfold grid_write
  rw [Int.toNat_ofNat, if_pos ⟨by omega, hi⟩]

theorem toggle_cell_eq (g : List Nat) (i : Nat) (hi : i < g.length) :
    toggle_cell g (i : Int) = some (g.set i (flip_ch (g.getD i 0))) := by
  unfold toggle_cell flip_ch
  rw [grid_read_cast, List.getElem?_eq_getElem hi]
  simp only [List.getD_eq_getElem?_getD, List.getElem?_eq_getElem hi, Option.getD_some,
    grid_write_cast g i _ hi]
  split <;> rfl

theorem flip_if_length (b : Prop) [Decidable b] (g : List Nat) (i : Nat) :
    (flip_if b g i).length = g.length := by
  unfold flip_if; split <;> simp

theorem flip_if_getD (b : Prop) [Decidable b] (g : List Nat) (i j : Nat) (hj : j < g.length) :
    (flip_if b g i).getD j 0 = if b ∧ i = j then flip_ch (g.getD j 0) else g.getD j 0 := by
  unfold flip_if
  by_cases hb : b
  · by_cases hij : i = j
    · subst hij
      simp [hb, List.getD_eq_getElem?_getD, List.getElem?_set, hj]
    · simp [hb, hij, List.getD_eq_getElem?_getD, List.getElem?_set]
  · simp [hb]


theorem guarded_toggle_eq (b : Prop) [Decidable b] (g : List Nat) (i : Int) (n : Nat)
    (hi : b → i = (n : Int) ∧ n < g.length) :
    (if b then toggle_cell g i else some g) = some (flip_if b g n) := by
  unfold flip_if
  by_cases hb : b
  · rw [if_pos hb, if_pos hb, (hi hb).1, toggle_cell_eq g n (hi hb).2]
  · rw [if_neg hb, if_neg hb]

/-- Row-major indices stay inside a buffer of `w * h` cells. -/
theorem idx_lt {w h y x : Nat} (hy : y < h) (hx : x < w) : y * w + x < w * h := by
  have h1 : (y + 1) * w ≤ h * w := Nat.mul_le_mul_right w hy
  have h2 : (y + 1) * w = y * w + w := by ring
  have h3 : h * w = w * h := Nat.mul_comm h w
  omega

/-- Row-major indexing is injective on in-range columns. -/
theorem idx_inj {w r c y x : Nat} (hc : c < w) (hx : x < w) :
    r * w + c = y * w + x ↔ r = y ∧ c = x := by
  constructor
  · intro he
    have hw : 0 < w := by omega
    have hr : (r * w + c) / w = r := by
      rw [Nat.add_comm, Nat.add_mul_div_right _ _ hw, Nat.div_eq_of_lt hc, Nat.zero_add]
    have hyy : (y * w + x) / w = y := by
      rw [Nat.add_comm, Nat.add_mul_div_right _ _ hw, Nat.div_eq_of_lt hx, Nat.zero_add]
    have hry : r = y := by rw [← hr, ← hyy, he]
    subst hry
    exact ⟨rfl, by omega⟩
  · rintro ⟨rfl, rfl⟩; rfl


theorem toggled_grid_length (ctx : ctx_t) : (toggled_grid ctx).length = ctx.grid.length := by
  simp [toggled_grid, flip_if_length]


/-- On an in-bounds cursor and a buffer of `w * h` cells, with `w * h` a value of `int`,
`toggle_adjacent` succeeds. -/
theorem toggle_adjacent_eq (ctx : ctx_t) (hb : cursor_in_bounds ctx) (hs : grid_sized ctx)
    (hi : int_sized ctx) :
    toggle_adjacent ctx = some { ctx with grid := toggled_grid ctx } := by
  obtain ⟨hy, hx⟩ := hb
  unfold grid_sized at hs
  unfold int_sized INT_MAX at hi
  have hyw : ctx.cursor.y ≤ 2147483647 := by
    have := idx_lt hy hx
    have h1 : ctx.cursor.y ≤ ctx.cursor.y * ctx.w :=
      Nat.le_mul_of_pos_right _ (by omega)
    omega
  have hxw : ctx.cursor.x ≤ 2147483647 := by
    have := idx_lt hy hx
    omega
  have hhw : ctx.h ≤ ctx.w * ctx.h := Nat.le_mul_of_pos_left _ (by omega)
  unfold toggle_adjacent toggled_grid
  have e0 : toggle_cell ctx.grid (iadd (imul ctx.cursor.y ctx.w) ctx.cursor.x)
      = some (flip_if True ctx.grid (ctx.cursor.y * ctx.w + ctx.cursor.x)) := by
    have := guarded_toggle_eq True ctx.grid (iadd (imul ctx.cursor.y ctx.w) ctx.cursor.x)
      (ctx.cursor.y * ctx.w + ctx.cursor.x)
      (fun _ => by
        have hlt := idx_lt hy hx
        exact ⟨idx_cast _ _ _ (by omega), by rw [hs]; exact hlt⟩)
    simpa using this
  simp only [e0, Option.some_bind]
  rw [guarded_toggle_eq _ _ _ ((ctx.cursor.y - 1) * ctx.w + ctx.cursor.x) (fun hg => by
    have hlt : (ctx.cursor.y - 1) * ctx.w + ctx.cursor.x < ctx.w * ctx.h :=
      idx_lt (by omega) hx
    refine ⟨?_, by rw [flip_if_length, hs]; exact hlt⟩
    have e1 : isub (ctx.cursor.y : Int) 1 = ((ctx.cursor.y - 1 : Nat) : Int) :=
      isub_cast ctx.cursor.y 1 (by omega) hyw
    rw [e1]
    exact idx_cast _ _ _ (by omega))]
  simp only [Option.some_bind]
  rw [guarded_toggle_eq _ _ _ ((ctx.cursor.y + 1) * ctx.w + ctx.cursor.x) (fun hg => by
    have hlt : (ctx.cursor.y + 1) * ctx.w + ctx.cursor.x < ctx.w * ctx.h :=
      idx_lt (by omega) hx
    refine ⟨?_, by rw [flip_if_length, flip_if_length, hs]; exact hlt⟩
    have e1 : iadd (ctx.cursor.y : Int) 1 = ((ctx.cursor.y + 1 : Nat) : Int) :=
      iadd_cast ctx.cursor.y 1 (by omega)
    rw [e1]
    exact idx_cast _ _ _ (by omega))]
  simp only [Option.some_bind]
  rw [guarded_toggle_eq _ _ _ (ctx.cursor.y * ctx.w + (ctx.cursor.x - 1)) (fun hg => by
    have hlt : ctx.cursor.y * ctx.w + (ctx.cursor.x - 1) < ctx.w * ctx.h :=
      idx_lt hy (by omega)
    refine ⟨?_, by rw [flip_if_length, flip_if_length, flip_if_length, hs]; exact hlt⟩
    have e1 : isub (ctx.cursor.x : Int) 1 = ((ctx.cursor.x - 1 : Nat) : Int) :=
      isub_cast ctx.cursor.x 1 (by omega) hxw
    rw [e1]
    exact idx_cast _ _ _ (by omega))]
  simp only [Option.some_bind]
  rw [guarded_toggle_eq _ _ _ (ctx.cursor.y * ctx.w + (ctx.cursor.x + 1)) (fun hg => by
    have hlt : ctx.cursor.y * ctx.w + (ctx.cursor.x + 1) < ctx.w * ctx.h :=
      idx_lt hy (by omega)
    refine ⟨?_, by
      rw [flip_if_length, flip_if_length, flip_if_length, flip_if_length, hs]; exact hlt⟩
    have e1 : iadd (ctx.cursor.x : Int) 1 = ((ctx.cursor.x + 1 : Nat) : Int) :=
      iadd_cast ctx.cursor.x 1 (by omega)
    rw [e1]
    exact idx_cast _ _ _ (by omega))]
  simp only [Option.some_bind]

/-- Cell by cell description of the buffer left by `toggle_adjacent`. -/
theorem toggled_grid_getD (ctx : ctx_t) (hb : cursor_in_bounds ctx) (hs : grid_sized ctx)
    (r c : Nat) (hr : r < ctx.h) (hc : c < ctx.w) :
    (toggled_grid ctx).getD (r * ctx.w + c) 0
      = if in_plus ctx.cursor.y ctx.cursor.x r c
        then flip_ch (ctx.grid.getD (r * ctx.w + c) 0)
        else ctx.grid.getD (r * ctx.w + c) 0 := by
  obtain ⟨hy, hx⟩ := hb
  unfold grid_sized at hs
  have hj : r * ctx.w + c < ctx.grid.length := by rw [hs]; exact idx_lt hr hc
  unfold toggled_grid
  simp only []
  rw [flip_if_getD _ _ _ _ (by simpa [flip_if_length] using hj),
    flip_if_getD _ _ _ _ (by simpa [flip_if_length] using hj),
    flip_if_getD _ _ _ _ (by simpa [flip_if_length] using hj),
    flip_if_getD _ _ _ _ (by simpa [flip_if_length] using hj),
    flip_if_getD _ _ _ _ hj]
  have k0 : ctx.cursor.y * ctx.w + ctx.cursor.x = r * ctx.w + c
      ↔ ctx.cursor.y = r ∧ ctx.cursor.x = c := idx_inj hx hc
  have k1 : ctx.cursor.y > 0 → ((ctx.cursor.y - 1) * ctx.w + ctx.cursor.x = r * ctx.w + c
      ↔ ctx.cursor.y - 1 = r ∧ ctx.cursor.x = c) := fun _ => idx_inj hx hc
  have k2 : (ctx.cursor.y + 1) * ctx.w + ctx.cursor.x = r * ctx.w + c
      ↔ ctx.cursor.y + 1 = r ∧ ctx.cursor.x = c := idx_inj hx hc
  have k3 : ctx.cursor.x > 0 → (ctx.cursor.y * ctx.w + (ctx.cursor.x - 1) = r * ctx.w + c
      ↔ ctx.cursor.y = r ∧ ctx.cursor.x - 1 = c) := fun _ => idx_inj (by omega) hc
  have k4 : (ctx.cursor.x : Int) < (ctx.w : Int) - 1 →
      (ctx.cursor.y * ctx.w + (ctx.cursor.x + 1) = r * ctx.w + c
      ↔ ctx.cursor.y = r ∧ ctx.cursor.x + 1 = c) := fun _ => idx_inj (by omega) hc
  generalize ctx.grid.getD (r * ctx.w + c) 0 = v
  simp only [k0, and_congr_right k1, k2, and_congr_right k3, and_congr_right k4]
  unfold in_plus
  clear k0 k1 k2 k3 k4 hs hj
  simp only [true_and]
  split_ifs <;> first | rfl | (exfalso; omega)

theorem flip_ch_flip_ch (v : Nat) (hv : v = ON_CH ∨ v = OFF_CH) : flip_ch (flip_ch v) = v := by
  rcases hv with rfl | rfl <;> decide

theorem flip_ch_ne (v : Nat) : flip_ch v ≠ v := by
  unfold flip_ch ON_CH OFF_CH; split <;> omega

/-- Two buffers of `w * h` cells that agree on every cell `(r, c)` are equal. -/
theorem grid_ext (w h : Nat) (g1 g2 : List Nat) (h1 : g1.length = w * h)
    (h2 : g2.length = w * h)
    (hcell : ∀ r c, r < h → c < w → g1.getD (r * w + c) 0 = g2.getD (r * w + c) 0) :
    g1 = g2 := by
  apply List.ext_getElem (by rw [h1, h2])
  intro j hj1 hj2
  have hw : 0 < w := by
    rcases Nat.eq_zero_or_pos w with h0 | h0
    · rw [h1, h0, Nat.zero_mul] at hj1; omega
    · exact h0
  have hq : j / w < h := by
    rw [Nat.div_lt_iff_lt_mul hw, Nat.mul_comm]; omega
  have hm : j % w < w := Nat.mod_lt _ hw
  have hjj : j / w * w + j % w = j := Nat.div_add_mod' j w
  have := hcell (j / w) (j % w) hq hm
  rw [hjj] at this
  simpa [List.getD_eq_getElem?_getD, List.getElem?_eq_getElem hj1,
    List.getElem?_eq_getElem hj2] using this

/-! ## Plus-shaped toggle -/

theorem off_cells_length (n : Nat) : (off_cells n).length = n := by
  unfold off_cells; exact List.length_replicate _ _

theorem off_cells_binary (n : Nat) : binary_grid (off_cells n) := by
  intro v hv
  unfold off_cells at hv
  exact Or.inr (List.eq_of_mem_replicate hv)

/-- On the 65535x65535 board the index of the cursor cell wraps to `-196599`, so the first
access of `toggle_adjacent` is outside the buffer. -/
theorem huge_board_toggle_none : toggle_adjacent huge_board = none := by
  have e : iadd (imul ((65534 : Nat) : Int) ((65535 : Nat) : Int)) ((7 : Nat) : Int)
      = -196599 := by decide
  unfold toggle_adjacent huge_board
  simp only [e, toggle_cell_neg _ (-196599) (by decide), Option.none_bind]

/-- C1, as stated, fails: on a 65535x65535 grid of off cells with the cursor at
`(65534, 7)` (in bounds, `w * h` cells, every cell `.`), the index `65534 * 65535 + 7` of
the cursor cell overflows `int`, `toggle_adjacent` leaves the buffer, and two applications
do not give back the original context. -/
theorem toggle_adjacent_involution_counterexample :
    grid_sized huge_board ∧ binary_grid huge_board.grid ∧ cursor_in_bounds huge_board ∧
    (toggle_adjacent huge_board).bind toggle_adjacent ≠ some huge_board := by
  refine ⟨?_, ?_, ?_, ?_⟩
  · unfold grid_sized huge_board
    exact off_cells_length _
  · exact off_cells_binary _
  · unfold cursor_in_bounds huge_board
    exact ⟨by decide, by decide⟩
  · rw [huge_board_toggle_none, Option.none_bind]
    exact fun h => Option.noConfusion h

/-- C1 (amended): on a grid of `w * h` cells that each hold `#` or `.`, with `w * h` at
most `INT_MAX` and the cursor inside the grid (so `w >= 1` and `h >= 1`),
`toggle_adjacent` applied twice at the same cursor succeeds both times and gives back the
original context, grid included cell for cell. -/
theorem toggle_adjacent_involution (ctx : ctx_t) (hs : grid_sized ctx) (hi : int_sized ctx)
    (hbin : binary_grid ctx.grid) (hb : cursor_in_bounds ctx) :
    (toggle_adjacent ctx).bind toggle_adjacent = some ctx := by
  rw [toggle_adjacent_eq ctx hb hs hi, Option.some_bind]
  have hs1 : grid_sized { ctx with grid := toggled_grid ctx } := by
    unfold grid_sized at *; simpa [toggled_grid_length] using hs
  have hb1 : cursor_in_bounds { ctx with grid := toggled_grid ctx } := hb
  have hi1 : int_sized { ctx with grid := toggled_grid ctx } := hi
  rw [toggle_adjacent_eq _ hb1 hs1 hi1]
  have hg : toggled_grid { ctx with grid := toggled_grid ctx } = ctx.grid := by
    apply grid_ext ctx.w ctx.h
    · rw [toggled_grid_length]; exact hs1
    · exact hs
    · intro r c hr hc
      have e1 := toggled_grid_getD _ hb1 hs1 r c hr hc
      have e0 := toggled_grid_getD ctx hb hs r c hr hc
      simp only [] at e1
      rw [e1, e0]
      have hv : ctx.grid.getD (r * ctx.w + c) 0 = ON_CH
          ∨ ctx.grid.getD (r * ctx.w + c) 0 = OFF_CH := by
        have hj : r * ctx.w + c < ctx.grid.length := by
          rw [hs]; exact idx_lt hr hc
        rw [List.getD_eq_getElem?_getD, List.getElem?_eq_getElem hj, Option.getD_some]
        exact hbin _ (List.getElem_mem hj)
      split_ifs
      · exact flip_ch_flip_ch _ hv
      · rfl
  simp only [hg]

/-- Witness of C1: the all-off 5x5 board with the cursor on the central cell. -/
theorem toggle_adjacent_involution_witness :
    (toggle_adjacent board5).bind toggle_adjacent = some board5 :=
  toggle_adjacent_involution board5 (by decide) (by decide) (by decide) (by decide)

/-- C2, as stated, fails: on a 65535x65535 grid of `w * h` cells with the in-bounds cursor
`(65534, 7)`, the index of the cursor cell overflows `int` and `toggle_adjacent` leaves
the buffer instead of flipping the cells of the plus. -/
theorem toggle_adjacent_footprint_counterexample :
    grid_sized huge_board ∧ cursor_in_bounds huge_board ∧
    ¬ ∃ ctx1, toggle_adjacent huge_board = some ctx1 := by
  refine ⟨?_, ?_, ?_⟩
  · unfold grid_sized huge_board
    exact off_cells_length _
  · unfold cursor_in_bounds huge_board
    exact ⟨by decide, by decide⟩
  · rintro ⟨ctx1, h⟩
    rw [huge_board_toggle_none] at h
    exact Option.noConfusion h

/-- C2 (amended): on a grid of `w * h` cells, `w * h` at most `INT_MAX`, with the cursor
`(y, x)` inside the grid, `toggle_adjacent` succeeds, and a cell `(r, c)` of the grid
changes if and only if it is the cursor cell or one of `(y-1, x)`, `(y+1, x)`, `(y, x-1)`,
`(y, x+1)`; such a cell goes from `#` to `.` and from anything else to `#`, every other
cell keeps its value (so a neighbour outside the grid is skipped and no cell of another
row or column is touched in its place). -/
theorem toggle_adjacent_footprint (ctx : ctx_t) (hs : grid_sized ctx) (hi : int_sized ctx)
    (hb : cursor_in_bounds ctx) :
    ∃ ctx1, toggle_adjacent ctx = some ctx1 ∧
      ∀ r c, r < ctx.h → c < ctx.w →
        ∃ old new, cell ctx r c = some old ∧ cell ctx1 r c = some new ∧
          (new ≠ old ↔ in_plus ctx.cursor.y ctx.cursor.x r c) ∧
          (in_plus ctx.cursor.y ctx.cursor.x r c →
            (old = ON_CH → new = OFF_CH) ∧ (old ≠ ON_CH → new = ON_CH)) ∧
          (¬ in_plus ctx.cursor.y ctx.cursor.x r c → new = old) := by
  refine ⟨_, toggle_adjacent_eq ctx hb hs hi, ?_⟩
  intro r c hr hc
  have hj : r * ctx.w + c < ctx.grid.length := by rw [hs]; exact idx_lt hr hc
  have hj1 : r * ctx.w + c < (toggled_grid ctx).length := by
    rw [toggled_grid_length]; exact hj
  have e0 := toggled_grid_getD ctx hb hs r c hr hc
  rw [List.getD_eq_getElem?_getD, List.getD_eq_getElem?_getD, List.getElem?_eq_getElem hj,
    List.getElem?_eq_getElem hj1, Option.getD_some, Option.getD_some] at e0
  refine ⟨ctx.grid[r * ctx.w + c], (toggled_grid ctx)[r * ctx.w + c], ?_, ?_, ?_, ?_, ?_⟩
  · unfold cell; exact List.getElem?_eq_getElem hj
  · unfold cell; exact List.getElem?_eq_getElem hj1
  · rw [e0]
    by_cases hp : in_plus ctx.cursor.y ctx.cursor.x r c
    · simp only [hp, if_true, iff_true]; exact flip_ch_ne _
    · simp [hp]
  · intro hp
    rw [e0, if_pos hp]
    unfold flip_ch
    constructor
    · intro ho; rw [if_pos ho]
    · intro ho; rw [if_neg ho]
  · intro hp
    rw [e0, if_neg hp]

/-- Witness of C2: on the 5x5 board, toggling at `(2, 2)` flips exactly the cells
`(2,2)`, `(1,2)`, `(3,2)`, `(2,1)`, `(2,3)`. -/
theorem toggle_adjacent_footprint_witness :
    toggle_adjacent board5 = some { board5 with grid :=
        [46, 46, 46, 46, 46,
         46, 46, 35, 46, 46,
         46, 35, 35, 35, 46,
         46, 46, 35, 46, 46,
         46, 46, 46, 46, 46] } ∧
    ∃ ctx1, toggle_adjacent board5 = some ctx1 ∧
      ∀ r c, r < board5.h → c < board5.w →
        ∃ old new, cell board5 r c = some old ∧ cell ctx1 r c = some new ∧
          (new ≠ old ↔ in_plus board5.cursor.y board5.cursor.x r c) ∧
          (in_plus board5.cursor.y board5.cursor.x r c →
            (old = ON_CH → new = OFF_CH) ∧ (old ≠ ON_CH → new = ON_CH)) ∧
          (¬ in_plus board5.cursor.y board5.cursor.x r c → new = old) :=
  ⟨by decide, toggle_adjacent_footprint board5 (by decide) (by decide) (by decide)⟩

theorem toggle_cell_length (g g1 : List Nat) (i : Int) (h : toggle_cell g i = some g1) :
    g1.length = g.length := by
  unfold toggle_cell at h
  cases hr : grid_read g i with
  | none => rw [hr] at h; exact Option.noConfusion h
  | some v =>
    rw [hr] at h
    simp only [] at h
    unfold grid_write at h
    by_cases hv : v = ON_CH
    · rw [if_pos hv] at h
      by_cases hw : 0 ≤ i ∧ i.toNat < g.length
      · rw [if_pos hw, Option.some.injEq] at h
        rw [← h, List.length_set]
      · rw [if_neg hw] at h; exact Option.noConfusion h
    · rw [if_neg hv] at h
      by_cases hw : 0 ≤ i ∧ i.toNat < g.length
      · rw [if_pos hw, Option.some.injEq] at h
        rw [← h, List.length_set]
      · rw [if_neg hw] at h; exact Option.noConfusion h

theorem guarded_toggle_length (b : Prop) [Decidable b] (g g1 : List Nat) (i : Int)
    (h : (if b then toggle_cell g i else some g) = some g1) : g1.length = g.length := by
  by_cases hb : b
  · rw [if_pos hb] at h; exact toggle_cell_length g g1 i h
  · rw [if_neg hb, Option.some.injEq] at h; rw [← h]

/-- Whenever `toggle_adjacent` stays inside the buffer it changes the bytes of the buffer
only. -/
theorem toggle_adjacent_some (ctx c1 : ctx_t) (h : toggle_adjacent ctx = some c1) :
    ∃ g, c1 = { ctx with grid := g } ∧ g.length = ctx.grid.length := by
  unfold toggle_adjacent at h
  simp only [Option.bind_eq_some] at h
  obtain ⟨g0, h0, g1, h1, g2, h2, g3, h3, g4, h4, h5⟩ := h
  rw [Option.some.injEq] at h5
  refine ⟨g4, h5.symm, ?_⟩
  rw [guarded_toggle_length _ _ _ _ h4, guarded_toggle_length _ _ _ _ h3,
    guarded_toggle_length _ _ _ _ h2, guarded_toggle_length _ _ _ _ h1,
    toggle_cell_length _ _ _ h0]

theorem toggle_adjacent_frame (ctx c1 : ctx_t) (h : toggle_adjacent ctx = some c1) :
    c1.w = ctx.w ∧ c1.h = ctx.h ∧ c1.sc = ctx.sc ∧ c1.cursor = ctx.cursor := by
  obtain ⟨g, rfl, _⟩ := toggle_adjacent_some ctx c1 h
  exact ⟨rfl, rfl, rfl, rfl⟩

/-! ## Drawing never leaves the buffer -/

theorem seq_calls_isSome (l : List (Option (List term_call)))
    (hl : ∀ o ∈ l, o.isSome = true) : (seq_calls l).isSome = true := by
  induction l with
  | nil => rfl
  | cons o rest ih =>
    have ho := hl o (List.mem_cons_self _ _)
    have hr := ih (fun p hp => hl p (List.mem_cons_of_mem _ hp))
    cases o with
    | none => simp at ho
    | some a =>
      cases hrest : seq_calls rest with
      | none => rw [hrest] at hr; simp at hr
      | some b => simp [seq_calls, hrest]


theorem draw_tile_isSome (ctx : ctx_t) (hs : grid_sized ctx) (hi : int_sized ctx) (y x : Nat)
    (hy : y < ctx.h) (hx : x < ctx.w) : (draw_tile ctx y x).isSome = true := by
  unfold grid_sized at hs
  unfold int_sized INT_MAX at hi
  have hlt := idx_lt hy hx
  have hj : y * ctx.w + x < ctx.grid.length := by rw [hs]; exact hlt
  unfold draw_tile
  rw [idx_cast _ _ _ (by omega), grid_read_cast, List.getElem?_eq_getElem hj]
  rfl

theorem draw_tiles_isSome (ctx : ctx_t) (hs : grid_sized ctx) (hi : int_sized ctx) :
    (draw_tiles ctx).isSome = true := by
  unfold draw_tiles
  apply seq_calls_isSome
  intro o ho
  rw [List.mem_flatMap] at ho
  obtain ⟨y, hy, ho⟩ := ho
  rw [List.mem_map] at ho
  obtain ⟨x, hx, rfl⟩ := ho
  exact draw_tile_isSome ctx hs hi y x (List.mem_range.mp hy) (List.mem_range.mp hx)

/-- On a buffer of `w * h` cells, `w * h` a value of `int`, `redraw_grid` succeeds; its
last call places the cursor. -/
theorem redraw_grid_eq (ctx : ctx_t) (hs : grid_sized ctx) (hi : int_sized ctx) :
    ∃ tiles, draw_tiles ctx = some tiles ∧
      redraw_grid ctx
        = some (draw_border ctx ++ tiles ++ [term_call.move (real_y ctx) (real_x ctx)]) := by
  have h := draw_tiles_isSome ctx hs hi
  cases ht : draw_tiles ctx with
  | none => rw [ht] at h; simp at h
  | some tiles => exact ⟨tiles, rfl, by simp [redraw_grid, ht]⟩

/-! ## Key actions -/

theorem u16_dec_lt (v b : Nat) (h0 : v > 0) (hv : v < b) : u16_dec v < b := by
  unfold u16_dec; omega

theorem u16_inc_le (v : Nat) : u16_inc v ≤ v + 1 := by
  unfold u16_inc; omega


/-- Whenever a key action is defined, it keeps the context well formed. -/
theorem key_switch_keeps (ctx : ctx_t) (c : Int) (hb : cursor_in_bounds ctx)
    (r : ctx_t × Int) (h : key_switch ctx c = some r) :
    cursor_in_bounds r.1 ∧ r.1.w = ctx.w ∧ r.1.h = ctx.h ∧ r.1.sc = ctx.sc
      ∧ r.1.grid.length = ctx.grid.length := by
  obtain ⟨hy, hx⟩ := hb
  unfold key_switch at h
  split_ifs at h with h1 h2 h3 h4 h5 h6 h7 h8 h9 h10 h11
  · rw [Option.some.injEq] at h; subst h
    exact ⟨⟨u16_dec_lt _ _ h2 hy, hx⟩, rfl, rfl, rfl, rfl⟩
  · rw [Option.some.injEq] at h; subst h
    exact ⟨⟨hy, hx⟩, rfl, rfl, rfl, rfl⟩
  · rw [Option.some.injEq] at h; subst h
    have hd : u16_inc ctx.cursor.y < ctx.h := by
      have := u16_inc_le ctx.cursor.y
      omega
    exact ⟨⟨hd, hx⟩, rfl, rfl, rfl, rfl⟩
  · rw [Option.some.injEq] at h; subst h
    exact ⟨⟨hy, hx⟩, rfl, rfl, rfl, rfl⟩
  · rw [Option.some.injEq] at h; subst h
    exact ⟨⟨hy, u16_dec_lt _ _ h6 hx⟩, rfl, rfl, rfl, rfl⟩
  · rw [Option.some.injEq] at h; subst h
    exact ⟨⟨hy, hx⟩, rfl, rfl, rfl, rfl⟩
  · rw [Option.some.injEq] at h; subst h
    have hd : u16_inc ctx.cursor.x < ctx.w := by
      have := u16_inc_le ctx.cursor.x
      omega
    exact ⟨⟨hy, hd⟩, rfl, rfl, rfl, rfl⟩
  · rw [Option.some.injEq] at h; subst h
    exact ⟨⟨hy, hx⟩, rfl, rfl, rfl, rfl⟩
  · rw [Option.map_eq_some'] at h
    obtain ⟨c1, ht, rfl⟩ := h
    obtain ⟨g, rfl, hg⟩ := toggle_adjacent_some ctx c1 ht
    exact ⟨⟨hy, hx⟩, rfl, rfl, rfl, hg⟩
  · rw [Option.some.injEq] at h; subst h
    exact ⟨⟨hy, hx⟩, rfl, rfl, rfl, rfl⟩
  · rw [Option.some.injEq] at h; subst h
    exact ⟨⟨hy, hx⟩, rfl, rfl, rfl, rfl⟩
  · rw [Option.some.injEq] at h; subst h
    exact ⟨⟨hy, hx⟩, rfl, rfl, rfl, rfl⟩

/-- A key action is defined on a well-formed context: for the toggle key when `w * h` is a
value of `int`, for every other key always. -/
theorem key_switch_defined (ctx : ctx_t) (c : Int) (hs : grid_sized ctx)
    (hb : cursor_in_bounds ctx) (hi : c = 32 → int_sized ctx) :
    ∃ r, key_switch ctx c = some r := by
  unfold key_switch
  split_ifs with h1 h2 h3 h4 h5 h6 h7 h8 h9 h10 h11
  · exact ⟨_, rfl⟩
  · exact ⟨_, rfl⟩
  · exact ⟨_, rfl⟩
  · exact ⟨_, rfl⟩
  · exact ⟨_, rfl⟩
  · exact ⟨_, rfl⟩
  · exact ⟨_, rfl⟩
  · exact ⟨_, rfl⟩
  · rw [toggle_adjacent_eq ctx hb hs (hi h9)]
    exact ⟨_, rfl⟩
  · exact ⟨_, rfl⟩
  · exact ⟨_, rfl⟩
  · exact ⟨_, rfl⟩

/-- One key action is defined on a well-formed context and keeps it well formed. -/
theorem key_switch_inv (ctx : ctx_t) (c : Int) (hs : grid_sized ctx)
    (hb : cursor_in_bounds ctx) (hi : c = 32 → int_sized ctx) :
    ∃ r, key_switch ctx c = some r ∧ grid_sized r.1 ∧ cursor_in_bounds r.1
      ∧ r.1.w = ctx.w ∧ r.1.h = ctx.h ∧ r.1.sc = ctx.sc := by
  obtain ⟨r, hr⟩ := key_switch_defined ctx c hs hb hi
  obtain ⟨hb1, hw1, hh1, hsc1, hl1⟩ := key_switch_keeps ctx c hb r hr
  refine ⟨r, hr, ?_, hb1, hw1, hh1, hsc1⟩
  unfold grid_sized at hs ⊢
  rw [hl1, hw1, hh1, hs]

/-- Whenever the main loop is defined on a key sequence, it ends in a well-formed
context. -/
theorem main_loop_keeps (keys : List Int) : ∀ (ctx : ctx_t), cursor_in_bounds ctx →
    ∀ res, main_loop ctx keys = some res →
      cursor_in_bounds res.ctx ∧ res.ctx.w = ctx.w ∧ res.ctx.h = ctx.h
        ∧ res.ctx.sc = ctx.sc ∧ res.ctx.grid.length = ctx.grid.length := by
  induction keys with
  | nil =>
    intro ctx hb res h
    simp only [main_loop, Option.map_eq_some'] at h
    obtain ⟨d, _, rfl⟩ := h
    exact ⟨hb, rfl, rfl, rfl, rfl⟩
  | cons k ks ih =>
    intro ctx hb res h
    simp only [main_loop, Option.bind_eq_some] at h
    obtain ⟨d, _, r, hk, h⟩ := h
    obtain ⟨hb1, hw1, hh1, hsc1, hl1⟩ := key_switch_keeps ctx (tolower k) hb r hk
    by_cases hq : r.2 = 113
    · simp only [hq, ne_eq, not_true_eq_false, if_false, Option.some.injEq] at h
      subst h
      exact ⟨hb1, hw1, hh1, hsc1, hl1⟩
    · simp only [hq, ne_eq, not_false_eq_true, if_true, Option.map_eq_some'] at h
      obtain ⟨res1, hm, rfl⟩ := h
      obtain ⟨hb2, hw2, hh2, hsc2, hl2⟩ := ih r.1 hb1 res1 hm
      exact ⟨hb2, hw2.trans hw1, hh2.trans hh1, hsc2.trans hsc1, hl2.trans hl1⟩

/-- The main loop is defined on every key sequence and ends in a well-formed context. -/
theorem main_loop_inv (keys : List Int) : ∀ (ctx : ctx_t), grid_sized ctx → int_sized ctx →
    cursor_in_bounds ctx →
    ∃ res, main_loop ctx keys = some res ∧ grid_sized res.ctx ∧ cursor_in_bounds res.ctx
      ∧ res.ctx.w = ctx.w ∧ res.ctx.h = ctx.h ∧ res.ctx.sc = ctx.sc := by
  induction keys with
  | nil =>
    intro ctx hs hi hb
    obtain ⟨tiles, _, hr⟩ := redraw_grid_eq ctx hs hi
    have hm : main_loop ctx [] = some ⟨none, ctx, (draw_border ctx ++ tiles
        ++ [term_call.move (real_y ctx) (real_x ctx)]) ++ [term_call.refresh]⟩ := by
      simp only [main_loop, hr, Option.map_some']
    exact ⟨_, hm, hs, hb, rfl, rfl, rfl⟩
  | cons k ks ih =>
    intro ctx hs hi hb
    obtain ⟨tiles, _, hr⟩ := redraw_grid_eq ctx hs hi
    obtain ⟨r, hk, hs1, hb1, hw1, hh1, hsc1⟩ :=
      key_switch_inv ctx (tolower k) hs hb (fun _ => hi)
    have hi1 : int_sized r.1 := by
      unfold int_sized at hi ⊢
      rw [hw1, hh1]; exact hi
    by_cases hq : r.2 = 113
    · have hm : main_loop ctx (k :: ks) = some ⟨some 0, r.1,
          (draw_border ctx ++ tiles ++ [term_call.move (real_y ctx) (real_x ctx)])
            ++ [term_call.refresh, term_call.clear_line (iadd ctx.h 3)]
            ++ [term_call.endwin]⟩ := by
        simp only [main_loop, hr, hk, Option.some_bind, hq, ne_eq, not_true_eq_false, if_false]
      exact ⟨_, hm, hs1, hb1, hw1, hh1, hsc1⟩
    · obtain ⟨res, hm, hs2, hb2, hw2, hh2, hsc2⟩ := ih r.1 hs1 hi1 hb1
      have hm1 : main_loop ctx (k :: ks) = some { res with calls :=
          (draw_border ctx ++ tiles ++ [term_call.move (real_y ctx) (real_x ctx)])
            ++ [term_call.refresh, term_call.clear_line (iadd ctx.h 3)] ++ res.calls } := by
        simp only [main_loop, hr, hk, Option.some_bind, hq, ne_eq, not_false_eq_true, if_true,
          hm, Option.map_some']
      exact ⟨_, hm1, hs2, hb2, hw2.trans hw1, hh2.trans hh1, hsc2.trans hsc1⟩

theorem initial_cursor_in_bounds (ctx : ctx_t) (hw : 1 ≤ ctx.w) (hh : 1 ≤ ctx.h) :
    cursor_in_bounds { ctx with cursor := initial_cursor ctx } := by
  unfold cursor_in_bounds initial_cursor to_u16
  constructor <;> simp only [] <;> omega


/-- C3: with `w >= 1`, `h >= 1`, a buffer of `w * h` cells and the cursor inside the grid,
every key action of the main loop (for every key code `c`) leaves the cursor inside the
grid, with `w` and `h` unchanged: the action is defined for every key other than the
toggle key, for the toggle key as soon as `w * h` is a value of `int` (as it is for every
buffer that `main` obtains from `calloc`), and whenever it is defined, for every state, the
cursor it leaves is inside the grid.  Hence the main loop, on every finite key sequence,
ends with the cursor inside the grid, from any such cursor and in particular from the
initial cursor computed by `main`: it is defined when `w * h` is a value of `int`, and
whenever it is defined the final cursor is inside the grid. -/
theorem cursor_bounds_invariant (ctx : ctx_t) (hw : 1 ≤ ctx.w) (hh : 1 ≤ ctx.h)
    (hs : grid_sized ctx) :
    (∀ c : Int, cursor_in_bounds ctx →
      (∀ r, key_switch ctx c = some r → cursor_in_bounds r.1
        ∧ r.1.w = ctx.w ∧ r.1.h = ctx.h) ∧
      ((c = 32 → int_sized ctx) →
        ∃ r, key_switch ctx c = some r ∧ cursor_in_bounds r.1
          ∧ r.1.w = ctx.w ∧ r.1.h = ctx.h)) ∧
    (∀ keys : List Int, cursor_in_bounds ctx →
      (∀ res, main_loop ctx keys = some res → cursor_in_bounds res.ctx
        ∧ res.ctx.w = ctx.w ∧ res.ctx.h = ctx.h) ∧
      (int_sized ctx →
        ∃ res, main_loop ctx keys = some res ∧ cursor_in_bounds res.ctx
          ∧ res.ctx.w = ctx.w ∧ res.ctx.h = ctx.h)) ∧
    (∀ keys : List Int,
      (∀ res, main_loop { ctx with cursor := initial_cursor ctx } keys = some res →
        cursor_in_bounds res.ctx ∧ res.ctx.w = ctx.w ∧ res.ctx.h = ctx.h) ∧
      (int_sized ctx →
        ∃ res, main_loop { ctx with cursor := initial_cursor ctx } keys = some res
          ∧ cursor_in_bounds res.ctx ∧ res.ctx.w = ctx.w ∧ res.ctx.h = ctx.h)) := by
  refine ⟨?_, ?_, ?_⟩
  · intro c hb
    constructor
    · intro r hr
      obtain ⟨hb1, hw1, hh1, _, _⟩ := key_switch_keeps ctx c hb r hr
      exact ⟨hb1, hw1, hh1⟩
    · intro hi
      obtain ⟨r, hk, _, hb1, hw1, hh1, _⟩ := key_switch_inv ctx c hs hb hi
      exact ⟨r, hk, hb1, hw1, hh1⟩
  · intro keys hb
    constructor
    · intro res hr
      obtain ⟨hb1, hw1, hh1, _, _⟩ := main_loop_keeps keys ctx hb res hr
      exact ⟨hb1, hw1, hh1⟩
    · intro hi
      obtain ⟨res, hm, _, hb1, hw1, hh1, _⟩ := main_loop_inv keys ctx hs hi hb
      exact ⟨res, hm, hb1, hw1, hh1⟩
  · intro keys
    constructor
    · intro res hr
      obtain ⟨hb1, hw1, hh1, _, _⟩ := main_loop_keeps keys
        { ctx with cursor := initial_cursor ctx } (initial_cursor_in_bounds ctx hw hh) res hr
      exact ⟨hb1, hw1, hh1⟩
    · intro hi
      obtain ⟨res, hm, _, hb1, hw1, hh1, _⟩ := main_loop_inv keys
        { ctx with cursor := initial_cursor ctx } hs hi (initial_cursor_in_bounds ctx hw hh)
      exact ⟨res, hm, hb1, hw1, hh1⟩

/-- Witness of C3: the 5x5 board. -/
theorem cursor_bounds_invariant_witness :
    (∀ c : Int, cursor_in_bounds board5 →
      (∀ r, key_switch board5 c = some r → cursor_in_bounds r.1
        ∧ r.1.w = board5.w ∧ r.1.h = board5.h) ∧
      ((c = 32 → int_sized board5) →
        ∃ r, key_switch board5 c = some r ∧ cursor_in_bounds r.1
          ∧ r.1.w = board5.w ∧ r.1.h = board5.h)) ∧
    (∀ keys : List Int, cursor_in_bounds board5 →
      (∀ res, main_loop board5 keys = some res → cursor_in_bounds res.ctx
        ∧ res.ctx.w = board5.w ∧ res.ctx.h = board5.h) ∧
      (int_sized board5 →
        ∃ res, main_loop board5 keys = some res ∧ cursor_in_bounds res.ctx
          ∧ res.ctx.w = board5.w ∧ res.ctx.h = board5.h)) ∧
    (∀ keys : List Int,
      (∀ res, main_loop { board5 with cursor := initial_cursor board5 } keys = some res →
        cursor_in_bounds res.ctx ∧ res.ctx.w = board5.w ∧ res.ctx.h = board5.h) ∧
      (int_sized board5 →
        ∃ res, main_loop { board5 with cursor := initial_cursor board5 } keys = some res
          ∧ cursor_in_bounds res.ctx ∧ res.ctx.w = board5.w ∧ res.ctx.h = board5.h)) :=
  cursor_bounds_invariant board5 (by decide) (by decide) (by decide)

theorem u16_dec_eq (v : Nat) (h0 : v > 0) (hv : v < 65536) : u16_dec v = v - 1 := by
  unfold u16_dec; omega

theorem u16_inc_eq (v : Nat) (hv : v + 1 < 65536) : u16_inc v = v + 1 := by
  unfold u16_inc; omega

theorem key_up_eq (ctx : ctx_t) (c : Int) (hc : c = 107 ∨ c = KEY_UP) :
    key_switch ctx c = some (if ctx.cursor.y > 0
      then { ctx with cursor := { ctx.cursor with y := u16_dec ctx.cursor.y } }
      else ctx, c) := by
  unfold key_switch; rw [if_pos hc]

theorem key_down_eq (ctx : ctx_t) (c : Int) (hc : c = 106 ∨ c = KEY_DOWN) :
    key_switch ctx c = some (if (ctx.cursor.y : Int) < (ctx.h : Int) - 1
      then { ctx with cursor := { ctx.cursor with y := u16_inc ctx.cursor.y } }
      else ctx, c) := by
  have n1 : ¬ (c = 107 ∨ c = KEY_UP) := by unfold KEY_UP; unfold KEY_DOWN at hc; omega
  unfold key_switch; rw [if_neg n1, if_pos hc]

theorem key_left_eq (ctx : ctx_t) (c : Int) (hc : c = 104 ∨ c = KEY_LEFT) :
    key_switch ctx c = some (if ctx.cursor.x > 0
      then { ctx with cursor := { ctx.cursor with x := u16_dec ctx.cursor.x } }
      else ctx, c) := by
  have n1 : ¬ (c = 107 ∨ c = KEY_UP) := by unfold KEY_UP; unfold KEY_LEFT at hc; omega
  have n2 : ¬ (c = 106 ∨ c = KEY_DOWN) := by unfold KEY_DOWN; unfold KEY_LEFT at hc; omega
  unfold key_switch; rw [if_neg n1, if_neg n2, if_pos hc]

theorem key_right_eq (ctx : ctx_t) (c : Int) (hc : c = 108 ∨ c = KEY_RIGHT) :
    key_switch ctx c = some (if (ctx.cursor.x : Int) < (ctx.w : Int) - 1
      then { ctx with cursor := { ctx.cursor with x := u16_inc ctx.cursor.x } }
      else ctx, c) := by
  have n1 : ¬ (c = 107 ∨ c = KEY_UP) := by unfold KEY_UP; unfold KEY_RIGHT at hc; omega
  have n2 : ¬ (c = 106 ∨ c = KEY_DOWN) := by unfold KEY_DOWN; unfold KEY_RIGHT at hc; omega
  have n3 : ¬ (c = 104 ∨ c = KEY_LEFT) := by unfold KEY_LEFT; unfold KEY_RIGHT at hc; omega
  unfold key_switch; rw [if_neg n1, if_neg n2, if_neg n3, if_pos hc]

/-- C4: for a cursor `(y, x)` inside a `w x h` grid whose dimensions are 16-bit values,
the up keys give `(max(y-1, 0), x)`, the down keys `(min(y+1, h-1), x)`, the left keys
`(y, max(x-1, 0))` and the right keys `(y, min(x+1, w-1))`; the `uint16_t` decrement and
increment of the source never wrap. -/
theorem clamped_unit_move (ctx : ctx_t) (hb : cursor_in_bounds ctx) (hw16 : ctx.w < 65536)
    (hh16 : ctx.h < 65536) :
    (∀ c : Int, c = 107 ∨ c = KEY_UP → ∃ ctx1, key_switch ctx c = some (ctx1, c) ∧
      (ctx1.cursor.y : Int) = max ((ctx.cursor.y : Int) - 1) 0 ∧
      ctx1.cursor.x = ctx.cursor.x) ∧
    (∀ c : Int, c = 106 ∨ c = KEY_DOWN → ∃ ctx1, key_switch ctx c = some (ctx1, c) ∧
      (ctx1.cursor.y : Int) = min ((ctx.cursor.y : Int) + 1) ((ctx.h : Int) - 1) ∧
      ctx1.cursor.x = ctx.cursor.x) ∧
    (∀ c : Int, c = 104 ∨ c = KEY_LEFT → ∃ ctx1, key_switch ctx c = some (ctx1, c) ∧
      ctx1.cursor.y = ctx.cursor.y ∧
      (ctx1.cursor.x : Int) = max ((ctx.cursor.x : Int) - 1) 0) ∧
    (∀ c : Int, c = 108 ∨ c = KEY_RIGHT → ∃ ctx1, key_switch ctx c = some (ctx1, c) ∧
      ctx1.cursor.y = ctx.cursor.y ∧
      (ctx1.cursor.x : Int) = min ((ctx.cursor.x : Int) + 1) ((ctx.w : Int) - 1)) := by
  obtain ⟨hy, hx⟩ := hb
  refine ⟨?_, ?_, ?_, ?_⟩
  · intro c hc
    rw [key_up_eq ctx c hc]
    by_cases hg : ctx.cursor.y > 0
    · rw [if_pos hg]
      refine ⟨_, rfl, ?_, rfl⟩
      show ((u16_dec ctx.cursor.y : Nat) : Int) = _
      rw [u16_dec_eq _ hg (by omega)]
      omega
    · rw [if_neg hg]
      exact ⟨_, rfl, by omega, rfl⟩
  · intro c hc
    rw [key_down_eq ctx c hc]
    by_cases hg : (ctx.cursor.y : Int) < (ctx.h : Int) - 1
    · rw [if_pos hg]
      refine ⟨_, rfl, ?_, rfl⟩
      show ((u16_inc ctx.cursor.y : Nat) : Int) = _
      rw [u16_inc_eq _ (by omega)]
      omega
    · rw [if_neg hg]
      exact ⟨_, rfl, by omega, rfl⟩
  · intro c hc
    rw [key_left_eq ctx c hc]
    by_cases hg : ctx.cursor.x > 0
    · rw [if_pos hg]
      refine ⟨_, rfl, rfl, ?_⟩
      show ((u16_dec ctx.cursor.x : Nat) : Int) = _
      rw [u16_dec_eq _ hg (by omega)]
      omega
    · rw [if_neg hg]
      exact ⟨_, rfl, rfl, by omega⟩
  · intro c hc
    rw [key_right_eq ctx c hc]
    by_cases hg : (ctx.cursor.x : Int) < (ctx.w : Int) - 1
    · rw [if_pos hg]
      refine ⟨_, rfl, rfl, ?_⟩
      show ((u16_inc ctx.cursor.x : Nat) : Int) = _
      rw [u16_inc_eq _ (by omega)]
      omega
    · rw [if_neg hg]
      exact ⟨_, rfl, rfl, by omega⟩

/-- Witness of C4: at `(0, 0)` on the 5x5 board the up and left keys leave the cursor at
`(0, 0)`. -/
theorem clamped_unit_move_witness :
    (key_switch board5_corner KEY_UP = some (board5_corner, KEY_UP)
      ∧ key_switch board5_corner KEY_LEFT = some (board5_corner, KEY_LEFT)) ∧
    ((∀ c : Int, c = 107 ∨ c = KEY_UP → ∃ ctx1, key_switch board5_corner c = some (ctx1, c) ∧
      (ctx1.cursor.y : Int) = max ((board5_corner.cursor.y : Int) - 1) 0 ∧
      ctx1.cursor.x = board5_corner.cursor.x) ∧
    (∀ c : Int, c = 106 ∨ c = KEY_DOWN → ∃ ctx1, key_switch board5_corner c = some (ctx1, c) ∧
      (ctx1.cursor.y : Int)
        = min ((board5_corner.cursor.y : Int) + 1) ((board5_corner.h : Int) - 1) ∧
      ctx1.cursor.x = board5_corner.cursor.x) ∧
    (∀ c : Int, c = 104 ∨ c = KEY_LEFT → ∃ ctx1, key_switch board5_corner c = some (ctx1, c) ∧
      ctx1.cursor.y = board5_corner.cursor.y ∧
      (ctx1.cursor.x : Int) = max ((board5_corner.cursor.x : Int) - 1) 0) ∧
    (∀ c : Int, c = 108 ∨ c = KEY_RIGHT → ∃ ctx1, key_switch board5_corner c = some (ctx1, c) ∧
      ctx1.cursor.y = board5_corner.cursor.y ∧
      (ctx1.cursor.x : Int)
        = min ((board5_corner.cursor.x : Int) + 1) ((board5_corner.w : Int) - 1))) :=
  ⟨⟨by decide, by decide⟩,
    clamped_unit_move board5_corner (by decide) (by decide) (by decide)⟩

/-! ## The frame -/

theorem exists_col_iff (v y ty tx : Int) (c ch : Nat) :
    (∃ a, (0 ≤ a ∧ a < wrap_int v) ∧ y = ty ∧ iadd a 1 = tx ∧ c = ch)
      ↔ (ty = y ∧ 1 ≤ tx ∧ tx ≤ wrap_int v ∧ ch = c) := by
  have hr := wrap_int_range v
  constructor
  · rintro ⟨a, ⟨ha0, ha⟩, h1, h2, h3⟩
    rw [iadd, wrap_int_eq _ (by omega) (by omega)] at h2
    omega
  · rintro ⟨h1, h2, h3, h4⟩
    refine ⟨tx - 1, ⟨by omega, by omega⟩, by omega, ?_, by omega⟩
    rw [iadd, wrap_int_eq _ (by omega) (by omega)]
    omega

theorem exists_row_iff (H ty : Int) (P Q : Prop) :
    (∃ a, (1 ≤ a ∧ a < H + 1) ∧ (ty = a ∧ P ∨ ty = a ∧ Q)) ↔ (1 ≤ ty ∧ ty ≤ H ∧ (P ∨ Q)) := by
  constructor
  · rintro ⟨a, ⟨h1, h2⟩, (⟨rfl, hp⟩ | ⟨rfl, hq⟩)⟩
    · exact ⟨h1, by omega, Or.inl hp⟩
    · exact ⟨h1, by omega, Or.inr hq⟩
  · rintro ⟨h1, h2, (hp | hq)⟩
    · exact ⟨ty, ⟨h1, by omega⟩, Or.inl ⟨rfl, hp⟩⟩
    · exact ⟨ty, ⟨h1, by omega⟩, Or.inr ⟨rfl, hq⟩⟩

theorem frame_iff (H H1 W W1 ty tx : Int) (ch p m b : Nat) :
  (((((ty = 0 ∧ tx = 0 ∧ ch = p ∨
                ty = 0 ∧ 1 ≤ tx ∧ tx ≤ W ∧ ch = m) ∨
              ty = 0 ∧ tx = W1 ∧ ch = p) ∨
            1 ≤ ty ∧ ty ≤ H ∧ (tx = 0 ∧ ch = b ∨ tx = W1 ∧ ch = b)) ∨
          ty = H1 ∧ tx = 0 ∧ ch = p) ∨
        ty = H1 ∧ 1 ≤ tx ∧ tx ≤ W ∧ ch = m) ∨
      ty = H1 ∧ tx = W1 ∧ ch = p ↔
    (ty = 0 ∨ ty = H1) ∧ (tx = 0 ∨ tx = W1) ∧ ch = p ∨
      (ty = 0 ∨ ty = H1) ∧ 1 ≤ tx ∧ tx ≤ W ∧ ch = m ∨
        1 ≤ ty ∧ ty ≤ H ∧ (tx = 0 ∨ tx = W1) ∧ ch = b := by
  constructor
  · rintro ((((((⟨h1, h2, h3⟩ | ⟨h1, h2, h3, h4⟩) | ⟨h1, h2, h3⟩) | ⟨h1, h2, ⟨h3, h4⟩ | ⟨h3, h4⟩⟩) |
      ⟨h1, h2, h3⟩) | ⟨h1, h2, h3, h4⟩) | ⟨h1, h2, h3⟩)
    · exact Or.inl ⟨Or.inl h1, Or.inl h2, h3⟩
    · exact Or.inr (Or.inl ⟨Or.inl h1, h2, h3, h4⟩)
    · exact Or.inl ⟨Or.inl h1, Or.inr h2, h3⟩
    · exact Or.inr (Or.inr ⟨h1, h2, Or.inl h3, h4⟩)
    · exact Or.inr (Or.inr ⟨h1, h2, Or.inr h3, h4⟩)
    · exact Or.inl ⟨Or.inr h1, Or.inl h2, h3⟩
    · exact Or.inr (Or.inl ⟨Or.inr h1, h2, h3, h4⟩)
    · exact Or.inl ⟨Or.inr h1, Or.inr h2, h3⟩
  · rintro (⟨h1 | h1, h2 | h2, h3⟩ | ⟨h1 | h1, h2, h3, h4⟩ | ⟨h1, h2, h3 | h3, h4⟩)
    · exact Or.inl (Or.inl (Or.inl (Or.inl (Or.inl (Or.inl ⟨h1, h2, h3⟩)))))
    · exact Or.inl (Or.inl (Or.inl (Or.inl (Or.inr ⟨h1, h2, h3⟩))))
    · exact Or.inl (Or.inl (Or.inr ⟨h1, h2, h3⟩))
    · exact Or.inr ⟨h1, h2, h3⟩
    · exact Or.inl (Or.inl (Or.inl (Or.inl (Or.inl (Or.inr ⟨h1, h2, h3, h4⟩)))))
    · exact Or.inl (Or.inr ⟨h1, h2, h3, h4⟩)
    · exact Or.inl (Or.inl (Or.inl (Or.inr ⟨h1, h2, Or.inl ⟨h3, h4⟩⟩)))
    · exact Or.inl (Or.inl (Or.inl (Or.inr ⟨h1, h2, Or.inr ⟨h3, h4⟩⟩)))


/-- The calls of `draw_border`, for every context, in terms of the `int` values of the
source. -/
theorem mem_draw_border_int (ctx : ctx_t) (ty tx : Int) (ch : Nat) :
    term_call.mvaddch ty tx ch ∈ draw_border ctx ↔ on_border ctx ty tx ch := by
  unfold draw_border on_border real_w real_h imul
  simp only [List.mem_append, List.mem_map, List.mem_flatMap, mem_int_range,
    List.mem_cons, List.mem_singleton, term_call.mvaddch.injEq,
    List.not_mem_nil, or_false, exists_col_iff, exists_row_iff]
  exact frame_iff _ _ _ _ _ _ _ _ _ _

theorem real_h_eq (ctx : ctx_t) (hf : render_fits ctx) :
    real_h ctx = (ctx.h : Int) * (ctx.sc : Int) := by
  unfold render_fits INT_MAX at hf
  unfold real_h
  rw [imul_cast _ _ (by omega), Int.ofNat_mul]

theorem real_w_eq (ctx : ctx_t) (hf : render_fits ctx) :
    real_w ctx = (ctx.w : Int) * (ctx.sc : Int) := by
  unfold render_fits INT_MAX at hf
  unfold real_w
  rw [imul_cast _ _ (by omega), Int.ofNat_mul]

theorem real_h_succ (ctx : ctx_t) (hf : render_fits ctx) :
    iadd (real_h ctx) 1 = (ctx.h : Int) * (ctx.sc : Int) + 1 := by
  rw [real_h_eq ctx hf]
  unfold render_fits INT_MAX at hf
  have h1 : (ctx.h : Int) * (ctx.sc : Int) + 1 ≤ 2147483647 := by exact_mod_cast hf.1
  have h0 : (0 : Int) ≤ (ctx.h : Int) * (ctx.sc : Int) := by positivity
  exact wrap_int_eq _ (by omega) h1

theorem real_w_succ (ctx : ctx_t) (hf : render_fits ctx) :
    iadd (real_w ctx) 1 = (ctx.w : Int) * (ctx.sc : Int) + 1 := by
  rw [real_w_eq ctx hf]
  unfold render_fits INT_MAX at hf
  have h1 : (ctx.w : Int) * (ctx.sc : Int) + 1 ≤ 2147483647 := by exact_mod_cast hf.2
  have h0 : (0 : Int) ≤ (ctx.w : Int) * (ctx.sc : Int) := by positivity
  exact wrap_int_eq _ (by omega) h1

theorem mem_draw_border (ctx : ctx_t) (hf : render_fits ctx) (ty tx : Int) (ch : Nat) :
    term_call.mvaddch ty tx ch ∈ draw_border ctx
      ↔ on_frame ((ctx.h : Int) * (ctx.sc : Int)) ((ctx.w : Int) * (ctx.sc : Int))
          ty tx ch := by
  rw [mem_draw_border_int]
  unfold on_border on_frame
  rw [real_h_succ ctx hf, real_w_succ ctx hf, real_h_eq ctx hf, real_w_eq ctx hf]

theorem draw_border_only_mvaddch (ctx : ctx_t) (call : term_call)
    (hc : call ∈ draw_border ctx) : ∃ ty tx ch, call = term_call.mvaddch ty tx ch := by
  unfold draw_border at hc
  simp only [List.mem_append, List.mem_map, List.mem_flatMap, List.mem_cons,
    List.mem_singleton, List.not_mem_nil, or_false] at hc
  rcases hc with (((((h | ⟨a, _, h⟩) | h) | ⟨a, _, h | h⟩) | h) | ⟨a, _, h⟩) | h
  all_goals exact ⟨_, _, _, by first | exact h | exact h.symm⟩


/-- C7, as stated, fails: for `w = 65535`, `h = 5` and scale 65535 (the configuration of
`-r 65535x5 -s 65535`) the product `w * scale` overflows `int`, `real_w` is `-131071`, the
loops over the columns do not run and the right corners are written at column `-131070`:
no `-` is written at `(0, 1)`, no `+` at `(0, W + 1)`, and a `+` is written at the column
`-131070`, outside the rectangle.  Likewise for `w = 5`, `h = 65535` and scale 65535
`real_h` is `-131071`, the loop over the rows does not run and no `|` is written at
`(1, 0)`. -/
theorem draw_border_shape_counterexample :
    (real_w wide_board = -131071 ∧
    term_call.mvaddch 0 1 CH_MINUS ∉ draw_border wide_board ∧
    term_call.mvaddch 0 (65535 * 65535 + 1) CH_PLUS ∉ draw_border wide_board ∧
    term_call.mvaddch 0 (-131070) CH_PLUS ∈ draw_border wide_board) ∧
    (real_h tall_board = -131071 ∧
    term_call.mvaddch 1 0 CH_BAR ∉ draw_border tall_board) := by
  have e1 : real_w wide_board = -131071 := by
    unfold real_w wide_board; decide
  have e2 : real_h wide_board = 327675 := by
    unfold real_h wide_board; decide
  have e3 : real_w tall_board = 327675 := by
    unfold real_w tall_board; decide
  have e4 : real_h tall_board = -131071 := by
    unfold real_h tall_board; decide
  refine ⟨⟨e1, ?_, ?_, ?_⟩, e4, ?_⟩
  · rw [mem_draw_border_int]
    unfold on_border
    rw [e1, e2]
    decide
  · rw [mem_draw_border_int]
    unfold on_border
    rw [e1, e2]
    decide
  · rw [mem_draw_border_int]
    unfold on_border
    rw [e1, e2]
    decide
  · rw [mem_draw_border_int]
    unfold on_border
    rw [e3, e4]
    decide

/-- C7 (amended): for every `w`, `h` and scale with `H = h * scale` and `W = w * scale`
such that `H + 1` and `W + 1` are at most `INT_MAX`, `draw_border` makes only character
writes, and it writes the character `ch` at `(ty, tx)` if and only if `(ty, tx)` is on the
perimeter of the rectangle of rows `0..H+1` and columns `0..W+1` and `ch` is the character
of the frame there: `+` at the four corners, `-` at `(0, x)` and `(H+1, x)` for
`1 <= x <= W`, `|` at `(y, 0)` and `(y, W+1)` for `1 <= y <= H`.  Nothing is written inside
or outside that perimeter; for `w = h = 5` and scale 1 the frame spans rows `0..6` and
columns `0..6`. -/
theorem draw_border_shape (ctx : ctx_t) (hf : render_fits ctx) :
    (∀ call ∈ draw_border ctx, ∃ ty tx ch, call = term_call.mvaddch ty tx ch) ∧
    (∀ (ty tx : Int) (ch : Nat), term_call.mvaddch ty tx ch ∈ draw_border ctx ↔
      ((ty = 0 ∨ ty = (ctx.h : Int) * (ctx.sc : Int) + 1)
          ∧ (tx = 0 ∨ tx = (ctx.w : Int) * (ctx.sc : Int) + 1) ∧ ch = CH_PLUS)
        ∨ ((ty = 0 ∨ ty = (ctx.h : Int) * (ctx.sc : Int) + 1) ∧ 1 ≤ tx
          ∧ tx ≤ (ctx.w : Int) * (ctx.sc : Int) ∧ ch = CH_MINUS)
        ∨ (1 ≤ ty ∧ ty ≤ (ctx.h : Int) * (ctx.sc : Int)
          ∧ (tx = 0 ∨ tx = (ctx.w : Int) * (ctx.sc : Int) + 1) ∧ ch = CH_BAR)) ∧
    (∀ (ty tx : Int) (ch : Nat), term_call.mvaddch ty tx ch ∈ draw_border board5 →
      0 ≤ ty ∧ ty ≤ 6 ∧ 0 ≤ tx ∧ tx ≤ 6 ∧ (ty = 0 ∨ ty = 6 ∨ tx = 0 ∨ tx = 6)) := by
  refine ⟨draw_border_only_mvaddch ctx, fun ty tx ch => mem_draw_border ctx hf ty tx ch, ?_⟩
  intro ty tx ch hm
  have hf := (mem_draw_border board5 (by decide) ty tx ch).mp hm
  have e1 : (board5.h : Int) * (board5.sc : Int) = 5 := by decide
  have e2 : (board5.w : Int) * (board5.sc : Int) = 5 := by decide
  unfold on_frame at hf
  rw [e1, e2] at hf
  omega

/-- Witness of C7: the 5x5 board at scale 1. -/
theorem draw_border_shape_witness :
    render_fits board5 ∧
    ((∀ call ∈ draw_border board5, ∃ ty tx ch, call = term_call.mvaddch ty tx ch) ∧
    (∀ (ty tx : Int) (ch : Nat), term_call.mvaddch ty tx ch ∈ draw_border board5 ↔
      ((ty = 0 ∨ ty = (board5.h : Int) * (board5.sc : Int) + 1)
          ∧ (tx = 0 ∨ tx = (board5.w : Int) * (board5.sc : Int) + 1) ∧ ch = CH_PLUS)
        ∨ ((ty = 0 ∨ ty = (board5.h : Int) * (board5.sc : Int) + 1) ∧ 1 ≤ tx
          ∧ tx ≤ (board5.w : Int) * (board5.sc : Int) ∧ ch = CH_MINUS)
        ∨ (1 ≤ ty ∧ ty ≤ (board5.h : Int) * (board5.sc : Int)
          ∧ (tx = 0 ∨ tx = (board5.w : Int) * (board5.sc : Int) + 1) ∧ ch = CH_BAR)) ∧
    (∀ (ty tx : Int) (ch : Nat), term_call.mvaddch ty tx ch ∈ draw_border board5 →
      0 ≤ ty ∧ ty ≤ 6 ∧ 0 ≤ tx ∧ tx ≤ 6 ∧ (ty = 0 ∨ ty = 6 ∨ tx = 0 ∨ tx = 6))) :=
  ⟨by decide, draw_border_shape board5 (by decide)⟩

/-! ## Tiles -/

theorem glyph_eq (v : Nat) (hv : v < 128) : glyph v = v := by
  unfold glyph to_chtype to_char
  rw [if_pos hv]
  omega

theorem lt_succ_add (a b t : Int) : t < a + 1 + b ↔ t ≤ a + b := by omega

theorem toNat_block (a b : Int) (n : Nat) (h : b = (n : Int)) :
    (a + 1 + b - (a + 1)).toNat = n := by omega

theorem block_sep (sc a b : Nat) (h : a < b) : a * sc + sc ≤ b * sc := by
  have h1 := Nat.mul_le_mul_right sc (Nat.succ_le_of_lt h)
  rw [Nat.succ_mul] at h1
  exact h1

/-- First coordinate and loop bound of a tile when the bound is a value of `int`. -/
theorem tile_start (a sc : Nat) (h : a * sc + sc + 1 ≤ 2147483647) :
    iadd (imul (a : Int) (sc : Int)) border_sz = (a : Int) * (sc : Int) + 1 ∧
    iadd (iadd (imul (a : Int) (sc : Int)) border_sz) (sc : Int)
      = (a : Int) * (sc : Int) + 1 + (sc : Int) := by
  have h1 : (a : Int) * (sc : Int) + (sc : Int) + 1 ≤ 2147483647 := by exact_mod_cast h
  have h0 : (0 : Int) ≤ (a : Int) * (sc : Int) := by positivity
  have e1 : imul (a : Int) (sc : Int) = (a : Int) * (sc : Int) :=
    wrap_int_eq _ (by omega) (by omega)
  have e2 : iadd ((a : Int) * (sc : Int)) border_sz = (a : Int) * (sc : Int) + 1 := by
    unfold iadd border_sz
    exact wrap_int_eq _ (by omega) (by omega)
  rw [e1, e2]
  refine ⟨rfl, ?_⟩
  unfold iadd
  exact wrap_int_eq _ (by omega) (by omega)

theorem term_y_eq (ctx : ctx_t) (hf : render_fits ctx) (r : Nat) (hr : r < ctx.h) :
    term_y ctx r = (r : Int) * (ctx.sc : Int) + 1 ∧
    iadd (term_y ctx r) (ctx.sc : Int) = (r : Int) * (ctx.sc : Int) + 1 + (ctx.sc : Int) := by
  unfold render_fits INT_MAX at hf
  have k := block_sep ctx.sc r ctx.h hr
  exact tile_start r ctx.sc (by omega)

theorem term_x_eq (ctx : ctx_t) (hf : render_fits ctx) (c : Nat) (hc : c < ctx.w) :
    term_x ctx c = (c : Int) * (ctx.sc : Int) + 1 ∧
    iadd (term_x ctx c) (ctx.sc : Int) = (c : Int) * (ctx.sc : Int) + 1 + (ctx.sc : Int) := by
  unfold render_fits INT_MAX at hf
  have k := block_sep ctx.sc c ctx.w hc
  exact tile_start c ctx.sc (by omega)

/-- Whenever the cell loops reach a cell and read it inside the buffer, the calls made
for it write one character over the rows and columns of the two `for` loops. -/
theorem draw_tile_some (ctx : ctx_t) (r c : Nat) (t : List term_call)
    (h : draw_tile ctx r c = some t) :
    ∃ b, t = tile_block (term_y ctx r) (iadd (term_y ctx r) ctx.sc)
      (term_x ctx c) (iadd (term_x ctx c) ctx.sc) (glyph b) := by
  unfold draw_tile at h
  rw [Option.map_eq_some'] at h
  obtain ⟨b, _, hb⟩ := h
  exact ⟨b, hb.symm⟩

theorem draw_tile_eq (ctx : ctx_t) (hs : grid_sized ctx) (hi : int_sized ctx) (r c : Nat)
    (hr : r < ctx.h) (hc : c < ctx.w) :
    ∃ v, cell ctx r c = some v ∧ draw_tile ctx r c
      = some (tile_block (term_y ctx r) (iadd (term_y ctx r) ctx.sc)
          (term_x ctx c) (iadd (term_x ctx c) ctx.sc) (glyph v)) := by
  unfold grid_sized at hs
  unfold int_sized INT_MAX at hi
  have hlt := idx_lt hr hc
  have hj : r * ctx.w + c < ctx.grid.length := by rw [hs]; exact hlt
  refine ⟨ctx.grid[r * ctx.w + c], ?_, ?_⟩
  · unfold cell; exact List.getElem?_eq_getElem hj
  · unfold draw_tile tile_block
    rw [idx_cast _ _ _ (by omega), grid_read_cast, List.getElem?_eq_getElem hj]
    rfl

theorem mem_tile_block (a b c d : Int) (v : Nat) (call : term_call) :
    call ∈ tile_block a b c d v ↔
      ∃ ty tx, call = term_call.mvaddch ty tx v ∧ a ≤ ty ∧ ty < b ∧ c ≤ tx ∧ tx < d := by
  unfold tile_block
  simp only [List.mem_flatMap, List.mem_map, mem_int_range]
  constructor
  · rintro ⟨ty, ⟨h1, h2⟩, tx, ⟨h3, h4⟩, rfl⟩
    exact ⟨ty, tx, rfl, h1, h2, h3, h4⟩
  · rintro ⟨ty, tx, rfl, h1, h2, h3, h4⟩
    exact ⟨ty, ⟨h1, h2⟩, tx, ⟨h3, h4⟩, rfl⟩

theorem flatMap_length_const {α β : Type} (f : α → List β) (k : Nat)
    (hf : ∀ a, (f a).length = k) : ∀ l : List α, (l.flatMap f).length = l.length * k := by
  intro l
  induction l with
  | nil => simp
  | cons a rest ih =>
    rw [List.flatMap_cons, List.length_append, ih, hf, List.length_cons]
    ring

theorem tile_block_length (a b c d : Int) (v : Nat) :
    (tile_block a b c d v).length = (b - a).toNat * (d - c).toNat := by
  unfold tile_block
  rw [flatMap_length_const _ (d - c).toNat (fun ty => by
    rw [List.length_map, int_range_length]), int_range_length]

/-- Members of the output of a sequence of drawing steps. -/
theorem mem_seq_calls (l : List (Option (List term_call))) :
    ∀ t, seq_calls l = some t → ∀ call, (call ∈ t ↔ ∃ a, some a ∈ l ∧ call ∈ a) := by
  induction l with
  | nil =>
    intro t ht call
    simp only [seq_calls, Option.some.injEq] at ht
    subst ht
    simp
  | cons o rest ih =>
    intro t ht call
    cases o with
    | none => simp [seq_calls] at ht
    | some a =>
      cases hrest : seq_calls rest with
      | none => simp [seq_calls, hrest] at ht
      | some b =>
        simp only [seq_calls, hrest, Option.map_some', Option.some.injEq] at ht
        subst ht
        rw [List.mem_append, ih b hrest call]
        constructor
        · rintro (h | ⟨a1, h1, h2⟩)
          · exact ⟨a, List.mem_cons_self _ _, h⟩
          · exact ⟨a1, List.mem_cons_of_mem _ h1, h2⟩
        · rintro ⟨a1, h1, h2⟩
          rcases List.mem_cons.mp h1 with h | h
          · rw [Option.some.injEq] at h
            subst h
            exact Or.inl h2
          · exact Or.inr ⟨a1, h, h2⟩

/-- The calls made for an in-range cell are part of the output of `redraw_grid`. -/
theorem draw_tile_subset_redraw (ctx : ctx_t) (r c : Nat) (hr : r < ctx.h) (hc : c < ctx.w)
    (t all : List term_call) (ht : draw_tile ctx r c = some t)
    (hall : redraw_grid ctx = some all) : ∀ call ∈ t, call ∈ all := by
  intro call hcall
  unfold redraw_grid at hall
  cases htiles : draw_tiles ctx with
  | none => simp [htiles] at hall
  | some tiles =>
    simp only [htiles, Option.map_some', Option.some.injEq] at hall
    subst hall
    have hm := (mem_seq_calls _ tiles htiles call).mpr ⟨t, by
      rw [List.mem_flatMap]
      exact ⟨r, List.mem_range.mpr hr, List.mem_map.mpr ⟨c, List.mem_range.mpr hc, ht⟩⟩,
      hcall⟩
    simp [hm]


theorem flatMap_eq_nil_of {α β : Type} (l : List α) (f : α → List β)
    (h : ∀ a ∈ l, f a = []) : l.flatMap f = [] := by
  induction l with
  | nil => rfl
  | cons a rest ih =>
    rw [List.flatMap_cons, h a (List.mem_cons_self _ _),
      ih (fun b hb => h b (List.mem_cons_of_mem _ hb))]
    rfl

theorem off_cells_get (n i : Nat) (hi : i < n) : (off_cells n)[i]? = some OFF_CH := by
  unfold off_cells
  rw [List.getElem?_replicate, if_pos hi]

/-- On the 65535x65535 board the index of the cell `(65534, 7)` wraps to `-196599`, so
the cell loops of `redraw_grid` leave the buffer at that cell. -/
theorem huge_board_draw_tile_none : draw_tile huge_board 65534 7 = none := by
  have e : iadd (imul ((65534 : Nat) : Int) ((65535 : Nat) : Int)) ((7 : Nat) : Int)
      = -196599 := by decide
  unfold draw_tile huge_board
  simp only [e]
  unfold grid_read
  rw [if_neg (by decide)]
  rfl

theorem seq_calls_none (l : List (Option (List term_call))) (h : none ∈ l) :
    seq_calls l = none := by
  induction l with
  | nil => exact absurd h (List.not_mem_nil _)
  | cons o rest ih =>
    cases o with
    | none => rfl
    | some a =>
      rcases List.mem_cons.mp h with h1 | h1
      · exact Option.noConfusion h1
      · simp only [seq_calls, ih h1, Option.map_none']

theorem huge_board_draw_tiles_none : draw_tiles huge_board = none := by
  unfold draw_tiles
  apply seq_calls_none
  rw [List.mem_flatMap]
  have h1 : 65534 < huge_board.h := by decide
  have h2 : 7 < huge_board.w := by decide
  refine ⟨65534, List.mem_range.mpr h1, ?_⟩
  rw [List.mem_map]
  exact ⟨7, List.mem_range.mpr h2, huge_board_draw_tile_none⟩

/-- C6, as stated, fails: for `w = 65535`, `h = 5` and scale 65535 (the configuration of
`-r 65535x5 -s 65535`), the in-range cell `(0, 32768)` has `term_x = 2147450881` and the
loop bound `term_x + scale` overflows `int` to `-2147450880`: the column loop does not run
and nothing is written for the cell, where the claim has a block of `65535 x 65535`
positions.  Likewise for `w = 5`, `h = 65535` and scale 65535 the row loop of the in-range
cell `(32768, 0)` does not run.  Moreover, on a 65535x65535 grid of `w * h` cells at
scale 1 the index of the in-range cell `(65534, 7)` overflows `int` and the cell loops
leave the buffer instead of writing the glyph of the cell. -/
theorem projection_law_counterexample :
    (grid_sized wide_board ∧ int_sized wide_board ∧ 0 < wide_board.h ∧ 32768 < wide_board.w ∧
    term_x wide_board 32768 = 2147450881 ∧
    iadd (term_x wide_board 32768) (wide_board.sc : Int) = -2147450880 ∧
    draw_tile wide_board 0 32768 = some []) ∧
    (grid_sized tall_board ∧ int_sized tall_board ∧ 32768 < tall_board.h ∧ 0 < tall_board.w ∧
    term_y tall_board 32768 = 2147450881 ∧
    iadd (term_y tall_board 32768) (tall_board.sc : Int) = -2147450880 ∧
    draw_tile tall_board 32768 0 = some []) ∧
    (grid_sized huge_board ∧ 65534 < huge_board.h ∧ 7 < huge_board.w ∧
    draw_tile huge_board 65534 7 = none) := by
  have e4 : int_range 2147450881 (-2147450880) = [] := by decide
  refine ⟨?_, ?_, ?_, by decide, by decide, huge_board_draw_tile_none⟩
  · have e1 : term_x wide_board 32768 = 2147450881 := by
      unfold term_x wide_board; decide
    have e2 : iadd (term_x wide_board 32768) (wide_board.sc : Int) = -2147450880 := by
      rw [e1]; unfold wide_board; decide
    refine ⟨?_, by decide, by decide, by decide, e1, e2, ?_⟩
    · unfold grid_sized wide_board
      exact off_cells_length _
    · have e0 : iadd (imul ((0 : Nat) : Int) (wide_board.w : Int)) ((32768 : Nat) : Int)
          = ((32768 : Nat) : Int) := by
        unfold wide_board; decide
      have e3 : wide_board.grid[32768]? = some OFF_CH :=
        off_cells_get _ _ (by decide)
      unfold draw_tile
      rw [e0, grid_read_cast, e3, Option.map_some', e2, e1, e4]
      exact congrArg some (flatMap_eq_nil_of _ _ (fun _ _ => rfl))
  · have e1 : term_y tall_board 32768 = 2147450881 := by
      unfold term_y tall_board; decide
    have e2 : iadd (term_y tall_board 32768) (tall_board.sc : Int) = -2147450880 := by
      rw [e1]; unfold tall_board; decide
    refine ⟨?_, by decide, by decide, by decide, e1, e2, ?_⟩
    · unfold grid_sized tall_board
      exact off_cells_length _
    · have e0 : iadd (imul ((32768 : Nat) : Int) (tall_board.w : Int)) ((0 : Nat) : Int)
          = ((163840 : Nat) : Int) := by
        unfold tall_board; decide
      have e3 : tall_board.grid[163840]? = some OFF_CH :=
        off_cells_get _ _ (by decide)
      unfold draw_tile
      rw [e0, grid_read_cast, e3, Option.map_some', e2, e1, e4]
      rfl
  · unfold grid_sized huge_board
    exact off_cells_length _

/-- C6 (amended): on a grid of `w * h` cells with `w * h`, `h * scale + 1` and
`w * scale + 1` at most `INT_MAX`, for an in-range cell `(r, c)` the cell loops of
`redraw_grid` make for that cell `scale * scale` calls, all part of the output of
`redraw_grid`, and a call is among them if and only if it writes the character of the
value stored for the cell (the value itself when it is below 128, so `#` when on and `.`
when off) at a position of rows `r*scale+1 .. r*scale+scale` and columns
`c*scale+1 .. c*scale+scale`. -/
theorem projection_law (ctx : ctx_t) (hs : grid_sized ctx) (hi : int_sized ctx)
    (hf : render_fits ctx) (r c : Nat) (hr : r < ctx.h) (hc : c < ctx.w) :
    ∃ v t all, cell ctx r c = some v ∧ draw_tile ctx r c = some t ∧
      redraw_grid ctx = some all ∧ (∀ call ∈ t, call ∈ all) ∧
      t.length = ctx.sc * ctx.sc ∧
      (v < 128 → glyph v = v) ∧
      ∀ call, call ∈ t ↔
        ∃ ty tx : Int, call = term_call.mvaddch ty tx (glyph v) ∧
          (r : Int) * ctx.sc + 1 ≤ ty ∧ ty ≤ (r : Int) * ctx.sc + ctx.sc ∧
          (c : Int) * ctx.sc + 1 ≤ tx ∧ tx ≤ (c : Int) * ctx.sc + ctx.sc := by
  obtain ⟨v, hv, ht⟩ := draw_tile_eq ctx hs hi r c hr hc
  obtain ⟨tiles, _, hall⟩ := redraw_grid_eq ctx hs hi
  obtain ⟨ey, ey1⟩ := term_y_eq ctx hf r hr
  obtain ⟨ex, ex1⟩ := term_x_eq ctx hf c hc
  rw [ey1, ex1, ey, ex] at ht
  refine ⟨v, _, _, hv, ht, hall, draw_tile_subset_redraw ctx r c hr hc _ _ ht hall, ?_,
    glyph_eq v, ?_⟩
  · rw [tile_block_length]
    rw [toNat_block _ _ ctx.sc rfl, toNat_block _ _ ctx.sc rfl]
  · intro call
    rw [mem_tile_block]
    constructor
    · rintro ⟨ty, tx, rfl, h1, h2, h3, h4⟩
      exact ⟨ty, tx, rfl, h1, (lt_succ_add _ _ _).mp h2, h3, (lt_succ_add _ _ _).mp h4⟩
    · rintro ⟨ty, tx, rfl, h1, h2, h3, h4⟩
      exact ⟨ty, tx, rfl, h1, (lt_succ_add _ _ _).mpr h2, h3, (lt_succ_add _ _ _).mpr h4⟩

/-- Witness of C6: with scale 1 on the 5x5 board, cell `(0, 0)` is written at terminal
position `(1, 1)` only. -/
theorem projection_law_witness :
    draw_tile board5 0 0 = some [term_call.mvaddch 1 1 OFF_CH] ∧
    ∃ v t all, cell board5 0 0 = some v ∧ draw_tile board5 0 0 = some t ∧
      redraw_grid board5 = some all ∧ (∀ call ∈ t, call ∈ all) ∧
      t.length = board5.sc * board5.sc ∧
      (v < 128 → glyph v = v) ∧
      ∀ call, call ∈ t ↔
        ∃ ty tx : Int, call = term_call.mvaddch ty tx (glyph v) ∧
          ((0 : Nat) : Int) * board5.sc + 1 ≤ ty ∧ ty ≤ ((0 : Nat) : Int) * board5.sc + board5.sc ∧
          ((0 : Nat) : Int) * board5.sc + 1 ≤ tx
            ∧ tx ≤ ((0 : Nat) : Int) * board5.sc + board5.sc :=
  ⟨by decide, projection_law board5 (by decide) (by decide) (by decide) 0 0 (by decide)
    (by decide)⟩

theorem wrap_int_add_wrap (a b : Int) : wrap_int (wrap_int a + b) = wrap_int (a + b) := by
  unfold wrap_int; omega

/-- A coordinate taken by a tile loop is the wrapped value of a number of the block
`p + 1 .. p + sc`, also when `p + 1` or the loop bound overflows. -/
theorem tile_coord_int (p sc ty : Int) (hsc0 : 0 ≤ sc) (hsc : sc < 65536)
    (h1 : wrap_int (wrap_int p + 1) ≤ ty)
    (h2 : ty < wrap_int (wrap_int (wrap_int p + 1) + sc)) :
    ∃ n : Int, p + 1 ≤ n ∧ n ≤ p + sc ∧ ty = wrap_int n := by
  refine ⟨ty - wrap_int (wrap_int p + 1) + p + 1, ?_, ?_, ?_⟩ <;>
    (unfold wrap_int at *; omega)

theorem tile_coord (a sc : Nat) (ty : Int) (hsc : sc < 65536) (ha : a < 65535)
    (h1 : iadd (imul (a : Int) (sc : Int)) border_sz ≤ ty)
    (h2 : ty < iadd (iadd (imul (a : Int) (sc : Int)) border_sz) (sc : Int)) :
    ∃ n : Int, (a : Int) * (sc : Int) + 1 ≤ n ∧ n ≤ (a : Int) * (sc : Int) + (sc : Int)
      ∧ n ≤ 4294836225 ∧ ty = wrap_int n := by
  unfold iadd imul border_sz at h1 h2
  obtain ⟨n, k1, k2, k3⟩ := tile_coord_int _ _ ty (by omega) (by omega) h1 h2
  refine ⟨n, k1, k2, ?_, k3⟩
  have hb : (a + 1) * sc ≤ 65535 * 65535 := Nat.mul_le_mul (by omega) (by omega)
  have hb1 : ((a : Int) + 1) * (sc : Int) ≤ 65535 * 65535 := by exact_mod_cast hb
  have hb2 : ((a : Int) + 1) * (sc : Int) = (a : Int) * (sc : Int) + (sc : Int) := by ring
  omega

/-- Two tile loops that take the same coordinate belong to the same row (column), also
where the coordinates overflow. -/
theorem tile_row_unique (sc r r1 : Nat) (ty : Int) (hsc : sc < 65536) (hr : r < 65535)
    (hr1 : r1 < 65535)
    (h1 : iadd (imul (r : Int) (sc : Int)) border_sz ≤ ty)
    (h2 : ty < iadd (iadd (imul (r : Int) (sc : Int)) border_sz) (sc : Int))
    (h3 : iadd (imul (r1 : Int) (sc : Int)) border_sz ≤ ty)
    (h4 : ty < iadd (iadd (imul (r1 : Int) (sc : Int)) border_sz) (sc : Int)) : r = r1 := by
  obtain ⟨n, a1, a2, a3, a4⟩ := tile_coord r sc ty hsc hr h1 h2
  obtain ⟨m, b1, b2, b3, b4⟩ := tile_coord r1 sc ty hsc hr1 h3 h4
  have p0 : (0 : Int) ≤ (r : Int) * (sc : Int) :=
    Int.mul_nonneg (Int.ofNat_nonneg _) (Int.ofNat_nonneg _)
  have p1 : (0 : Int) ≤ (r1 : Int) * (sc : Int) :=
    Int.mul_nonneg (Int.ofNat_nonneg _) (Int.ofNat_nonneg _)
  have e : n = m := wrap_int_inj n m (by omega) (by omega) (by omega) (by omega)
    (a4.symm.trans b4)
  subst e
  by_contra hne
  rcases Nat.lt_or_gt_of_ne hne with h | h
  · have k := block_sep sc r r1 h
    have k1 : (r : Int) * (sc : Int) + (sc : Int) ≤ (r1 : Int) * (sc : Int) := by
      exact_mod_cast k
    omega
  · have k := block_sep sc r1 r h
    have k1 : (r1 : Int) * (sc : Int) + (sc : Int) ≤ (r : Int) * (sc : Int) := by
      exact_mod_cast k
    omega

/-- A coordinate taken by a tile loop is neither `0` nor the coordinate `real_h + 1`
(`real_w + 1`) of the far side of the frame, also where these overflow. -/
theorem tile_off_border (sc r h : Nat) (ty : Int) (hsc : sc < 65536) (hh : h < 65536)
    (hr : r < h)
    (h1 : iadd (imul (r : Int) (sc : Int)) border_sz ≤ ty)
    (h2 : ty < iadd (iadd (imul (r : Int) (sc : Int)) border_sz) (sc : Int)) :
    ty ≠ 0 ∧ ty ≠ iadd (imul (h : Int) (sc : Int)) 1 := by
  obtain ⟨n, a1, a2, a3, a4⟩ := tile_coord r sc ty hsc (by omega) h1 h2
  have p0 : (0 : Int) ≤ (r : Int) * (sc : Int) :=
    Int.mul_nonneg (Int.ofNat_nonneg _) (Int.ofNat_nonneg _)
  have k := block_sep sc r h hr
  have k1 : (r : Int) * (sc : Int) + (sc : Int) ≤ (h : Int) * (sc : Int) := by
    exact_mod_cast k
  have hb : h * sc ≤ 65535 * 65535 := Nat.mul_le_mul (by omega) (by omega)
  have hb1 : (h : Int) * (sc : Int) ≤ 65535 * 65535 := by exact_mod_cast hb
  constructor
  · intro h0
    have e : n = 0 := wrap_int_inj n 0 (by omega) (by omega) (by omega) (by omega)
      (by rw [← a4, h0]; decide)
    omega
  · intro h0
    have e1 : iadd (imul (h : Int) (sc : Int)) 1 = wrap_int ((h : Int) * (sc : Int) + 1) := by
      unfold iadd imul
      exact wrap_int_add_wrap _ _
    have e : n = (h : Int) * (sc : Int) + 1 :=
      wrap_int_inj n _ (by omega) (by omega) (by omega) (by omega)
        (by rw [← a4, h0, e1])
    omega

/-- C5: for 16-bit `w`, `h` and scale, for two distinct in-range cells `(r, c)` and
`(r1, c1)`, no terminal position written by the cell loops of `redraw_grid` for `(r, c)`
is written for `(r1, c1)`, and no position written for `(r, c)` is written by
`draw_border`.  This holds for all calls the loops make, also where a coordinate or a loop
bound overflows `int` (a loop whose bound wraps writes nothing, coordinates that wrap stay
distinct); the calls for both cells exist whenever the buffer has `w * h` cells and
`w * h` is a value of `int`. -/
theorem tiles_disjoint (ctx : ctx_t) (hu : u16_fields ctx) (r c r1 c1 : Nat)
    (hr : r < ctx.h) (hc : c < ctx.w) (hr1 : r1 < ctx.h) (hc1 : c1 < ctx.w)
    (hne : (r, c) ≠ (r1, c1)) :
    (∀ t t1, draw_tile ctx r c = some t → draw_tile ctx r1 c1 = some t1 →
      (∀ ty tx ch ch1, term_call.mvaddch ty tx ch ∈ t → term_call.mvaddch ty tx ch1 ∉ t1) ∧
      (∀ ty tx ch ch1, term_call.mvaddch ty tx ch ∈ t →
        term_call.mvaddch ty tx ch1 ∉ draw_border ctx)) ∧
    (grid_sized ctx → int_sized ctx →
      ∃ t t1, draw_tile ctx r c = some t ∧ draw_tile ctx r1 c1 = some t1) := by
  obtain ⟨hw16, hh16, hsc16⟩ := hu
  constructor
  · intro t t1 ht ht1
    obtain ⟨v, et⟩ := draw_tile_some ctx r c t ht
    obtain ⟨v1, et1⟩ := draw_tile_some ctx r1 c1 t1 ht1
    constructor
    · intro ty tx ch ch1 hm hm1
      rw [et] at hm
      rw [et1] at hm1
      obtain ⟨ty0, tx0, he, b1, b2, b3, b4⟩ := (mem_tile_block _ _ _ _ _ _).mp hm
      obtain ⟨ty1, tx1, he1, d1, d2, d3, d4⟩ := (mem_tile_block _ _ _ _ _ _).mp hm1
      simp only [term_call.mvaddch.injEq] at he he1
      obtain ⟨rfl, rfl, _⟩ := he
      obtain ⟨rfl, rfl, _⟩ := he1
      apply hne
      rw [tile_row_unique ctx.sc r r1 ty hsc16 (by omega) (by omega) b1 b2 d1 d2,
        tile_row_unique ctx.sc c c1 tx hsc16 (by omega) (by omega) b3 b4 d3 d4]
    · intro ty tx ch ch1 hm hb
      rw [et] at hm
      obtain ⟨ty0, tx0, he, b1, b2, b3, b4⟩ := (mem_tile_block _ _ _ _ _ _).mp hm
      simp only [term_call.mvaddch.injEq] at he
      obtain ⟨rfl, rfl, _⟩ := he
      have hf := (mem_draw_border_int ctx ty tx ch1).mp hb
      obtain ⟨y0, y1⟩ := tile_off_border ctx.sc r ctx.h ty hsc16 hh16 hr b1 b2
      obtain ⟨x0, x1⟩ := tile_off_border ctx.sc c ctx.w tx hsc16 hw16 hc b3 b4
      unfold on_border real_h real_w at hf
      rcases hf with ⟨h1 | h1, _⟩ | ⟨h1 | h1, _⟩ | ⟨_, _, h1 | h1, _⟩
      · exact y0 h1
      · exact y1 h1
      · exact y0 h1
      · exact y1 h1
      · exact x0 h1
      · exact x1 h1
  · intro hs hi
    obtain ⟨v, _, ht⟩ := draw_tile_eq ctx hs hi r c hr hc
    obtain ⟨v1, _, ht1⟩ := draw_tile_eq ctx hs hi r1 c1 hr1 hc1
    exact ⟨_, _, ht, ht1⟩

/-- Witness of C5: the cells `(0, 0)` and `(0, 1)` of the 5x5 board. -/
theorem tiles_disjoint_witness :
    u16_fields board5 ∧
    ((∀ t t1, draw_tile board5 0 0 = some t → draw_tile board5 0 1 = some t1 →
      (∀ ty tx ch ch1, term_call.mvaddch ty tx ch ∈ t → term_call.mvaddch ty tx ch1 ∉ t1) ∧
      (∀ ty tx ch ch1, term_call.mvaddch ty tx ch ∈ t →
        term_call.mvaddch ty tx ch1 ∉ draw_border board5)) ∧
    (grid_sized board5 → int_sized board5 →
      ∃ t t1, draw_tile board5 0 0 = some t ∧ draw_tile board5 0 1 = some t1)) :=
  ⟨by decide, tiles_disjoint board5 (by decide) 0 0 0 1 (by decide) (by decide) (by decide)
    (by decide) (by decide)⟩

/-! ## Cursor projection -/

/-- The coordinate passed to `move` when the far end of the cursor's tile is a value of
`int`. -/
theorem center_coord (a sc : Nat) (h : a * sc + sc + 1 ≤ 2147483647) :
    isub (iadd (iadd (imul (a : Int) (sc : Int)) (isub (sc : Int) ((sc : Int) / 2)))
        border_sz) 1
      = (a : Int) * (sc : Int) + ((sc : Int) - (sc : Int) / 2) := by
  have h1 : (a : Int) * (sc : Int) + (sc : Int) + 1 ≤ 2147483647 := by exact_mod_cast h
  have h0 : (0 : Int) ≤ (a : Int) * (sc : Int) :=
    Int.mul_nonneg (Int.ofNat_nonneg _) (Int.ofNat_nonneg _)
  have e1 : imul (a : Int) (sc : Int) = (a : Int) * (sc : Int) :=
    wrap_int_eq _ (by omega) (by omega)
  have e2 : isub (sc : Int) ((sc : Int) / 2) = (sc : Int) - (sc : Int) / 2 :=
    wrap_int_eq _ (by omega) (by omega)
  have e3 : iadd ((a : Int) * (sc : Int)) ((sc : Int) - (sc : Int) / 2)
      = (a : Int) * (sc : Int) + ((sc : Int) - (sc : Int) / 2) :=
    wrap_int_eq _ (by omega) (by omega)
  have e4 : iadd ((a : Int) * (sc : Int) + ((sc : Int) - (sc : Int) / 2)) border_sz
      = (a : Int) * (sc : Int) + ((sc : Int) - (sc : Int) / 2) + 1 := by
    unfold iadd border_sz
    exact wrap_int_eq _ (by omega) (by omega)
  rw [e1, e2, e3, e4]
  unfold isub
  rw [wrap_int_eq _ (by omega) (by omega)]
  omega

theorem real_y_eq (ctx : ctx_t) (hf : render_fits ctx) (hb : cursor_in_bounds ctx) :
    real_y ctx = (ctx.cursor.y : Int) * (ctx.sc : Int)
      + ((ctx.sc : Int) - (ctx.sc : Int) / 2) := by
  unfold render_fits INT_MAX at hf
  have k := block_sep ctx.sc _ _ hb.1
  exact center_coord _ _ (by omega)

theorem real_x_eq (ctx : ctx_t) (hf : render_fits ctx) (hb : cursor_in_bounds ctx) :
    real_x ctx = (ctx.cursor.x : Int) * (ctx.sc : Int)
      + ((ctx.sc : Int) - (ctx.sc : Int) / 2) := by
  unfold render_fits INT_MAX at hf
  have k := block_sep ctx.sc _ _ hb.2
  exact center_coord _ _ (by omega)

theorem block_sep_int (sc a b : Nat) (h : a < b) :
    (a : Int) * (sc : Int) + (sc : Int) ≤ (b : Int) * (sc : Int) := by
  exact_mod_cast block_sep sc a b h

/-- A position of the block of the cell `(y, x)` is not on the frame of a playfield of `h`
rows and `w` columns of cells. -/
theorem block_off_frame (sc h w y x : Nat) (ty tx : Int) (ch : Nat) (hy : y < h) (hx : x < w)
    (h1 : (y : Int) * (sc : Int) + 1 ≤ ty) (h2 : ty ≤ (y : Int) * (sc : Int) + (sc : Int))
    (h3 : (x : Int) * (sc : Int) + 1 ≤ tx) (h4 : tx ≤ (x : Int) * (sc : Int) + (sc : Int)) :
    ¬ on_frame ((h : Int) * (sc : Int)) ((w : Int) * (sc : Int)) ty tx ch := by
  have k1 := block_sep_int sc y h hy
  have k2 := block_sep_int sc x w hx
  have p1 : (0 : Int) ≤ (y : Int) * (sc : Int) :=
    Int.mul_nonneg (Int.ofNat_nonneg _) (Int.ofNat_nonneg _)
  have p2 : (0 : Int) ≤ (x : Int) * (sc : Int) :=
    Int.mul_nonneg (Int.ofNat_nonneg _) (Int.ofNat_nonneg _)
  unfold on_frame
  omega

/-- Blocks of two rows (columns) share no coordinate. -/
theorem block_unique (sc a b : Nat) (t : Int)
    (h1 : (a : Int) * (sc : Int) + 1 ≤ t) (h2 : t ≤ (a : Int) * (sc : Int) + (sc : Int))
    (h3 : (b : Int) * (sc : Int) + 1 ≤ t) (h4 : t ≤ (b : Int) * (sc : Int) + (sc : Int)) :
    a = b := by
  by_contra hne
  rcases Nat.lt_or_gt_of_ne hne with h | h
  · have k := block_sep_int sc a b h
    omega
  · have k := block_sep_int sc b a h
    omega

/-- C8, as stated, fails: for `w = 5`, `h = 65535` and scale 65535 (the configuration of
`-r 5x65535 -s 65535`) with the cursor at the in-bounds row 32769, the product
`cursor.y * scale` overflows `int`: the row passed to `move` is `-2147418113`, not
`y*scale + (scale - scale/2) = 2147549183`, and it is not in the block of the cursor
cell.  Likewise for `w = 65535`, `h = 5` and scale 65535 with the cursor at the in-bounds
column 32769 the column passed to `move` is `-2147418113`. -/
theorem cursor_projection_counterexample :
    (grid_sized tall_board ∧ cursor_in_bounds tall_board ∧ 1 ≤ tall_board.sc ∧
    real_y tall_board = -2147418113 ∧
    real_y tall_board ≠ (tall_board.cursor.y : Int) * (tall_board.sc : Int)
      + ((tall_board.sc : Int) - (tall_board.sc : Int) / 2) ∧
    ¬ ((tall_board.cursor.y : Int) * (tall_board.sc : Int) + 1 ≤ real_y tall_board)) ∧
    (grid_sized wide_board ∧ cursor_in_bounds wide_board ∧ 1 ≤ wide_board.sc ∧
    real_x wide_board = -2147418113 ∧
    real_x wide_board ≠ (wide_board.cursor.x : Int) * (wide_board.sc : Int)
      + ((wide_board.sc : Int) - (wide_board.sc : Int) / 2) ∧
    ¬ ((wide_board.cursor.x : Int) * (wide_board.sc : Int) + 1 ≤ real_x wide_board)) := by
  have e : real_y tall_board = -2147418113 := by
    unfold real_y tall_board; decide
  have e1 : real_x wide_board = -2147418113 := by
    unfold real_x wide_board; decide
  refine ⟨⟨?_, by decide, by decide, e, ?_, ?_⟩, ?_, by decide, by decide, e1, ?_, ?_⟩
  · unfold grid_sized tall_board
    exact off_cells_length _
  · rw [e]; decide
  · rw [e]; decide
  · unfold grid_sized wide_board
    exact off_cells_length _
  · rw [e1]; decide
  · rw [e1]; decide

/-- C8 (amended): with `h * scale + 1` and `w * scale + 1` at most `INT_MAX`, scale at
least 1 and the cursor `(y, x)` inside the grid, the last call of `redraw_grid` (which is
defined on every buffer of `w * h` cells with `w * h` a value of `int`) moves the terminal
cursor to `(y*scale + (scale - scale/2), x*scale + (scale - scale/2))`; this position lies
in the block
`[y*scale+1, y*scale+scale] x [x*scale+1, x*scale+scale]` of the cursor cell, is not
written by `draw_border`, lies in the block of no other in-range cell, for odd scale is as
far from the first row (column) of the block as from the last, and for scale 1 is
`(y+1, x+1)`. -/
theorem cursor_projection (ctx : ctx_t) (hf : render_fits ctx) (hsc : 1 ≤ ctx.sc)
    (hb : cursor_in_bounds ctx) :
    (∀ all, redraw_grid ctx = some all →
      ∃ calls, all = calls ++ [term_call.move (real_y ctx) (real_x ctx)]) ∧
    (grid_sized ctx → int_sized ctx → ∃ all, redraw_grid ctx = some all) ∧
    real_y ctx = (ctx.cursor.y : Int) * ctx.sc + ((ctx.sc : Int) - (ctx.sc : Int) / 2) ∧
    real_x ctx = (ctx.cursor.x : Int) * ctx.sc + ((ctx.sc : Int) - (ctx.sc : Int) / 2) ∧
    ((ctx.cursor.y : Int) * ctx.sc + 1 ≤ real_y ctx
      ∧ real_y ctx ≤ (ctx.cursor.y : Int) * ctx.sc + ctx.sc) ∧
    ((ctx.cursor.x : Int) * ctx.sc + 1 ≤ real_x ctx
      ∧ real_x ctx ≤ (ctx.cursor.x : Int) * ctx.sc + ctx.sc) ∧
    (∀ ch, term_call.mvaddch (real_y ctx) (real_x ctx) ch ∉ draw_border ctx) ∧
    (∀ r c t ch, r < ctx.h → c < ctx.w → (r, c) ≠ (ctx.cursor.y, ctx.cursor.x) →
      draw_tile ctx r c = some t →
      term_call.mvaddch (real_y ctx) (real_x ctx) ch ∉ t) ∧
    (ctx.sc % 2 = 1 →
      real_y ctx - ((ctx.cursor.y : Int) * ctx.sc + 1)
        = ((ctx.cursor.y : Int) * ctx.sc + ctx.sc) - real_y ctx ∧
      real_x ctx - ((ctx.cursor.x : Int) * ctx.sc + 1)
        = ((ctx.cursor.x : Int) * ctx.sc + ctx.sc) - real_x ctx) ∧
    (ctx.sc = 1 → real_y ctx = (ctx.cursor.y : Int) + 1
      ∧ real_x ctx = (ctx.cursor.x : Int) + 1) := by
  have hlast : ∀ all, redraw_grid ctx = some all →
      ∃ calls, all = calls ++ [term_call.move (real_y ctx) (real_x ctx)] := by
    intro all hall
    unfold redraw_grid at hall
    rw [Option.map_eq_some'] at hall
    obtain ⟨tiles, _, e⟩ := hall
    exact ⟨_, e.symm⟩
  have hdef : grid_sized ctx → int_sized ctx → ∃ all, redraw_grid ctx = some all := by
    intro hs hi
    obtain ⟨tiles, _, hall⟩ := redraw_grid_eq ctx hs hi
    exact ⟨_, hall⟩
  have ey := real_y_eq ctx hf hb
  have ex := real_x_eq ctx hf hb
  have by1 : (ctx.cursor.y : Int) * (ctx.sc : Int) + 1 ≤ real_y ctx := by rw [ey]; omega
  have by2 : real_y ctx ≤ (ctx.cursor.y : Int) * (ctx.sc : Int) + (ctx.sc : Int) := by
    rw [ey]; omega
  have bx1 : (ctx.cursor.x : Int) * (ctx.sc : Int) + 1 ≤ real_x ctx := by rw [ex]; omega
  have bx2 : real_x ctx ≤ (ctx.cursor.x : Int) * (ctx.sc : Int) + (ctx.sc : Int) := by
    rw [ex]; omega
  refine ⟨hlast, hdef, ey, ex, ⟨by1, by2⟩, ⟨bx1, bx2⟩, ?_, ?_, ?_, ?_⟩
  · intro ch hm
    exact block_off_frame ctx.sc ctx.h ctx.w _ _ _ _ ch hb.1 hb.2 by1 by2 bx1 bx2
      ((mem_draw_border ctx hf _ _ ch).mp hm)
  · intro r c t ch hr hc hne ht hm
    obtain ⟨v, et⟩ := draw_tile_some ctx r c t ht
    obtain ⟨e1, e2⟩ := term_y_eq ctx hf r hr
    obtain ⟨e3, e4⟩ := term_x_eq ctx hf c hc
    rw [et, e2, e4, e1, e3] at hm
    obtain ⟨ty0, tx0, he, b1, b2, b3, b4⟩ := (mem_tile_block _ _ _ _ _ _).mp hm
    simp only [term_call.mvaddch.injEq] at he
    obtain ⟨e5, e6, _⟩ := he
    rw [← e5] at b1 b2
    rw [← e6] at b3 b4
    apply hne
    rw [block_unique ctx.sc r ctx.cursor.y (real_y ctx) b1 ((lt_succ_add _ _ _).mp b2) by1 by2,
      block_unique ctx.sc c ctx.cursor.x (real_x ctx) b3 ((lt_succ_add _ _ _).mp b4) bx1 bx2]
  · intro hodd
    rw [ey, ex]
    constructor <;> omega
  · intro h1
    rw [ey, ex, h1]
    constructor <;> simp

/-- Witness of C8: the 5x5 board at scale 1 with the cursor at `(2, 2)`; the terminal
cursor is at `(3, 3)`. -/
theorem cursor_projection_witness :
    (real_y board5 = 3 ∧ real_x board5 = 3) ∧
    ((∀ all, redraw_grid board5 = some all →
      ∃ calls, all = calls ++ [term_call.move (real_y board5) (real_x board5)]) ∧
    (grid_sized board5 → int_sized board5 → ∃ all, redraw_grid board5 = some all) ∧
    real_y board5
      = (board5.cursor.y : Int) * board5.sc + ((board5.sc : Int) - (board5.sc : Int) / 2) ∧
    real_x board5
      = (board5.cursor.x : Int) * board5.sc + ((board5.sc : Int) - (board5.sc : Int) / 2) ∧
    ((board5.cursor.y : Int) * board5.sc + 1 ≤ real_y board5
      ∧ real_y board5 ≤ (board5.cursor.y : Int) * board5.sc + board5.sc) ∧
    ((board5.cursor.x : Int) * board5.sc + 1 ≤ real_x board5
      ∧ real_x board5 ≤ (board5.cursor.x : Int) * board5.sc + board5.sc) ∧
    (∀ ch, term_call.mvaddch (real_y board5) (real_x board5) ch ∉ draw_border board5) ∧
    (∀ r c t ch, r < board5.h → c < board5.w →
      (r, c) ≠ (board5.cursor.y, board5.cursor.x) → draw_tile board5 r c = some t →
      term_call.mvaddch (real_y board5) (real_x board5) ch ∉ t) ∧
    (board5.sc % 2 = 1 →
      real_y board5 - ((board5.cursor.y : Int) * board5.sc + 1)
        = ((board5.cursor.y : Int) * board5.sc + board5.sc) - real_y board5 ∧
      real_x board5 - ((board5.cursor.x : Int) * board5.sc + 1)
        = ((board5.cursor.x : Int) * board5.sc + board5.sc) - real_x board5) ∧
    (board5.sc = 1 →
      real_y board5 = (board5.cursor.y : Int) + 1
        ∧ real_x board5 = (board5.cursor.x : Int) + 1)) :=
  ⟨by decide, cursor_projection board5 (by decide) (by decide) (by decide)⟩

/-! ## Initial cursor -/

/-- C9: for 16-bit dimensions `w >= 1` and `h >= 1` (in particular every accepted
`w >= 5`, `h >= 5`) the cursor stored by `main` is `(h - h/2 - 1, w - w/2 - 1)`, it lies
inside the grid, and no row (column) index of the grid is strictly closer to the centre
`(h-1)/2` (`(w-1)/2`) than it. -/
theorem initial_cursor_center (ctx : ctx_t) (hw : 1 ≤ ctx.w) (hh : 1 ≤ ctx.h)
    (hw16 : ctx.w < 65536) (hh16 : ctx.h < 65536) :
    ((initial_cursor ctx).y : Int) = (ctx.h : Int) - (ctx.h : Int) / 2 - 1 ∧
    ((initial_cursor ctx).x : Int) = (ctx.w : Int) - (ctx.w : Int) / 2 - 1 ∧
    (initial_cursor ctx).y < ctx.h ∧ (initial_cursor ctx).x < ctx.w ∧
    (∀ r : Nat, r < ctx.h →
      center_dist2 ctx.h (initial_cursor ctx).y ≤ center_dist2 ctx.h r) ∧
    (∀ c : Nat, c < ctx.w →
      center_dist2 ctx.w (initial_cursor ctx).x ≤ center_dist2 ctx.w c) := by
  have ey : ((initial_cursor ctx).y : Int) = (ctx.h : Int) - (ctx.h : Int) / 2 - 1 := by
    unfold initial_cursor to_u16; simp only []; omega
  have ex : ((initial_cursor ctx).x : Int) = (ctx.w : Int) - (ctx.w : Int) / 2 - 1 := by
    unfold initial_cursor to_u16; simp only []; omega
  refine ⟨ey, ex, by omega, by omega, ?_, ?_⟩
  · intro r hr
    unfold center_dist2
    rw [ey]
    split_ifs <;> omega
  · intro c hc
    unfold center_dist2
    rw [ex]
    split_ifs <;> omega

/-- Witness of C9: a 5x5 grid starts at `(row = 2, col = 2)`, also through `main`. -/
theorem initial_cursor_center_witness :
    (initial_cursor board5 = ⟨2, 2⟩ ∧
      (main ["5x5"] []).map (fun r => r.ctx.cursor) = some ⟨2, 2⟩) ∧
    (((initial_cursor board5).y : Int) = (board5.h : Int) - (board5.h : Int) / 2 - 1 ∧
    ((initial_cursor board5).x : Int) = (board5.w : Int) - (board5.w : Int) / 2 - 1 ∧
    (initial_cursor board5).y < board5.h ∧ (initial_cursor board5).x < board5.w ∧
    (∀ r : Nat, r < board5.h →
      center_dist2 board5.h (initial_cursor board5).y ≤ center_dist2 board5.h r) ∧
    (∀ c : Nat, c < board5.w →
      center_dist2 board5.w (initial_cursor board5).x ≤ center_dist2 board5.w c)) :=
  ⟨⟨by decide, by decide⟩,
    initial_cursor_center board5 (by decide) (by decide) (by decide) (by decide)⟩

/-! ## Resolution argument -/

theorem parse_args_loop_nil (ctx : ctx_t) : parse_args_loop ctx [] = parse_outcome.done ctx := by
  simp only [parse_args_loop]

theorem parse_args_loop_one (ctx : ctx_t) (a : String) :
    parse_args_loop ctx [a] =
      if a = "-r" ∨ a = "--resolution" then parse_outcome.arg_error ctx
      else if a = "-s" ∨ a = "--scale" then parse_outcome.arg_error ctx
      else if a = "-k" ∨ a = "--keys" then parse_outcome.keys ctx
      else if a = "-h" ∨ a = "--help" then parse_outcome.arg_error ctx
      else parse_outcome.done ctx := by
  simp only [parse_args_loop]

theorem parse_args_loop_two (ctx : ctx_t) (a s : String) (rest1 : List String) :
    parse_args_loop ctx (a :: s :: rest1) =
      if a = "-r" ∨ a = "--resolution" then
        if (parse_resolution s.toList).1 < MIN_W ∨ (parse_resolution s.toList).2 < MIN_H
        then parse_outcome.arg_error
          { ctx with w := (parse_resolution s.toList).1, h := (parse_resolution s.toList).2 }
        else parse_args_loop
          { ctx with w := (parse_resolution s.toList).1, h := (parse_resolution s.toList).2 }
          rest1
      else if a = "-s" ∨ a = "--scale" then
        if to_u16 (atoi s.toList) < 1
        then parse_outcome.arg_error { ctx with sc := to_u16 (atoi s.toList) }
        else parse_args_loop { ctx with sc := to_u16 (atoi s.toList) } rest1
      else if a = "-k" ∨ a = "--keys" then parse_outcome.keys ctx
      else if a = "-h" ∨ a = "--help" then parse_outcome.arg_error ctx
      else parse_args_loop ctx (s :: rest1) := by
  simp only [parse_args_loop]

/-- A resolution option whose stored width or height is below the minimum makes the
argument loop end without success, wherever the option stands after `argv[0]`. -/
theorem parse_args_loop_rejects (opt S : String) (rest : List String)
    (hopt : opt = "-r" ∨ opt = "--resolution")
    (hbad : (parse_resolution S.toList).1 < MIN_W ∨ (parse_resolution S.toList).2 < MIN_H) :
    ∀ (n : Nat) (pre : List String), pre.length ≤ n → ∀ ctx c,
      parse_args_loop ctx (pre ++ opt :: S :: rest) ≠ parse_outcome.done c := by
  have base : ∀ ctx c, parse_args_loop ctx (opt :: S :: rest) ≠ parse_outcome.done c := by
    intro ctx c
    rw [parse_args_loop_two, if_pos hopt, if_pos hbad]
    exact fun h => parse_outcome.noConfusion h
  have hres : (parse_resolution opt.toList).1 < MIN_W := by
    rcases hopt with rfl | rfl <;> decide
  have hsc : to_u16 (atoi opt.toList) < 1 := by
    rcases hopt with rfl | rfl <;> decide
  intro n
  induction n with
  | zero =>
    intro pre hpre ctx c
    have : pre = [] := List.length_eq_zero.mp (Nat.le_zero.mp hpre)
    subst this
    exact base ctx c
  | succ n ih =>
    intro pre hpre ctx c
    match pre, hpre with
    | [], _ => exact base ctx c
    | [a], _ =>
      show parse_args_loop ctx (a :: opt :: S :: rest) ≠ parse_outcome.done c
      rw [parse_args_loop_two]
      by_cases h1 : a = "-r" ∨ a = "--resolution"
      · rw [if_pos h1, if_pos (Or.inl hres)]
        exact fun h => parse_outcome.noConfusion h
      · rw [if_neg h1]
        by_cases h2 : a = "-s" ∨ a = "--scale"
        · rw [if_pos h2, if_pos hsc]
          exact fun h => parse_outcome.noConfusion h
        · rw [if_neg h2]
          by_cases h3 : a = "-k" ∨ a = "--keys"
          · rw [if_pos h3]
            exact fun h => parse_outcome.noConfusion h
          · rw [if_neg h3]
            by_cases h4 : a = "-h" ∨ a = "--help"
            · rw [if_pos h4]
              exact fun h => parse_outcome.noConfusion h
            · rw [if_neg h4]
              exact base ctx c
    | a :: b :: pre1, hlen =>
      show parse_args_loop ctx (a :: b :: (pre1 ++ opt :: S :: rest)) ≠ parse_outcome.done c
      have hl1 : pre1.length ≤ n := by simp only [List.length_cons] at hlen; omega
      have hl2 : (b :: pre1).length ≤ n := by simp only [List.length_cons] at hlen ⊢; omega
      rw [parse_args_loop_two]
      by_cases h1 : a = "-r" ∨ a = "--resolution"
      · rw [if_pos h1]
        by_cases hb : (parse_resolution b.toList).1 < MIN_W
            ∨ (parse_resolution b.toList).2 < MIN_H
        · rw [if_pos hb]
          exact fun h => parse_outcome.noConfusion h
        · rw [if_neg hb]
          exact ih pre1 hl1 _ c
      · rw [if_neg h1]
        by_cases h2 : a = "-s" ∨ a = "--scale"
        · rw [if_pos h2]
          by_cases hb : to_u16 (atoi b.toList) < 1
          · rw [if_pos hb]
            exact fun h => parse_outcome.noConfusion h
          · rw [if_neg hb]
            exact ih pre1 hl1 _ c
        · rw [if_neg h2]
          by_cases h3 : a = "-k" ∨ a = "--keys"
          · rw [if_pos h3]
            exact fun h => parse_outcome.noConfusion h
          · rw [if_neg h3]
            by_cases h4 : a = "-h" ∨ a = "--help"
            · rw [if_pos h4]
              exact fun h => parse_outcome.noConfusion h
            · rw [if_neg h4]
              exact ih (b :: pre1) hl2 ctx c

/-- When the width or height stored by `parse_resolution` is below the minimum, every
argument vector with the resolution option after `argv[0]` makes `parse_args` return
false, and `main` exit with code 1 without any call to the terminal. -/
theorem resolution_stored_below_min_rejected (prog opt S : String) (pre rest : List String)
    (ctx : ctx_t) (keys : List Int) (hopt : opt = "-r" ∨ opt = "--resolution")
    (hbad : (parse_resolution S.toList).1 < MIN_W ∨ (parse_resolution S.toList).2 < MIN_H) :
    (parse_args (prog :: (pre ++ opt :: S :: rest)) ctx).1 = false ∧
    ∃ c, main (prog :: (pre ++ opt :: S :: rest)) keys = some ⟨some 1, c, []⟩ := by
  have key : ∀ ctx, (parse_args (prog :: (pre ++ opt :: S :: rest)) ctx).1 = false := by
    intro ctx
    unfold parse_args
    have h := parse_args_loop_rejects opt S rest hopt hbad pre.length pre (Nat.le_refl _) ctx
    simp only [List.drop_succ_cons, List.drop_zero]
    cases hp : parse_args_loop ctx (pre ++ opt :: S :: rest) with
    | done c => exact absurd hp (h c)
    | arg_error c => rfl
    | keys c => rfl
  refine ⟨key ctx, ?_⟩
  unfold main
  simp only [key default_ctx, if_true]
  exact ⟨_, rfl⟩

/-- C10, evaluation at the failing input: for the arguments `-r -65531x5` the width read
by `atoi` is `-65531`, below the minimum 5; stored in the `uint16_t` field it becomes 5,
the comparison with `MIN_W` passes, `parse_args` returns true and `main` goes on to draw a
5x5 grid and ends with exit code 0 on the key `q`. -/
theorem resolution_negative_width_accepted :
    atoi "-65531".toList = -65531 ∧
    parse_resolution "-65531x5".toList = (5, 5) ∧
    parse_args argv_negative_width default_ctx
      = (true, { default_ctx with w := 5, h := 5 }) ∧
    (main argv_negative_width [113]).map
        (fun r => (r.exit_code, r.ctx.w, r.ctx.h, r.calls.isEmpty))
      = some (some 0, 5, 5, false) := by
  refine ⟨by decide, by decide, by decide, by decide⟩

/-! ## Scale argument and accepted configurations -/

/-- An option followed by an argument that the loop rejects makes the argument loop end
without success wherever the pair stands, provided the option string itself is rejected
when it is read as the argument of a preceding `-r` or `-s`. -/
theorem parse_args_loop_bad_pair (opt S : String) (rest : List String)
    (base : ∀ ctx c, parse_args_loop ctx (opt :: S :: rest) ≠ parse_outcome.done c)
    (hres : (parse_resolution opt.toList).1 < MIN_W)
    (hsc : to_u16 (atoi opt.toList) < 1) :
    ∀ (n : Nat) (pre : List String), pre.length ≤ n → ∀ ctx c,
      parse_args_loop ctx (pre ++ opt :: S :: rest) ≠ parse_outcome.done c := by
  intro n
  induction n with
  | zero =>
    intro pre hpre ctx c
    have : pre = [] := List.length_eq_zero.mp (Nat.le_zero.mp hpre)
    subst this
    exact base ctx c
  | succ n ih =>
    intro pre hpre ctx c
    match pre, hpre with
    | [], _ => exact base ctx c
    | [a], _ =>
      show parse_args_loop ctx (a :: opt :: S :: rest) ≠ parse_outcome.done c
      rw [parse_args_loop_two]
      by_cases h1 : a = "-r" ∨ a = "--resolution"
      · rw [if_pos h1, if_pos (Or.inl hres)]
        exact fun h => parse_outcome.noConfusion h
      · rw [if_neg h1]
        by_cases h2 : a = "-s" ∨ a = "--scale"
        · rw [if_pos h2, if_pos hsc]
          exact fun h => parse_outcome.noConfusion h
        · rw [if_neg h2]
          by_cases h3 : a = "-k" ∨ a = "--keys"
          · rw [if_pos h3]
            exact fun h => parse_outcome.noConfusion h
          · rw [if_neg h3]
            by_cases h4 : a = "-h" ∨ a = "--help"
            · rw [if_pos h4]
              exact fun h => parse_outcome.noConfusion h
            · rw [if_neg h4]
              exact base ctx c
    | a :: b :: pre1, hlen =>
      show parse_args_loop ctx (a :: b :: (pre1 ++ opt :: S :: rest)) ≠ parse_outcome.done c
      have hl1 : pre1.length ≤ n := by simp only [List.length_cons] at hlen; omega
      have hl2 : (b :: pre1).length ≤ n := by simp only [List.length_cons] at hlen ⊢; omega
      rw [parse_args_loop_two]
      by_cases h1 : a = "-r" ∨ a = "--resolution"
      · rw [if_pos h1]
        by_cases hb : (parse_resolution b.toList).1 < MIN_W
            ∨ (parse_resolution b.toList).2 < MIN_H
        · rw [if_pos hb]
          exact fun h => parse_outcome.noConfusion h
        · rw [if_neg hb]
          exact ih pre1 hl1 _ c
      · rw [if_neg h1]
        by_cases h2 : a = "-s" ∨ a = "--scale"
        · rw [if_pos h2]
          by_cases hb : to_u16 (atoi b.toList) < 1
          · rw [if_pos hb]
            exact fun h => parse_outcome.noConfusion h
          · rw [if_neg hb]
            exact ih pre1 hl1 _ c
        · rw [if_neg h2]
          by_cases h3 : a = "-k" ∨ a = "--keys"
          · rw [if_pos h3]
            exact fun h => parse_outcome.noConfusion h
          · rw [if_neg h3]
            by_cases h4 : a = "-h" ∨ a = "--help"
            · rw [if_pos h4]
              exact fun h => parse_outcome.noConfusion h
            · rw [if_neg h4]
              exact ih (b :: pre1) hl2 ctx c

/-- A scale option whose stored value is below 1 makes the argument loop end without
success, wherever the option stands after `argv[0]`. -/
theorem parse_args_loop_rejects_scale (opt S : String) (rest pre : List String)
    (hopt : opt = "-s" ∨ opt = "--scale") (hbad : to_u16 (atoi S.toList) < 1)
    (ctx c : ctx_t) :
    parse_args_loop ctx (pre ++ opt :: S :: rest) ≠ parse_outcome.done c := by
  have hn : ¬ (opt = "-r" ∨ opt = "--resolution") := by
    rcases hopt with rfl | rfl <;> decide
  apply parse_args_loop_bad_pair opt S rest ?_ ?_ ?_ pre.length pre (Nat.le_refl _)
  · intro ctx c
    rw [parse_args_loop_two, if_neg hn, if_pos hopt, if_pos hbad]
    exact fun h => parse_outcome.noConfusion h
  · rcases hopt with rfl | rfl <;> decide
  · rcases hopt with rfl | rfl <;> decide

theorem parse_args_false_of_not_done (argv : List String) (ctx : ctx_t)
    (h : ∀ c, parse_args_loop ctx (argv.drop 1) ≠ parse_outcome.done c) :
    (parse_args argv ctx).1 = false := by
  unfold parse_args
  cases hp : parse_args_loop ctx (argv.drop 1) with
  | done c => exact absurd hp (h c)
  | arg_error c => rfl
  | keys c => rfl

/-- When the scale stored in `ctx->sc` is below 1, every argument vector with the scale
option after `argv[0]` makes `parse_args` return false, and `main` exit with code 1
without any call to the terminal. -/
theorem scale_stored_below_min_rejected (prog opt S : String) (pre rest : List String)
    (ctx : ctx_t) (keys : List Int) (hopt : opt = "-s" ∨ opt = "--scale")
    (hbad : to_u16 (atoi S.toList) < 1) :
    (parse_args (prog :: (pre ++ opt :: S :: rest)) ctx).1 = false ∧
    ∃ c, main (prog :: (pre ++ opt :: S :: rest)) keys = some ⟨some 1, c, []⟩ := by
  have key : ∀ ctx, (parse_args (prog :: (pre ++ opt :: S :: rest)) ctx).1 = false := by
    intro ctx
    apply parse_args_false_of_not_done
    intro c
    simp only [List.drop_succ_cons, List.drop_zero]
    exact parse_args_loop_rejects_scale opt S rest pre hopt hbad ctx c
  refine ⟨key ctx, ?_⟩
  unfold main
  simp only [key default_ctx, if_true]
  exact ⟨_, rfl⟩

/-- C11, evaluation at the failing input: for the arguments `-s -65535` the scale read by
`atoi` is `-65535`, below 1; stored in the `uint16_t` field `ctx->sc` it becomes 1, the
comparison `ctx->sc < 1` fails, `parse_args` returns true and `main` goes on to draw the
grid at scale 1 and ends with exit code 0 on the key `q`.  The scale `0` is rejected. -/
theorem scale_negative_accepted :
    atoi "-65535".toList = -65535 ∧
    to_u16 (atoi "-65535".toList) = 1 ∧
    parse_args argv_negative_scale default_ctx = (true, { default_ctx with sc := 1 }) ∧
    (main argv_negative_scale [113]).map
        (fun r => (r.exit_code, r.ctx.sc, r.calls.isEmpty))
      = some (some 0, 1, false) ∧
    (parse_args ["5x5", "-s", "0"] default_ctx).1 = false := by
  refine ⟨by decide, by decide, by decide, by decide, by decide⟩

theorem parse_args_loop_valid : ∀ (n : Nat) (l : List String), l.length ≤ n →
    ∀ ctx c, valid_config ctx → parse_args_loop ctx l = parse_outcome.done c →
      valid_config c := by
  intro n
  induction n with
  | zero =>
    intro l hl ctx c hv hd
    have : l = [] := List.length_eq_zero.mp (Nat.le_zero.mp hl)
    subst this
    rw [parse_args_loop_nil, parse_outcome.done.injEq] at hd
    exact hd ▸ hv
  | succ n ih =>
    intro l hl ctx c hv hd
    match l, hl with
    | [], _ =>
      rw [parse_args_loop_nil, parse_outcome.done.injEq] at hd
      exact hd ▸ hv
    | [a], _ =>
      rw [parse_args_loop_one] at hd
      by_cases h1 : a = "-r" ∨ a = "--resolution"
      · rw [if_pos h1] at hd; exact parse_outcome.noConfusion hd
      · rw [if_neg h1] at hd
        by_cases h2 : a = "-s" ∨ a = "--scale"
        · rw [if_pos h2] at hd; exact parse_outcome.noConfusion hd
        · rw [if_neg h2] at hd
          by_cases h3 : a = "-k" ∨ a = "--keys"
          · rw [if_pos h3] at hd; exact parse_outcome.noConfusion hd
          · rw [if_neg h3] at hd
            by_cases h4 : a = "-h" ∨ a = "--help"
            · rw [if_pos h4] at hd; exact parse_outcome.noConfusion hd
            · rw [if_neg h4, parse_outcome.done.injEq] at hd
              exact hd ▸ hv
    | a :: b :: rest1, hlen =>
      have hl1 : rest1.length ≤ n := by simp only [List.length_cons] at hlen; omega
      have hl2 : (b :: rest1).length ≤ n := by simp only [List.length_cons] at hlen ⊢; omega
      rw [parse_args_loop_two] at hd
      by_cases h1 : a = "-r" ∨ a = "--resolution"
      · rw [if_pos h1] at hd
        by_cases hb : (parse_resolution b.toList).1 < MIN_W
            ∨ (parse_resolution b.toList).2 < MIN_H
        · rw [if_pos hb] at hd; exact parse_outcome.noConfusion hd
        · rw [if_neg hb] at hd
          refine ih rest1 hl1 _ c ?_ hd
          unfold valid_config at hv ⊢
          exact ⟨by simp only []; omega, by simp only []; omega, hv.2.2⟩
      · rw [if_neg h1] at hd
        by_cases h2 : a = "-s" ∨ a = "--scale"
        · rw [if_pos h2] at hd
          by_cases hb : to_u16 (atoi b.toList) < 1
          · rw [if_pos hb] at hd; exact parse_outcome.noConfusion hd
          · rw [if_neg hb] at hd
            refine ih rest1 hl1 _ c ?_ hd
            unfold valid_config at hv ⊢
            exact ⟨hv.1, hv.2.1, by simp only []; omega⟩
        · rw [if_neg h2] at hd
          by_cases h3 : a = "-k" ∨ a = "--keys"
          · rw [if_pos h3] at hd; exact parse_outcome.noConfusion hd
          · rw [if_neg h3] at hd
            by_cases h4 : a = "-h" ∨ a = "--help"
            · rw [if_pos h4] at hd; exact parse_outcome.noConfusion hd
            · rw [if_neg h4] at hd
              exact ih (b :: rest1) hl2 ctx c hv hd

theorem parse_args_loop_no_option (args : List String) :
    (∀ a ∈ args, ¬ is_option a) → ∀ ctx, parse_args_loop ctx args = parse_outcome.done ctx := by
  induction args with
  | nil => intro _ ctx; exact parse_args_loop_nil ctx
  | cons a rest ih =>
    intro hno ctx
    have ha := hno a (List.mem_cons_self _ _)
    unfold is_option at ha
    have h1 : ¬ (a = "-r" ∨ a = "--resolution") := fun h => ha (Or.inl h)
    have h2 : ¬ (a = "-s" ∨ a = "--scale") := fun h => ha (Or.inr (Or.inl h))
    have h3 : ¬ (a = "-k" ∨ a = "--keys") := fun h => ha (Or.inr (Or.inr (Or.inl h)))
    have h4 : ¬ (a = "-h" ∨ a = "--help") := fun h => ha (Or.inr (Or.inr (Or.inr h)))
    have hrest := ih (fun b hb => hno b (List.mem_cons_of_mem _ hb)) ctx
    cases rest with
    | nil => rw [parse_args_loop_one, if_neg h1, if_neg h2, if_neg h3, if_neg h4]
    | cons s rest1 =>
      rw [parse_args_loop_two, if_neg h1, if_neg h2, if_neg h3, if_neg h4]
      exact hrest

theorem parse_args_eq_true (argv : List String) (ctx c : ctx_t)
    (h : parse_args argv ctx = (true, c)) :
    parse_args_loop ctx (argv.drop 1) = parse_outcome.done c := by
  unfold parse_args at h
  cases hp : parse_args_loop ctx (argv.drop 1) with
  | done c1 =>
    rw [hp] at h
    simp only [Prod.mk.injEq, true_and] at h
    rw [h]
  | arg_error c1 => rw [hp] at h; simp at h
  | keys c1 => rw [hp] at h; simp at h

/-- C12: if `parse_args`, started from the default context, returns true, the context it
leaves has `w >= 5`, `h >= 5` and `sc >= 1`; every resolution or scale option standing
anywhere after `argv[0]` was checked (its stored values are not below the minimums); and
when no argument after `argv[0]` is an option the context is the default one, width 5,
height 5, scale 3. -/
theorem accepted_configuration_valid (argv : List String) (c : ctx_t)
    (h : parse_args argv default_ctx = (true, c)) :
    (5 ≤ c.w ∧ 5 ≤ c.h ∧ 1 ≤ c.sc) ∧
    (∀ pre opt S rest, argv.drop 1 = pre ++ opt :: S :: rest →
      ((opt = "-r" ∨ opt = "--resolution") →
        5 ≤ (parse_resolution S.toList).1 ∧ 5 ≤ (parse_resolution S.toList).2) ∧
      ((opt = "-s" ∨ opt = "--scale") → 1 ≤ to_u16 (atoi S.toList))) ∧
    ((∀ a ∈ argv.drop 1, ¬ is_option a) → c.w = 5 ∧ c.h = 5 ∧ c.sc = 3) := by
  have hd := parse_args_eq_true argv default_ctx c h
  refine ⟨?_, ?_, ?_⟩
  · exact parse_args_loop_valid _ _ (Nat.le_refl _) default_ctx c (by decide) hd
  · intro pre opt S rest he
    rw [he] at hd
    constructor
    · intro hopt
      by_contra hcon
      have hbad : (parse_resolution S.toList).1 < MIN_W
          ∨ (parse_resolution S.toList).2 < MIN_H := by
        unfold MIN_W MIN_H; omega
      exact parse_args_loop_rejects opt S rest hopt hbad pre.length pre (Nat.le_refl _)
        default_ctx c hd
    · intro hopt
      by_contra hcon
      exact parse_args_loop_rejects_scale opt S rest pre hopt (by omega) default_ctx c hd
  · intro hno
    rw [parse_args_loop_no_option _ hno default_ctx, parse_outcome.done.injEq] at hd
    subst hd
    exact ⟨rfl, rfl, rfl⟩

/-- Witness of C12: an accepted argument vector with two resolution options and one scale
option; the last resolution is the one kept.  With no argument the defaults are kept. -/
theorem accepted_configuration_valid_witness :
    parse_args ["5x5"] default_ctx = (true, default_ctx) ∧
    parse_args argv_accepted default_ctx = (true, { default_ctx with w := 6, h := 8, sc := 2 }) ∧
    ((5 ≤ 6 ∧ 5 ≤ 8 ∧ 1 ≤ 2) ∧
    (∀ pre opt S rest, argv_accepted.drop 1 = pre ++ opt :: S :: rest →
      ((opt = "-r" ∨ opt = "--resolution") →
        5 ≤ (parse_resolution S.toList).1 ∧ 5 ≤ (parse_resolution S.toList).2) ∧
      ((opt = "-s" ∨ opt = "--scale") → 1 ≤ to_u16 (atoi S.toList))) ∧
    ((∀ a ∈ argv_accepted.drop 1, ¬ is_option a) → 6 = 5 ∧ 8 = 5 ∧ 2 = 3)) :=
  ⟨by decide, by decide,
    accepted_configuration_valid argv_accepted { default_ctx with w := 6, h := 8, sc := 2 }
      (by decide)⟩

/-! ## Initialisation of the grid -/

/-- A monadic fold whose steps all succeed under an invariant is the pure fold. -/
theorem foldlM_eq_foldl {α β : Type} (F : β → α → Option β) (G : β → α → β) (P : β → Prop)
    (l : List α) (hstep : ∀ b a, P b → a ∈ l → F b a = some (G b a) ∧ P (G b a)) :
    ∀ b, P b → l.foldlM F b = some (l.foldl G b) ∧ P (l.foldl G b) := by
  induction l with
  | nil => intro b hb; exact ⟨rfl, hb⟩
  | cons a rest ih =>
    intro b hb
    obtain ⟨h1, h2⟩ := hstep b a hb (List.mem_cons_self _ _)
    have := ih (fun b1 a1 hb1 ha1 => hstep b1 a1 hb1 (List.mem_cons_of_mem _ ha1)) (G b a) h2
    simp only [List.foldlM_cons, h1, Option.bind_eq_bind, Option.some_bind, List.foldl_cons]
    exact this

/-- A property established by one step of a fold and kept by every step holds at the
end. -/
theorem foldl_establish {α β : Type} (G : β → α → β) (P Q : β → Prop) (a0 : α)
    (hP : ∀ b a, P b → P (G b a)) (hest : ∀ b, P b → Q (G b a0))
    (hst : ∀ b a, P b → Q b → Q (G b a)) (l : List α) :
    (∀ b, P b → Q b → P (l.foldl G b) ∧ Q (l.foldl G b)) ∧
    (a0 ∈ l → ∀ b, P b → Q (l.foldl G b)) := by
  induction l with
  | nil => exact ⟨fun b hp hq => ⟨hp, hq⟩, fun h => absurd h (List.not_mem_nil _)⟩
  | cons a rest ih =>
    refine ⟨fun b hp hq => ih.1 (G b a) (hP b a hp) (hst b a hp hq), ?_⟩
    intro hmem b hp
    simp only [List.foldl_cons]
    rcases List.mem_cons.mp hmem with h | h
    · subst h
      exact (ih.1 (G b a0) (hP b a0 hp) (hest b hp)).2
    · exact ih.2 h (G b a) (hP b a hp)

theorem foldl_invariant {α β : Type} (G : β → α → β) (P : β → Prop)
    (hP : ∀ b a, P b → P (G b a)) (l : List α) : ∀ b, P b → P (l.foldl G b) := by
  induction l with
  | nil => intro b hb; exact hb
  | cons a rest ih => intro b hb; exact ih (G b a) (hP b a hb)

theorem getD_set_self (g : List Nat) (i v : Nat) (hi : i < g.length) :
    (g.set i v).getD i 0 = v := by
  simp [List.getD_eq_getElem?_getD, List.getElem?_set, hi]

theorem getD_set_same (g : List Nat) (i j v : Nat) (hj : g.getD j 0 = v) :
    (g.set i v).getD j 0 = v := by
  by_cases hi : i < g.length
  · by_cases hij : i = j
    · subst hij
      exact getD_set_self g i v hi
    · rw [List.getD_eq_getElem?_getD] at hj ⊢
      rw [List.getElem?_set, if_neg hij]
      exact hj
  · rw [List.set_eq_of_length_le (by omega)]
    exact hj

theorem fill_row_length (w v : Nat) (g : List Nat) (y : Nat) :
    (fill_row w v g y).length = g.length := by
  unfold fill_row
  exact foldl_invariant (fun g x => g.set (y * w + x) v) (fun b => b.length = g.length)
    (fun b a hb => by simp only [List.length_set]; exact hb) _ g rfl

theorem fill_rows_length (w h v : Nat) (g : List Nat) :
    (fill_rows w h v g).length = g.length := by
  unfold fill_rows
  exact foldl_invariant (fill_row w v) (fun b => b.length = g.length)
    (fun b a hb => by
      show (fill_row w v b a).length = g.length
      rw [fill_row_length]; exact hb) _ g rfl

/-- Filling a row keeps a cell that already holds the value. -/
theorem fill_row_keeps (w v : Nat) (g : List Nat) (y j : Nat) (hj : g.getD j 0 = v) :
    (fill_row w v g y).getD j 0 = v := by
  unfold fill_row
  exact foldl_invariant (fun g x => g.set (y * w + x) v) (fun b => b.getD j 0 = v)
    (fun b a hb => getD_set_same b _ j v hb) _ g hj

/-- After the rows are filled every cell of the grid holds the value. -/
theorem fill_rows_getD (w h v : Nat) (g : List Nat) (hg : g.length = w * h) (r c : Nat)
    (hr : r < h) (hc : c < w) : (fill_rows w h v g).getD (r * w + c) 0 = v := by
  have hidx : r * w + c < w * h := idx_lt hr hc
  unfold fill_rows
  refine (foldl_establish (fill_row w v) (fun b => b.length = w * h)
    (fun b => b.getD (r * w + c) 0 = v) r ?_ ?_ ?_ (List.range h)).2
    (List.mem_range.mpr hr) g hg
  · intro b a hb
    rw [fill_row_length]; exact hb
  · intro b hb
    unfold fill_row
    refine (foldl_establish (fun g x => g.set (r * w + x) v) (fun b => b.length = w * h)
      (fun b => b.getD (r * w + c) 0 = v) c ?_ ?_ ?_ (List.range w)).2
      (List.mem_range.mpr hc) b hb
    · intro b1 a hb1
      simp only [List.length_set]; exact hb1
    · intro b1 hb1
      exact getD_set_self b1 _ v (by rw [hb1]; exact hidx)
    · intro b1 a _ hq
      exact getD_set_same b1 _ _ v hq
  · intro b a _ hq
    exact fill_row_keeps w v b a _ hq


/-- A monadic fold fails as soon as one element of the list makes the step fail whatever
the accumulator. -/
theorem foldlM_none {α β : Type} (F : β → α → Option β) (a0 : α) (hF : ∀ b, F b a0 = none)
    (l : List α) (ha : a0 ∈ l) : ∀ b, l.foldlM F b = none := by
  induction l with
  | nil => exact absurd ha (List.not_mem_nil _)
  | cons a rest ih =>
    intro b
    rw [List.foldlM_cons]
    rcases List.mem_cons.mp ha with h | h
    · subst h
      rw [hF b]
      rfl
    · cases hb : F b a with
      | none => rfl
      | some b1 => exact ih h b1

/-- On a buffer of `w * h` cells, `w * h` a value of `int`, `init_grid(ctx, false)`
succeeds and fills the rows. -/
theorem init_grid_eq (ctx : ctx_t) (hs : grid_sized ctx) (hi : int_sized ctx) :
    init_grid ctx false
      = some { ctx with grid := fill_rows ctx.w ctx.h OFF_CH ctx.grid } := by
  unfold grid_sized at hs
  unfold int_sized INT_MAX at hi
  unfold init_grid
  have hrow : ∀ (b : List Nat) (y : Nat), b.length = ctx.w * ctx.h → y ∈ List.range ctx.h →
      (List.range ctx.w).foldlM (fun g (x : Nat) =>
          grid_write g (iadd (imul (y : Int) (ctx.w : Int)) (x : Int)) OFF_CH) b
        = some (fill_row ctx.w OFF_CH b y)
      ∧ (fill_row ctx.w OFF_CH b y).length = ctx.w * ctx.h := by
    intro b y hb hy
    refine ⟨?_, by rw [fill_row_length]; exact hb⟩
    unfold fill_row
    refine (foldlM_eq_foldl (fun g (x : Nat) =>
        grid_write g (iadd (imul (y : Int) (ctx.w : Int)) (x : Int)) OFF_CH)
      (fun g x => g.set (y * ctx.w + x) OFF_CH) (fun b => b.length = ctx.w * ctx.h)
      (List.range ctx.w) ?_ b hb).1
    intro b1 x hb1 hx
    have hlt := idx_lt (List.mem_range.mp hy) (List.mem_range.mp hx)
    have hj : y * ctx.w + x < b1.length := by
      rw [hb1]; exact hlt
    refine ⟨?_, by simp only [List.length_set]; exact hb1⟩
    show grid_write b1 (iadd (imul (y : Int) (ctx.w : Int)) (x : Int)) OFF_CH
      = some (b1.set (y * ctx.w + x) OFF_CH)
    rw [idx_cast _ _ _ (by omega), grid_write_cast _ _ _ hj]
  have hall := (foldlM_eq_foldl
    (fun g (y : Nat) => (List.range ctx.w).foldlM (fun g (x : Nat) =>
      grid_write g (iadd (imul (y : Int) (ctx.w : Int)) (x : Int)) OFF_CH) g)
    (fill_row ctx.w OFF_CH) (fun b => b.length = ctx.w * ctx.h) (List.range ctx.h)
    hrow ctx.grid hs).1
  simp only [Bool.false_eq_true, if_false, hall, Option.map_some', fill_rows]

/-- On a grid of 65535 columns the index `32768 * 65535 + 32768 = 2 ^ 31` of the cell
`(32768, 32768)`, the first one above `INT_MAX`, wraps to `-2 ^ 31`, so `init_grid` leaves
the buffer. -/
theorem huge_board_init_none : init_grid huge_board false = none := by
  have e : iadd (imul ((32768 : Nat) : Int) ((65535 : Nat) : Int)) ((32768 : Nat) : Int)
      = -2147483648 := by decide
  have hrow : ∀ b : List Nat, (List.range 65535).foldlM (fun g (x : Nat) =>
      grid_write g (iadd (imul ((32768 : Nat) : Int) ((65535 : Nat) : Int)) (x : Int)) OFF_CH)
      b = none :=
    foldlM_none _ 32768 (fun b => by rw [e]; exact grid_write_neg b _ _ (by decide)) _
      (List.mem_range.mpr (by decide))
  have hall := foldlM_none
    (fun g (y : Nat) => (List.range 65535).foldlM (fun g (x : Nat) =>
      grid_write g (iadd (imul (y : Int) ((65535 : Nat) : Int)) (x : Int)) OFF_CH) g)
    32768 hrow (List.range 65535) (List.mem_range.mpr (by decide))
      (off_cells (65535 * 65535))
  unfold init_grid huge_board
  simp only [Bool.false_eq_true, if_false]
  rw [hall]
  rfl

/-- C13, as stated, fails: on a 65535x65535 grid with a buffer of `w * h` cells the index
`32768 * 65535 + 32768` of the cell `(32768, 32768)` overflows `int`, and
`init_grid(ctx, false)` leaves the buffer instead of setting every cell to `.`. -/
theorem init_grid_all_off_counterexample :
    grid_sized huge_board ∧ 1 ≤ huge_board.w ∧ 1 ≤ huge_board.h ∧
    iadd (imul ((32768 : Nat) : Int) (huge_board.w : Int)) ((32768 : Nat) : Int)
      = -2147483648 ∧
    ¬ ∃ ctx1, init_grid huge_board false = some ctx1 := by
  refine ⟨?_, by decide, by decide, by decide, ?_⟩
  · unfold grid_sized huge_board
    exact off_cells_length _
  · rintro ⟨ctx1, h⟩
    rw [huge_board_init_none] at h
    exact Option.noConfusion h

/-- C13 (amended): for every buffer of `w * h` cells with `w * h` at most `INT_MAX`,
whatever it holds, `init_grid(ctx, false)` succeeds, afterwards every cell `(row, col)`
with `row < h` and `col < w` holds `.`, and `w`, `h`, the scale and the cursor are
unchanged (the buffer keeps its `w * h` cells). -/
theorem init_grid_all_off (ctx : ctx_t) (hs : grid_sized ctx) (hi : int_sized ctx) :
    ∃ ctx1, init_grid ctx false = some ctx1 ∧
      (∀ r c, r < ctx.h → c < ctx.w → cell ctx1 r c = some OFF_CH) ∧
      ctx1.w = ctx.w ∧ ctx1.h = ctx.h ∧ ctx1.sc = ctx.sc ∧ ctx1.cursor = ctx.cursor ∧
      grid_sized ctx1 := by
  refine ⟨_, init_grid_eq ctx hs hi, ?_, rfl, rfl, rfl, rfl, ?_⟩
  · intro r c hr hc
    have hv := fill_rows_getD ctx.w ctx.h OFF_CH ctx.grid hs r c hr hc
    have hj : r * ctx.w + c < (fill_rows ctx.w ctx.h OFF_CH ctx.grid).length := by
      rw [fill_rows_length, hs]; exact idx_lt hr hc
    unfold cell
    simp only []
    rw [List.getD_eq_getElem?_getD, List.getElem?_eq_getElem hj, Option.getD_some] at hv
    rw [List.getElem?_eq_getElem hj, hv]
  · unfold grid_sized at hs ⊢
    simp only [fill_rows_length]
    exact hs

/-- Witness of C13: a 3x2 buffer holding arbitrary bytes. -/
theorem init_grid_all_off_witness :
    init_grid board_raw false = some { board_raw with grid := [46, 46, 46, 46, 46, 46] } ∧
    ∃ ctx1, init_grid board_raw false = some ctx1 ∧
      (∀ r c, r < board_raw.h → c < board_raw.w → cell ctx1 r c = some OFF_CH) ∧
      ctx1.w = board_raw.w ∧ ctx1.h = board_raw.h ∧ ctx1.sc = board_raw.sc ∧
      ctx1.cursor = board_raw.cursor ∧ grid_sized ctx1 :=
  ⟨by decide, init_grid_all_off board_raw (by decide) (by decide)⟩

/-! ## Centring for even scale and even dimensions -/

/-- C14, counterexample: on the 5x5 board at the even scale 2 with the cursor at `(2, 2)`
the terminal cursor is placed at `(5, 5)`, not at
`(y*scale + scale/2 + 1, x*scale + scale/2 + 1) = (6, 6)`.  Moreover, for `h = 65535` and
the even scale 65534 with the cursor at the in-bounds row 32770 the product
`cursor.y * scale` overflows `int` and the row passed to `move` is `-2147385349`, neither
`y*scale + scale/2 + 1` nor `y*scale + scale/2`; likewise for `w = 65535` and the cursor
at the in-bounds column 32770 the column passed to `move` is `-2147385349`. -/
theorem even_scale_bias_counterexample :
    (board5_s2.sc % 2 = 0 ∧ 2 ≤ board5_s2.sc ∧ cursor_in_bounds board5_s2 ∧
    real_y board5_s2 = 5 ∧ real_x board5_s2 = 5 ∧
    ¬ (real_y board5_s2
      = (board5_s2.cursor.y : Int) * board5_s2.sc + (board5_s2.sc : Int) / 2 + 1) ∧
    ¬ (real_x board5_s2
      = (board5_s2.cursor.x : Int) * board5_s2.sc + (board5_s2.sc : Int) / 2 + 1)) ∧
    (tall_board_even.sc % 2 = 0 ∧ 2 ≤ tall_board_even.sc ∧ cursor_in_bounds tall_board_even ∧
    grid_sized tall_board_even ∧
    real_y tall_board_even = -2147385349 ∧
    ¬ (real_y tall_board_even = (tall_board_even.cursor.y : Int) * tall_board_even.sc
      + (tall_board_even.sc : Int) / 2 + 1) ∧
    ¬ (real_y tall_board_even = (tall_board_even.cursor.y : Int) * tall_board_even.sc
      + (tall_board_even.sc : Int) / 2)) ∧
    (wide_board_even.sc % 2 = 0 ∧ 2 ≤ wide_board_even.sc ∧ cursor_in_bounds wide_board_even ∧
    grid_sized wide_board_even ∧
    real_x wide_board_even = -2147385349 ∧
    ¬ (real_x wide_board_even = (wide_board_even.cursor.x : Int) * wide_board_even.sc
      + (wide_board_even.sc : Int) / 2 + 1) ∧
    ¬ (real_x wide_board_even = (wide_board_even.cursor.x : Int) * wide_board_even.sc
      + (wide_board_even.sc : Int) / 2)) := by
  have e : real_y tall_board_even = -2147385349 := by
    unfold real_y tall_board_even; decide
  have e1 : real_x wide_board_even = -2147385349 := by
    unfold real_x wide_board_even; decide
  refine ⟨⟨by decide, by decide, by decide, by decide, by decide, by decide, by decide⟩,
    ⟨by decide, by decide, by decide, ?_, e, ?_, ?_⟩,
    by decide, by decide, by decide, ?_, e1, ?_, ?_⟩
  · unfold grid_sized tall_board_even
    exact off_cells_length _
  · rw [e]; decide
  · rw [e]; decide
  · unfold grid_sized wide_board_even
    exact off_cells_length _
  · rw [e1]; decide
  · rw [e1]; decide

/-- C14 as amended: for every even scale `>= 2` with `h * scale + 1` and `w * scale + 1`
at most `INT_MAX` and the cursor inside the grid, the terminal cursor coordinate that
`redraw_grid` passes to `move` in its last call (`redraw_grid` is defined on every buffer
of `w * h` cells with `w * h` a value of `int`) has row `y*scale + scale/2` and column
`x*scale + scale/2`: it is the upper-left one of the four central terminal cells of the
cursor's block (in each axis the block has one cell fewer before it than after it). -/
theorem even_scale_bias (ctx : ctx_t) (hf : render_fits ctx) (hb : cursor_in_bounds ctx)
    (heven : ctx.sc % 2 = 0) (_h2 : 2 ≤ ctx.sc) :
    (∀ all, redraw_grid ctx = some all →
      ∃ calls, all = calls ++ [term_call.move (real_y ctx) (real_x ctx)]) ∧
    (grid_sized ctx → int_sized ctx → ∃ all, redraw_grid ctx = some all) ∧
    real_y ctx = (ctx.cursor.y : Int) * ctx.sc + (ctx.sc : Int) / 2 ∧
    real_x ctx = (ctx.cursor.x : Int) * ctx.sc + (ctx.sc : Int) / 2 ∧
    (real_y ctx - ((ctx.cursor.y : Int) * ctx.sc + 1)) + 1
      = ((ctx.cursor.y : Int) * ctx.sc + ctx.sc) - real_y ctx ∧
    (real_x ctx - ((ctx.cursor.x : Int) * ctx.sc + 1)) + 1
      = ((ctx.cursor.x : Int) * ctx.sc + ctx.sc) - real_x ctx := by
  have hlast : ∀ all, redraw_grid ctx = some all →
      ∃ calls, all = calls ++ [term_call.move (real_y ctx) (real_x ctx)] := by
    intro all hall
    unfold redraw_grid at hall
    rw [Option.map_eq_some'] at hall
    obtain ⟨tiles, _, e⟩ := hall
    exact ⟨_, e.symm⟩
  have hdef : grid_sized ctx → int_sized ctx → ∃ all, redraw_grid ctx = some all := by
    intro hs hi
    obtain ⟨tiles, _, hall⟩ := redraw_grid_eq ctx hs hi
    exact ⟨_, hall⟩
  have ey : real_y ctx = (ctx.cursor.y : Int) * (ctx.sc : Int) + (ctx.sc : Int) / 2 := by
    rw [real_y_eq ctx hf hb]; omega
  have ex : real_x ctx = (ctx.cursor.x : Int) * (ctx.sc : Int) + (ctx.sc : Int) / 2 := by
    rw [real_x_eq ctx hf hb]; omega
  refine ⟨hlast, hdef, ey, ex, ?_, ?_⟩
  · rw [ey]; omega
  · rw [ex]; omega

/-- Witness of C14 as amended: the 5x5 board at scale 2. -/
theorem even_scale_bias_witness :
    (∀ all, redraw_grid board5_s2 = some all →
      ∃ calls, all = calls ++ [term_call.move (real_y board5_s2) (real_x board5_s2)]) ∧
    (grid_sized board5_s2 → int_sized board5_s2 → ∃ all, redraw_grid board5_s2 = some all) ∧
    real_y board5_s2 = (board5_s2.cursor.y : Int) * board5_s2.sc + (board5_s2.sc : Int) / 2 ∧
    real_x board5_s2 = (board5_s2.cursor.x : Int) * board5_s2.sc + (board5_s2.sc : Int) / 2 ∧
    (real_y board5_s2 - ((board5_s2.cursor.y : Int) * board5_s2.sc + 1)) + 1
      = ((board5_s2.cursor.y : Int) * board5_s2.sc + board5_s2.sc) - real_y board5_s2 ∧
    (real_x board5_s2 - ((board5_s2.cursor.x : Int) * board5_s2.sc + 1)) + 1
      = ((board5_s2.cursor.x : Int) * board5_s2.sc + board5_s2.sc) - real_x board5_s2 :=
  even_scale_bias board5_s2 (by decide) (by decide) (by decide) (by decide)

/-- C15, counterexample: for the even dimensions `w = h = 6` the cursor stored by `main`
is `(2, 2)`, not `(h/2, w/2) = (3, 3)`. -/
theorem even_dimension_bias_counterexample :
    config6.h % 2 = 0 ∧ 6 ≤ config6.h ∧ config6.w % 2 = 0 ∧ 6 ≤ config6.w ∧
    initial_cursor config6 = ⟨2, 2⟩ ∧
    ¬ ((initial_cursor config6).y = config6.h / 2) ∧
    ¬ ((initial_cursor config6).x = config6.w / 2) ∧
    (main ["5x5", "-r", "6x6"] []).map (fun r => r.ctx.cursor) = some ⟨2, 2⟩ := by
  refine ⟨by decide, by decide, by decide, by decide, by decide, by decide, by decide,
    by decide⟩

/-- C15 as amended: for 16-bit dimensions, for every even height `h >= 6` the initial
cursor row computed by `main` is `h/2 - 1`, the upper one of the two central indices (one
row fewer above it than below it), and for every even width `w >= 6` the initial cursor
column is `w/2 - 1`, the left one of the two central indices; so for even `w` and `h` the
initial cursor is the upper-left cell of the four central cells. -/
theorem even_dimension_bias (ctx : ctx_t) (hw16 : ctx.w < 65536) (hh16 : ctx.h < 65536) :
    (ctx.h % 2 = 0 → 6 ≤ ctx.h →
      (initial_cursor ctx).y = ctx.h / 2 - 1 ∧
      (initial_cursor ctx).y + 1 = ctx.h - 1 - (initial_cursor ctx).y) ∧
    (ctx.w % 2 = 0 → 6 ≤ ctx.w →
      (initial_cursor ctx).x = ctx.w / 2 - 1 ∧
      (initial_cursor ctx).x + 1 = ctx.w - 1 - (initial_cursor ctx).x) := by
  constructor
  · intro he h6
    have ey : (initial_cursor ctx).y = ctx.h / 2 - 1 := by
      unfold initial_cursor to_u16; simp only []; omega
    exact ⟨ey, by omega⟩
  · intro he h6
    have ex : (initial_cursor ctx).x = ctx.w / 2 - 1 := by
      unfold initial_cursor to_u16; simp only []; omega
    exact ⟨ex, by omega⟩

/-- Witness of C15 as amended: the 6x6 configuration starts at `(2, 2)`. -/
theorem even_dimension_bias_witness :
    ((initial_cursor config6).y = config6.h / 2 - 1 ∧
      (initial_cursor config6).y + 1 = config6.h - 1 - (initial_cursor config6).y) ∧
    ((initial_cursor config6).x = config6.w / 2 - 1 ∧
      (initial_cursor config6).x + 1 = config6.w - 1 - (initial_cursor config6).x) :=
  ⟨(even_dimension_bias config6 (by decide) (by decide)).1 (by decide) (by decide),
    (even_dimension_bias config6 (by decide) (by decide)).2 (by decide) (by decide)⟩

/-! ## Reachable grids -/

theorem binary_grid_set (g : List Nat) (i v : Nat) (hg : binary_grid g)
    (hv : v = ON_CH ∨ v = OFF_CH) : binary_grid (g.set i v) := by
  intro a ha
  rcases List.mem_or_eq_of_mem_set ha with h | h
  · exact hg a h
  · rw [h]; exact hv

theorem flip_ch_binary (v : Nat) : flip_ch v = ON_CH ∨ flip_ch v = OFF_CH := by
  unfold flip_ch
  split
  · exact Or.inr rfl
  · exact Or.inl rfl

theorem binary_grid_flip_if (b : Prop) [Decidable b] (g : List Nat) (i : Nat)
    (hg : binary_grid g) : binary_grid (flip_if b g i) := by
  unfold flip_if
  split
  · exact binary_grid_set g i _ hg (flip_ch_binary _)
  · exact hg

theorem binary_grid_toggled (ctx : ctx_t) (hg : binary_grid ctx.grid) :
    binary_grid (toggled_grid ctx) := by
  unfold toggled_grid
  exact binary_grid_flip_if _ _ _ (binary_grid_flip_if _ _ _ (binary_grid_flip_if _ _ _
    (binary_grid_flip_if _ _ _ (binary_grid_flip_if _ _ _ hg))))

theorem binary_cells_of_grid (ctx : ctx_t) (hs : grid_sized ctx) (hg : binary_grid ctx.grid) :
    binary_cells ctx := by
  intro r c hr hc
  have hj : r * ctx.w + c < ctx.grid.length := by rw [hs]; exact idx_lt hr hc
  unfold cell
  rw [List.getElem?_eq_getElem hj]
  rcases hg _ (List.getElem_mem hj) with h | h
  · exact Or.inl (congrArg some h)
  · exact Or.inr (congrArg some h)

theorem binary_grid_of_cells (ctx : ctx_t) (hs : grid_sized ctx) (hc : binary_cells ctx) :
    binary_grid ctx.grid := by
  intro v hv
  obtain ⟨j, hj, rfl⟩ := List.getElem_of_mem hv
  have hw : 0 < ctx.w := by
    rcases Nat.eq_zero_or_pos ctx.w with h0 | h0
    · unfold grid_sized at hs; rw [hs, h0, Nat.zero_mul] at hj; omega
    · exact h0
  have hq : j / ctx.w < ctx.h := by
    unfold grid_sized at hs
    rw [Nat.div_lt_iff_lt_mul hw, Nat.mul_comm]; omega
  have hjj : j / ctx.w * ctx.w + j % ctx.w = j := Nat.div_add_mod' j ctx.w
  have h := hc (j / ctx.w) (j % ctx.w) hq (Nat.mod_lt _ hw)
  unfold cell at h
  rw [hjj, List.getElem?_eq_getElem hj] at h
  rcases h with h | h
  · exact Or.inl (Option.some.inj h)
  · exact Or.inr (Option.some.inj h)


theorem toggle_cell_binary (g g1 : List Nat) (i : Int) (hg : binary_grid g)
    (h : toggle_cell g i = some g1) : binary_grid g1 := by
  unfold toggle_cell at h
  cases hr : grid_read g i with
  | none => rw [hr] at h; exact Option.noConfusion h
  | some v =>
    rw [hr] at h
    simp only [] at h
    unfold grid_write at h
    by_cases hv : v = ON_CH
    · rw [if_pos hv] at h
      by_cases hw : 0 ≤ i ∧ i.toNat < g.length
      · rw [if_pos hw, Option.some.injEq] at h
        rw [← h]
        exact binary_grid_set g _ _ hg (Or.inr rfl)
      · rw [if_neg hw] at h; exact Option.noConfusion h
    · rw [if_neg hv] at h
      by_cases hw : 0 ≤ i ∧ i.toNat < g.length
      · rw [if_pos hw, Option.some.injEq] at h
        rw [← h]
        exact binary_grid_set g _ _ hg (Or.inl rfl)
      · rw [if_neg hw] at h; exact Option.noConfusion h

theorem guarded_toggle_binary (b : Prop) [Decidable b] (g g1 : List Nat) (i : Int)
    (hg : binary_grid g) (h : (if b then toggle_cell g i else some g) = some g1) :
    binary_grid g1 := by
  by_cases hb : b
  · rw [if_pos hb] at h; exact toggle_cell_binary g g1 i hg h
  · rw [if_neg hb, Option.some.injEq] at h; rw [← h]; exact hg

/-- Whenever `toggle_adjacent` stays inside the buffer it keeps a binary buffer binary. -/
theorem toggle_adjacent_binary (ctx c1 : ctx_t) (hg : binary_grid ctx.grid)
    (h : toggle_adjacent ctx = some c1) : binary_grid c1.grid := by
  unfold toggle_adjacent at h
  simp only [Option.bind_eq_some] at h
  obtain ⟨g0, h0, g1, h1, g2, h2, g3, h3, g4, h4, h5⟩ := h
  rw [Option.some.injEq] at h5
  rw [← h5]
  exact guarded_toggle_binary _ _ _ _ (guarded_toggle_binary _ _ _ _
    (guarded_toggle_binary _ _ _ _ (guarded_toggle_binary _ _ _ _
      (toggle_cell_binary _ _ _ hg h0) h1) h2) h3) h4

/-- Whenever a key action is defined it keeps a binary buffer binary. -/
theorem key_switch_binary (ctx : ctx_t) (c : Int) (hg : binary_grid ctx.grid)
    (r : ctx_t × Int) (hk : key_switch ctx c = some r) : binary_grid r.1.grid := by
  unfold key_switch at hk
  by_cases h1 : c = 107 ∨ c = KEY_UP
  · rw [if_pos h1, Option.some.injEq] at hk
    subst hk
    by_cases hc : ctx.cursor.y > 0
    · simp only [if_pos hc]; exact hg
    · simp only [if_neg hc]; exact hg
  rw [if_neg h1] at hk
  by_cases h2 : c = 106 ∨ c = KEY_DOWN
  · rw [if_pos h2, Option.some.injEq] at hk
    subst hk
    by_cases hc : (ctx.cursor.y : Int) < (ctx.h : Int) - 1
    · simp only [if_pos hc]; exact hg
    · simp only [if_neg hc]; exact hg
  rw [if_neg h2] at hk
  by_cases h3 : c = 104 ∨ c = KEY_LEFT
  · rw [if_pos h3, Option.some.injEq] at hk
    subst hk
    by_cases hc : ctx.cursor.x > 0
    · simp only [if_pos hc]; exact hg
    · simp only [if_neg hc]; exact hg
  rw [if_neg h3] at hk
  by_cases h4 : c = 108 ∨ c = KEY_RIGHT
  · rw [if_pos h4, Option.some.injEq] at hk
    subst hk
    by_cases hc : (ctx.cursor.x : Int) < (ctx.w : Int) - 1
    · simp only [if_pos hc]; exact hg
    · simp only [if_neg hc]; exact hg
  rw [if_neg h4] at hk
  by_cases h5 : c = 32
  · rw [if_pos h5, Option.map_eq_some'] at hk
    obtain ⟨c1, ht, rfl⟩ := hk
    exact toggle_adjacent_binary ctx c1 hg ht
  rw [if_neg h5] at hk
  by_cases h6 : c = 114
  · rw [if_pos h6, Option.some.injEq] at hk
    subst hk
    exact hg
  rw [if_neg h6] at hk
  by_cases h7 : c = KEY_CTRLC
  · rw [if_pos h7, Option.some.injEq] at hk
    subst hk
    exact hg
  · rw [if_neg h7, Option.some.injEq] at hk
    subst hk
    exact hg

/-- Whenever the main loop is defined on a key sequence it keeps a binary buffer
binary. -/
theorem main_loop_binary (keys : List Int) : ∀ (ctx : ctx_t), binary_grid ctx.grid →
    ∀ res, main_loop ctx keys = some res → binary_grid res.ctx.grid := by
  induction keys with
  | nil =>
    intro ctx hg res h
    simp only [main_loop, Option.map_eq_some'] at h
    obtain ⟨d, _, rfl⟩ := h
    exact hg
  | cons k ks ih =>
    intro ctx hg res h
    simp only [main_loop, Option.bind_eq_some] at h
    obtain ⟨d, _, r, hk, h⟩ := h
    have hg1 := key_switch_binary ctx (tolower k) hg r hk
    by_cases hq : r.2 = 113
    · simp only [hq, ne_eq, not_true_eq_false, if_false, Option.some.injEq] at h
      subst h
      exact hg1
    · simp only [hq, ne_eq, not_false_eq_true, if_true, Option.map_eq_some'] at h
      obtain ⟨res1, hm, rfl⟩ := h
      exact ih r.1 hg1 res1 hm

theorem fill_rows_binary (w h : Nat) (g : List Nat) (hg : g.length = w * h) :
    binary_grid (fill_rows w h OFF_CH g) := by
  have hs : grid_sized (ctx_t.mk w h 1 (point_t.mk 0 0) (fill_rows w h OFF_CH g)) := by
    unfold grid_sized; simp only [fill_rows_length]; exact hg
  apply binary_grid_of_cells _ hs
  intro r c hr hc
  have hj : r * w + c < (fill_rows w h OFF_CH g).length := by
    rw [fill_rows_length, hg]; exact idx_lt hr hc
  have hv := fill_rows_getD w h OFF_CH g hg r c hr hc
  rw [List.getD_eq_getElem?_getD, List.getElem?_eq_getElem hj, Option.getD_some] at hv
  right
  unfold cell
  simp only []
  rw [List.getElem?_eq_getElem hj, hv]


/-- From a context whose buffer has `w * h` cells, `w * h` a value of `int`, `init_grid`
followed by the main loop is defined on every key sequence and ends with a binary grid. -/
theorem init_then_loop_binary (ctx : ctx_t) (hs : grid_sized ctx) (hi : int_sized ctx)
    (hb : cursor_in_bounds ctx) (keys : List Int) :
    ∃ ctx0 res, init_grid ctx false = some ctx0 ∧ main_loop ctx0 keys = some res ∧
      binary_cells res.ctx ∧ res.ctx.w = ctx.w ∧ res.ctx.h = ctx.h := by
  have hs' := hs
  unfold grid_sized at hs'
  have hs0 : grid_sized { ctx with grid := fill_rows ctx.w ctx.h OFF_CH ctx.grid } := by
    unfold grid_sized; simp only [fill_rows_length]; exact hs'
  obtain ⟨res, hm, hs1, _, hw1, hh1, _⟩ :=
    main_loop_inv keys { ctx with grid := fill_rows ctx.w ctx.h OFF_CH ctx.grid } hs0 hi hb
  have hp := main_loop_binary keys _ (fill_rows_binary ctx.w ctx.h ctx.grid hs') res hm
  exact ⟨_, res, init_grid_eq ctx hs hi, hm, binary_cells_of_grid res.ctx hs1 hp, hw1, hh1⟩

theorem to_u16_lt (v : Int) : to_u16 v < 65536 := by
  unfold to_u16; omega

theorem parse_resolution_lt (s : List Char) :
    (parse_resolution s).1 < 65536 ∧ (parse_resolution s).2 < 65536 := by
  unfold parse_resolution
  split
  · exact ⟨by decide, by decide⟩
  · exact ⟨to_u16_lt _, to_u16_lt _⟩

/-- The fields written by the argument loop are 16-bit values. -/
theorem parse_args_loop_u16 : ∀ (n : Nat) (l : List String), l.length ≤ n →
    ∀ ctx c, u16_fields ctx → parse_args_loop ctx l = parse_outcome.done c →
      u16_fields c := by
  intro n
  induction n with
  | zero =>
    intro l hl ctx c hv hd
    have : l = [] := List.length_eq_zero.mp (Nat.le_zero.mp hl)
    subst this
    rw [parse_args_loop_nil, parse_outcome.done.injEq] at hd
    exact hd ▸ hv
  | succ n ih =>
    intro l hl ctx c hv hd
    match l, hl with
    | [], _ =>
      rw [parse_args_loop_nil, parse_outcome.done.injEq] at hd
      exact hd ▸ hv
    | [a], _ =>
      rw [parse_args_loop_one] at hd
      by_cases h1 : a = "-r" ∨ a = "--resolution"
      · rw [if_pos h1] at hd; exact parse_outcome.noConfusion hd
      · rw [if_neg h1] at hd
        by_cases h2 : a = "-s" ∨ a = "--scale"
        · rw [if_pos h2] at hd; exact parse_outcome.noConfusion hd
        · rw [if_neg h2] at hd
          by_cases h3 : a = "-k" ∨ a = "--keys"
          · rw [if_pos h3] at hd; exact parse_outcome.noConfusion hd
          · rw [if_neg h3] at hd
            by_cases h4 : a = "-h" ∨ a = "--help"
            · rw [if_pos h4] at hd; exact parse_outcome.noConfusion hd
            · rw [if_neg h4, parse_outcome.done.injEq] at hd
              exact hd ▸ hv
    | a :: b :: rest1, hlen =>
      have hl1 : rest1.length ≤ n := by simp only [List.length_cons] at hlen; omega
      have hl2 : (b :: rest1).length ≤ n := by simp only [List.length_cons] at hlen ⊢; omega
      rw [parse_args_loop_two] at hd
      by_cases h1 : a = "-r" ∨ a = "--resolution"
      · rw [if_pos h1] at hd
        by_cases hb : (parse_resolution b.toList).1 < MIN_W
            ∨ (parse_resolution b.toList).2 < MIN_H
        · rw [if_pos hb] at hd; exact parse_outcome.noConfusion hd
        · rw [if_neg hb] at hd
          refine ih rest1 hl1 _ c ?_ hd
          unfold u16_fields at hv ⊢
          exact ⟨(parse_resolution_lt b.toList).1, (parse_resolution_lt b.toList).2, hv.2.2⟩
      · rw [if_neg h1] at hd
        by_cases h2 : a = "-s" ∨ a = "--scale"
        · rw [if_pos h2] at hd
          by_cases hb : to_u16 (atoi b.toList) < 1
          · rw [if_pos hb] at hd; exact parse_outcome.noConfusion hd
          · rw [if_neg hb] at hd
            refine ih rest1 hl1 _ c ?_ hd
            unfold u16_fields at hv ⊢
            exact ⟨hv.1, hv.2.1, to_u16_lt _⟩
        · rw [if_neg h2] at hd
          by_cases h3 : a = "-k" ∨ a = "--keys"
          · rw [if_pos h3] at hd; exact parse_outcome.noConfusion hd
          · rw [if_neg h3] at hd
            by_cases h4 : a = "-h" ∨ a = "--help"
            · rw [if_pos h4] at hd; exact parse_outcome.noConfusion hd
            · rw [if_neg h4] at hd
              exact ih (b :: rest1) hl2 ctx c hv hd


/-- A product of two 16-bit values above `INT_MAX` is negative as an `int`. -/
theorem imul_neg (a b : Nat) (ha : a < 65536) (hb : b < 65536) (h : 2147483647 < a * b) :
    imul (a : Int) (b : Int) < 0 := by
  have hb1 : a * b ≤ 65535 * 65535 := Nat.mul_le_mul (by omega) (by omega)
  have h1 : ((a * b : Nat) : Int) ≤ 65535 * 65535 := by exact_mod_cast hb1
  have h2 : (2147483647 : Int) < ((a * b : Nat) : Int) := by exact_mod_cast h
  unfold imul
  rw [← Int.ofNat_mul]
  unfold wrap_int
  omega

theorem calloc_cast (a b : Nat) (h : a * b ≤ 2147483647) :
    calloc (imul (a : Int) (b : Int)) = some (List.replicate (a * b) 0) := by
  rw [imul_cast a b h]
  unfold calloc
  rw [if_pos (by omega), Int.toNat_ofNat]

theorem calloc_none (a b : Nat) (ha : a < 65536) (hb : b < 65536) (h : 2147483647 < a * b) :
    calloc (imul (a : Int) (b : Int)) = none := by
  have := imul_neg a b ha hb h
  unfold calloc
  rw [if_neg (by omega)]

theorem main_of_accepted (argv : List String) (keys : List Int) (c : ctx_t)
    (h : parse_args argv default_ctx = (true, c)) :
    main argv keys =
      (calloc (imul (c.w : Int) (c.h : Int))).bind fun g =>
        (init_grid { c with cursor := initial_cursor c, grid := g } false).bind fun ctx3 =>
          (main_loop ctx3 keys).map fun res =>
            { res with calls := term_call.initscr :: res.calls } := by
  unfold main
  simp only [h, Bool.true_eq_false, if_false]

theorem main_eq_of_accepted (argv : List String) (keys : List Int) (c : ctx_t)
    (h : parse_args argv default_ctx = (true, c)) (hi : c.w * c.h ≤ INT_MAX) :
    main argv keys =
      (init_grid (start_ctx c) false).bind fun ctx3 =>
        (main_loop ctx3 keys).map fun res =>
          { res with calls := term_call.initscr :: res.calls } := by
  unfold INT_MAX at hi
  rw [main_of_accepted argv keys c h, calloc_cast c.w c.h hi, Option.some_bind]
  rfl

theorem main_none_of_accepted (argv : List String) (keys : List Int) (c : ctx_t)
    (h : parse_args argv default_ctx = (true, c)) (hi : INT_MAX < c.w * c.h) :
    main argv keys = none := by
  have hu := parse_args_loop_u16 _ _ (Nat.le_refl _) default_ctx c (by decide)
    (parse_args_eq_true argv default_ctx c h)
  unfold INT_MAX at hi
  rw [main_of_accepted argv keys c h, calloc_none c.w c.h hu.1 hu.2.1 hi, Option.none_bind]

/-- Value of an in-range cell after `toggle_adjacent`. -/
theorem toggle_adjacent_cell (ctx : ctx_t) (hs : grid_sized ctx) (hb : cursor_in_bounds ctx)
    (r c : Nat) (hr : r < ctx.h) (hc : c < ctx.w) :
    ∃ old, cell ctx r c = some old ∧
      cell { ctx with grid := toggled_grid ctx } r c
        = some (if in_plus ctx.cursor.y ctx.cursor.x r c then flip_ch old else old) := by
  have hj : r * ctx.w + c < ctx.grid.length := by rw [hs]; exact idx_lt hr hc
  have hj1 : r * ctx.w + c < (toggled_grid ctx).length := by
    rw [toggled_grid_length]; exact hj
  have e0 := toggled_grid_getD ctx hb hs r c hr hc
  rw [List.getD_eq_getElem?_getD, List.getD_eq_getElem?_getD, List.getElem?_eq_getElem hj,
    List.getElem?_eq_getElem hj1, Option.getD_some, Option.getD_some] at e0
  refine ⟨ctx.grid[r * ctx.w + c], ?_, ?_⟩
  · unfold cell; exact List.getElem?_eq_getElem hj
  · unfold cell
    simp only []
    rw [List.getElem?_eq_getElem hj1, e0]


/-- C16: `toggle_adjacent` maps a `#` cell of its plus shape to `.` and any other value
there to `#`, and keeps the property that every in-range cell holds `#` or `.` (it is
defined on every buffer of `w * h` cells with `w * h` a value of `int`, and keeps the
property whenever it is defined); from any buffer of `w * h` cells (`w, h >= 1`, `w * h`
a value of `int`), `init_grid(ctx, false)` with the initial cursor followed by the main
loop on any finite key sequence is defined and ends with every in-range cell holding `#`
or `.`; and so does `main` itself for every accepted argument vector whose `w * h` is a
value of `int`, while for the other accepted vectors `calloc` receives a negative size and
the run has no result: whenever a run of `main` on an accepted vector has a result, every
in-range cell holds `#` or `.`. -/
theorem reachable_grids_binary :
    (∀ ctx : ctx_t, grid_sized ctx → int_sized ctx → cursor_in_bounds ctx → binary_cells ctx →
      ∃ ctx1, toggle_adjacent ctx = some ctx1 ∧ binary_cells ctx1 ∧
        ∀ r c old, r < ctx.h → c < ctx.w → in_plus ctx.cursor.y ctx.cursor.x r c →
          cell ctx r c = some old →
          (old = ON_CH → cell ctx1 r c = some OFF_CH) ∧
          (old ≠ ON_CH → cell ctx1 r c = some ON_CH)) ∧
    (∀ ctx ctx1 : ctx_t, grid_sized ctx → binary_cells ctx →
      toggle_adjacent ctx = some ctx1 → binary_cells ctx1) ∧
    (∀ (ctx : ctx_t) (keys : List Int), 1 ≤ ctx.w → 1 ≤ ctx.h → grid_sized ctx →
      int_sized ctx →
      ∃ ctx0 res, init_grid { ctx with cursor := initial_cursor ctx } false = some ctx0 ∧
        main_loop ctx0 keys = some res ∧ binary_cells res.ctx) ∧
    (∀ (argv : List String) (keys : List Int) (c : ctx_t),
      parse_args argv default_ctx = (true, c) →
      (c.w * c.h ≤ INT_MAX → ∃ res, main argv keys = some res ∧ binary_cells res.ctx) ∧
      (INT_MAX < c.w * c.h → main argv keys = none) ∧
      (∀ res, main argv keys = some res → binary_cells res.ctx)) := by
  have hmain : ∀ (argv : List String) (keys : List Int) (c : ctx_t),
      parse_args argv default_ctx = (true, c) → c.w * c.h ≤ INT_MAX →
      ∃ res, main argv keys = some res ∧ binary_cells res.ctx := by
    intro argv keys c hc hi
    have hv := parse_args_loop_valid _ _ (Nat.le_refl _) default_ctx c (by decide)
      (parse_args_eq_true argv default_ctx c hc)
    unfold valid_config MIN_W MIN_H at hv
    have hs : grid_sized (start_ctx c) := by
      unfold grid_sized start_ctx; simp only [List.length_replicate]
    have hb : cursor_in_bounds (start_ctx c) :=
      initial_cursor_in_bounds c (by omega) (by omega)
    have hi1 : int_sized (start_ctx c) := hi
    obtain ⟨ctx0, res, h1, h2, h3, _, _⟩ := init_then_loop_binary _ hs hi1 hb keys
    refine ⟨{ res with calls := term_call.initscr :: res.calls }, ?_, h3⟩
    rw [main_eq_of_accepted argv keys c hc hi, h1, Option.some_bind, h2, Option.map_some']
  refine ⟨?_, ?_, ?_, ?_⟩
  · intro ctx hs hi hb hc
    have hs1 : grid_sized { ctx with grid := toggled_grid ctx } := by
      unfold grid_sized at hs ⊢
      simp only [toggled_grid_length]; exact hs
    refine ⟨_, toggle_adjacent_eq ctx hb hs hi, binary_cells_of_grid _ hs1
      (binary_grid_toggled ctx (binary_grid_of_cells ctx hs hc)), ?_⟩
    intro r c old hr hcw hp hold
    obtain ⟨old1, h1, h2⟩ := toggle_adjacent_cell ctx hs hb r c hr hcw
    rw [h1, Option.some.injEq] at hold
    subst hold
    rw [h2, if_pos hp]
    unfold flip_ch
    constructor
    · intro ho; rw [if_pos ho]
    · intro ho; rw [if_neg ho]
  · intro ctx ctx1 hs hc ht
    obtain ⟨g, e, hl⟩ := toggle_adjacent_some ctx ctx1 ht
    have hg1 := toggle_adjacent_binary ctx ctx1 (binary_grid_of_cells ctx hs hc) ht
    have hs1 : grid_sized ctx1 := by
      unfold grid_sized at hs ⊢
      rw [e]
      exact hl.trans hs
    exact binary_cells_of_grid ctx1 hs1 hg1
  · intro ctx keys hw hh hs hi
    obtain ⟨ctx0, res, h1, h2, h3, _, _⟩ := init_then_loop_binary
      { ctx with cursor := initial_cursor ctx } hs hi (initial_cursor_in_bounds ctx hw hh) keys
    exact ⟨ctx0, res, h1, h2, h3⟩
  · intro argv keys c hc
    refine ⟨hmain argv keys c hc, main_none_of_accepted argv keys c hc, ?_⟩
    intro res hres
    by_cases hi : c.w * c.h ≤ INT_MAX
    · obtain ⟨res1, h1, h2⟩ := hmain argv keys c hc hi
      rw [h1, Option.some.injEq] at hres
      rw [← hres]
      exact h2
    · rw [main_none_of_accepted argv keys c hc (by omega)] at hres
      exact Option.noConfusion hres

/-- Witness of C16: the 5x5 board, the raw 3x2 buffer with the keys space, `l`, space, and
`main` without arguments on the keys space, `j`, space, `q`. -/
theorem reachable_grids_binary_witness :
    (∃ ctx1, toggle_adjacent board5 = some ctx1 ∧ binary_cells ctx1 ∧
        ∀ r c old, r < board5.h → c < board5.w →
          in_plus board5.cursor.y board5.cursor.x r c → cell board5 r c = some old →
          (old = ON_CH → cell ctx1 r c = some OFF_CH) ∧
          (old ≠ ON_CH → cell ctx1 r c = some ON_CH)) ∧
    (∃ ctx0 res, init_grid { board_raw with cursor := initial_cursor board_raw } false
        = some ctx0 ∧
      main_loop ctx0 [32, 108, 32] = some res ∧ binary_cells res.ctx) ∧
    (∃ res, main ["5x5"] [32, 106, 32, 113] = some res ∧ binary_cells res.ctx) ∧
    main ["5x5", "-r", "65535x65535"] [113] = none :=
  ⟨reachable_grids_binary.1 board5 (by decide) (by decide) (by decide)
      (binary_cells_of_grid board5 (by decide) (by decide)),
    reachable_grids_binary.2.2.1 board_raw [32, 108, 32] (by decide) (by decide) (by decide)
      (by decide),
    (reachable_grids_binary.2.2.2 ["5x5"] [32, 106, 32, 113] default_ctx (by decide)).1
      (by decide),
    (reachable_grids_binary.2.2.2 ["5x5", "-r", "65535x65535"] [113]
      { default_ctx with w := 65535, h := 65535 } (by decide)).2.1 (by decide)⟩

/-! ## Tiles cover the playfield -/

theorem writes_at_append (a b : List term_call) (ty tx : Int) :
    writes_at (a ++ b) ty tx = writes_at a ty tx ++ writes_at b ty tx := by
  unfold writes_at
  exact List.filterMap_append _ _ _

theorem writes_at_flatMap {α : Type} (l : List α) (f : α → List term_call) (ty tx : Int) :
    writes_at (l.flatMap f) ty tx = l.flatMap (fun a => writes_at (f a) ty tx) := by
  induction l with
  | nil => rfl
  | cons a rest ih =>
    rw [List.flatMap_cons, writes_at_append, ih, List.flatMap_cons]

theorem writes_at_map {α : Type} (l : List α) (g : α → term_call) (ty tx : Int) :
    writes_at (l.map g) ty tx = l.flatMap (fun a => writes_at [g a] ty tx) := by
  induction l with
  | nil => rfl
  | cons a rest ih =>
    rw [List.map_cons, List.flatMap_cons, ← ih]
    exact writes_at_append [g a] (rest.map g) ty tx

theorem writes_at_mvaddch (y x : Int) (v : Nat) (ty tx : Int) :
    writes_at [term_call.mvaddch y x v] ty tx = if y = ty ∧ x = tx then [v] else [] := by
  unfold writes_at
  by_cases h : y = ty ∧ x = tx
  · simp [h]
  · simp [h]

/-- A `flatMap` over an interval in which only the index `k` contributes. -/
theorem range'_flatMap_single {β : Type} (f : Nat → List β) (k : Nat) :
    ∀ (n a : Nat), a ≤ k → k < a + n → (∀ i, a ≤ i → i < a + n → i ≠ k → f i = []) →
      (List.range' a n).flatMap f = f k := by
  intro n
  induction n with
  | zero => intro a h1 h2 _; omega
  | succ n ih =>
    intro a h1 h2 hf
    rw [List.range'_succ, List.flatMap_cons]
    by_cases hak : a = k
    · subst hak
      rw [flatMap_eq_nil_of (List.range' (a + 1) n) f (fun i hi => by
        rw [List.mem_range'_1] at hi
        exact hf i (by omega) (by omega) (by omega))]
      exact List.append_nil _
    · rw [hf a (Nat.le_refl _) (by omega) hak, List.nil_append]
      exact ih (a + 1) (by omega) (by omega) (fun i h3 h4 h5 => hf i (by omega) (by omega) h5)

/-- The rows (columns) `r*sc+1 .. r*sc+sc` contain `t` exactly for `r = (t-1)/sc`. -/
theorem block_iff (sc r t : Nat) (hsc : 0 < sc) (ht : 1 ≤ t) :
    (r * sc + 1 ≤ t ∧ t ≤ r * sc + sc) ↔ r = (t - 1) / sc := by
  constructor
  · rintro ⟨h1, h2⟩
    have a1 : r ≤ (t - 1) / sc := (Nat.le_div_iff_mul_le hsc).mpr (by omega)
    have a2 : (t - 1) / sc < r + 1 := (Nat.div_lt_iff_lt_mul hsc).mpr (by
      rw [Nat.add_mul, Nat.one_mul]; omega)
    omega
  · intro h
    have a1 : r * sc ≤ t - 1 := (Nat.le_div_iff_mul_le hsc).mp (by omega)
    have a2 : t - 1 < (r + 1) * sc := (Nat.div_lt_iff_lt_mul hsc).mp (by omega)
    rw [Nat.add_mul, Nat.one_mul] at a2
    omega


/-- A `flatMap` over the values of an `int` loop in which only `k` contributes. -/
theorem int_range_flatMap_single {β : Type} (f : Int → List β) (a b k : Int) (h1 : a ≤ k)
    (h2 : k < b) (hf : ∀ i, a ≤ i → i < b → i ≠ k → f i = []) :
    (int_range a b).flatMap f = f k := by
  unfold int_range
  rw [List.flatMap_map, List.range_eq_range',
    range'_flatMap_single (fun (i : Nat) => f (a + (i : Int))) (k - a).toNat _ 0
      (Nat.zero_le _) (by omega) (fun i _ hi hne => hf _ (by omega) (by omega) (by omega))]
  have e : a + (((k - a).toNat : Nat) : Int) = k := by omega
  simp only [e]

theorem writes_at_tile_block (a b c d : Int) (v : Nat) (ty tx : Int) :
    writes_at (tile_block a b c d v) ty tx =
      if (a ≤ ty ∧ ty < b) ∧ (c ≤ tx ∧ tx < d) then [v] else [] := by
  unfold tile_block
  rw [writes_at_flatMap]
  simp only [writes_at_map, writes_at_mvaddch]
  by_cases hy : a ≤ ty ∧ ty < b
  · rw [int_range_flatMap_single _ a b ty hy.1 hy.2 (fun i _ _ hi => by
      apply flatMap_eq_nil_of
      intro a _
      rw [if_neg (fun h => hi h.1)])]
    by_cases hx : c ≤ tx ∧ tx < d
    · rw [int_range_flatMap_single _ c d tx hx.1 hx.2 (fun i _ _ hi => by
        rw [if_neg (fun h => hi h.2)])]
      rw [if_pos ⟨rfl, rfl⟩, if_pos ⟨hy, hx⟩]
    · rw [if_neg (fun h => hx h.2)]
      apply flatMap_eq_nil_of
      intro a ha
      rw [mem_int_range] at ha
      have hn : ¬ (ty = ty ∧ a = tx) := fun h => hx (h.2 ▸ ha)
      rw [if_neg hn]
  · rw [if_neg (fun h => hy h.1)]
    apply flatMap_eq_nil_of
    intro a ha
    rw [mem_int_range] at ha
    apply flatMap_eq_nil_of
    intro b _
    have hn : ¬ (a = ty ∧ b = tx) := fun h => hy (h.1 ▸ ha)
    rw [if_neg hn]

theorem writes_at_seq_calls (ty tx : Int) (l : List (Option (List term_call))) :
    ∀ t, seq_calls l = some t →
      writes_at t ty tx = l.flatMap (fun o => writes_at (o.getD []) ty tx) := by
  induction l with
  | nil =>
    intro t ht
    simp only [seq_calls, Option.some.injEq] at ht
    subst ht
    rfl
  | cons o rest ih =>
    intro t ht
    cases o with
    | none => simp [seq_calls] at ht
    | some a =>
      cases hrest : seq_calls rest with
      | none => simp [seq_calls, hrest] at ht
      | some b =>
        simp only [seq_calls, hrest, Option.map_some', Option.some.injEq] at ht
        subst ht
        rw [writes_at_append, ih b hrest, List.flatMap_cons]
        rfl


theorem block_cast (y sc t : Nat) :
    ((y : Int) * (sc : Int) + 1 ≤ (t : Int) ∧ (t : Int) < (y : Int) * (sc : Int) + 1 + (sc : Int))
      ↔ (y * sc + 1 ≤ t ∧ t ≤ y * sc + sc) := by
  rw [← Int.ofNat_mul]
  omega

/-- The calls made for an in-range cell when every coordinate is a value of `int`. -/
theorem draw_tile_block (ctx : ctx_t) (hs : grid_sized ctx) (hi : int_sized ctx)
    (hf : render_fits ctx) (y x : Nat) (hy : y < ctx.h) (hx : x < ctx.w) :
    ∃ v, cell ctx y x = some v ∧ draw_tile ctx y x
      = some (tile_block ((y : Int) * (ctx.sc : Int) + 1)
          ((y : Int) * (ctx.sc : Int) + 1 + (ctx.sc : Int))
          ((x : Int) * (ctx.sc : Int) + 1)
          ((x : Int) * (ctx.sc : Int) + 1 + (ctx.sc : Int)) (glyph v)) := by
  obtain ⟨v, hv, ht⟩ := draw_tile_eq ctx hs hi y x hy hx
  obtain ⟨ey, ey1⟩ := term_y_eq ctx hf y hy
  obtain ⟨ex, ex1⟩ := term_x_eq ctx hf x hx
  rw [ey1, ex1, ey, ex] at ht
  exact ⟨v, hv, ht⟩

/-- Writes made at `(ty, tx)` by the loop body of one cell: none outside its block. -/
theorem writes_at_draw_tile_outside (ctx : ctx_t) (hs : grid_sized ctx) (hi : int_sized ctx)
    (hf : render_fits ctx) (y x ty tx : Nat) (hy : y < ctx.h) (hx : x < ctx.w)
    (h : ¬ ((y * ctx.sc + 1 ≤ ty ∧ ty ≤ y * ctx.sc + ctx.sc)
      ∧ (x * ctx.sc + 1 ≤ tx ∧ tx ≤ x * ctx.sc + ctx.sc))) :
    writes_at ((draw_tile ctx y x).getD []) (ty : Int) (tx : Int) = [] := by
  obtain ⟨v, _, ht⟩ := draw_tile_block ctx hs hi hf y x hy hx
  rw [ht, Option.getD_some, writes_at_tile_block,
    if_neg (fun hc => h ⟨(block_cast _ _ _).mp hc.1, (block_cast _ _ _).mp hc.2⟩)]

theorem writes_at_draw_tile_inside (ctx : ctx_t) (hs : grid_sized ctx) (hi : int_sized ctx)
    (hf : render_fits ctx) (y x v ty tx : Nat) (hy : y < ctx.h) (hx : x < ctx.w)
    (hv : cell ctx y x = some v)
    (h : (y * ctx.sc + 1 ≤ ty ∧ ty ≤ y * ctx.sc + ctx.sc)
      ∧ (x * ctx.sc + 1 ≤ tx ∧ tx ≤ x * ctx.sc + ctx.sc)) :
    writes_at ((draw_tile ctx y x).getD []) (ty : Int) (tx : Int) = [glyph v] := by
  obtain ⟨v1, hv1, ht⟩ := draw_tile_block ctx hs hi hf y x hy hx
  rw [hv, Option.some.injEq] at hv1
  subst hv1
  rw [ht, Option.getD_some, writes_at_tile_block,
    if_pos ⟨(block_cast _ _ _).mpr h.1, (block_cast _ _ _).mpr h.2⟩]

theorem frame_interior (H W ty tx : Int) (ch : Nat) (h1 : 1 ≤ ty) (h2 : ty ≤ H) (h3 : 1 ≤ tx)
    (h4 : tx ≤ W) : ¬ on_frame H W ty tx ch := by
  unfold on_frame
  omega

theorem writes_at_draw_border_interior (ctx : ctx_t) (hf : render_fits ctx) (ty tx : Nat)
    (hty1 : 1 ≤ ty) (hty2 : ty ≤ ctx.h * ctx.sc) (htx1 : 1 ≤ tx)
    (htx2 : tx ≤ ctx.w * ctx.sc) :
    writes_at (draw_border ctx) (ty : Int) (tx : Int) = [] := by
  have k1 : ((ty : Nat) : Int) ≤ (ctx.h : Int) * (ctx.sc : Int) := by exact_mod_cast hty2
  have k2 : ((tx : Nat) : Int) ≤ (ctx.w : Int) * (ctx.sc : Int) := by exact_mod_cast htx2
  have k3 : (1 : Int) ≤ ((ty : Nat) : Int) := by exact_mod_cast hty1
  have k4 : (1 : Int) ≤ ((tx : Nat) : Int) := by exact_mod_cast htx1
  unfold writes_at
  rw [List.filterMap_eq_nil_iff]
  intro call hcall
  obtain ⟨y, x, ch, rfl⟩ := draw_border_only_mvaddch ctx call hcall
  have hfr := (mem_draw_border ctx hf y x ch).mp hcall
  have hne : ¬ (y = (ty : Int) ∧ x = (tx : Int)) := by
    rintro ⟨rfl, rfl⟩
    exact frame_interior _ _ _ _ ch k3 k1 k4 k2 hfr
  simp only [hne, if_false]

/-- Every coordinate written by the cell loops is a value of `int`. -/
theorem draw_tiles_coords (ctx : ctx_t) (tiles : List term_call)
    (ht : draw_tiles ctx = some tiles) (y x : Int) (ch : Nat)
    (hm : term_call.mvaddch y x ch ∈ tiles) : y ≤ 2147483647 ∧ x ≤ 2147483647 := by
  unfold draw_tiles at ht
  obtain ⟨a, ha, hcall⟩ := (mem_seq_calls _ tiles ht _).mp hm
  rw [List.mem_flatMap] at ha
  obtain ⟨r, _, ha⟩ := ha
  rw [List.mem_map] at ha
  obtain ⟨c, _, ha⟩ := ha
  obtain ⟨v, et⟩ := draw_tile_some ctx r c a ha
  rw [et] at hcall
  obtain ⟨ty0, tx0, he, _, b2, _, b4⟩ := (mem_tile_block _ _ _ _ _ _).mp hcall
  simp only [term_call.mvaddch.injEq] at he
  have hr := wrap_int_range (term_x ctx c + (ctx.sc : Int))
  have hr1 := wrap_int_range (term_y ctx r + (ctx.sc : Int))
  unfold iadd at b2 b4
  omega

/-- No call of the cell loops writes at a position with a coordinate above `INT_MAX`. -/
theorem writes_at_beyond_int (ctx : ctx_t) (tiles : List term_call)
    (ht : draw_tiles ctx = some tiles) (ty tx : Int)
    (h : 2147483647 < ty ∨ 2147483647 < tx) : writes_at tiles ty tx = [] := by
  unfold writes_at
  rw [List.filterMap_eq_nil_iff]
  intro call hcall
  cases call with
  | mvaddch y x ch =>
    have hx := draw_tiles_coords ctx tiles ht y x ch hcall
    have hne : ¬ (y = ty ∧ x = tx) := by
      rintro ⟨rfl, rfl⟩
      omega
    simp only [hne, if_false]
  | initscr => rfl
  | move y x => rfl
  | refresh => rfl
  | clear_line y => rfl
  | endwin => rfl

/-- C17, as stated, fails: for `w = 65535`, `h = 5` and scale 65535 (the configuration of
`-r 65535x5 -s 65535`) the cell loops run and write nothing at the terminal position
`(1, 2147516415)`, which lies in the interior `1 <= ty <= h*scale`, `1 <= tx <= w*scale`:
the column is above `INT_MAX`, and every coordinate the loops pass to `mvaddch` is an
`int`.  Likewise for `w = 5`, `h = 65535` and scale 65535 nothing is written at the
interior position `(2147516415, 1)`.  Moreover, on a 65535x65535 grid of `w * h` cells at
scale 1 the index of the cell `(65534, 7)` overflows `int` and the cell loops leave the
buffer: they have no result, so the interior position `(65535, 8)` of that cell is not
written exactly once. -/
theorem tiles_cover_counterexample :
    (grid_sized wide_board ∧ 1 ≤ wide_board.h * wide_board.sc ∧
    2147516415 ≤ wide_board.w * wide_board.sc ∧
    ∃ tiles, draw_tiles wide_board = some tiles ∧ writes_at tiles 1 2147516415 = []) ∧
    (grid_sized tall_board ∧ 2147516415 ≤ tall_board.h * tall_board.sc ∧
    1 ≤ tall_board.w * tall_board.sc ∧
    ∃ tiles, draw_tiles tall_board = some tiles ∧ writes_at tiles 2147516415 1 = []) ∧
    (grid_sized huge_board ∧ 65535 ≤ huge_board.h * huge_board.sc ∧
    8 ≤ huge_board.w * huge_board.sc ∧ draw_tiles huge_board = none) := by
  have hs : grid_sized wide_board := by
    unfold grid_sized wide_board
    exact off_cells_length _
  have hs1 : grid_sized tall_board := by
    unfold grid_sized tall_board
    exact off_cells_length _
  have hs2 : grid_sized huge_board := by
    unfold grid_sized huge_board
    exact off_cells_length _
  obtain ⟨tiles, ht, _⟩ := redraw_grid_eq wide_board hs (by decide)
  obtain ⟨tiles1, ht1, _⟩ := redraw_grid_eq tall_board hs1 (by decide)
  exact ⟨⟨hs, by decide, by decide, tiles, ht,
      writes_at_beyond_int _ tiles ht 1 2147516415 (Or.inr (by decide))⟩,
    ⟨hs1, by decide, by decide, tiles1, ht1,
      writes_at_beyond_int _ tiles1 ht1 2147516415 1 (Or.inl (by decide))⟩,
    hs2, by decide, by decide, huge_board_draw_tiles_none⟩

/-- C17 (amended): on a grid of `w * h` cells with `w * h`, `h * scale + 1` and
`w * scale + 1` at most `INT_MAX`, for every terminal position `(ty, tx)` with
`1 <= ty <= h*scale` and `1 <= tx <= w*scale`, the cell loops of `redraw_grid` write that
position exactly once, with the character of the value of the logical cell
`((ty-1)/scale, (tx-1)/scale)` (the value itself when it is below 128, so `#` or `.` on a
binary grid), which is inside the grid; the whole of `redraw_grid` writes nothing else
there; and a cell loop body that writes the position belongs to that logical cell and to
no other. -/
theorem tiles_cover (ctx : ctx_t) (hs : grid_sized ctx) (hi : int_sized ctx)
    (hf : render_fits ctx) (ty tx : Nat) (hty1 : 1 ≤ ty)
    (hty2 : ty ≤ ctx.h * ctx.sc) (htx1 : 1 ≤ tx) (htx2 : tx ≤ ctx.w * ctx.sc) :
    ∃ tiles all v, draw_tiles ctx = some tiles ∧ redraw_grid ctx = some all ∧
      (ty - 1) / ctx.sc < ctx.h ∧ (tx - 1) / ctx.sc < ctx.w ∧
      cell ctx ((ty - 1) / ctx.sc) ((tx - 1) / ctx.sc) = some v ∧
      writes_at tiles (ty : Int) (tx : Int) = [glyph v] ∧
      writes_at all (ty : Int) (tx : Int) = [glyph v] ∧
      (v < 128 → glyph v = v) ∧
      (∀ r c t ch, r < ctx.h → c < ctx.w → draw_tile ctx r c = some t →
        term_call.mvaddch (ty : Int) (tx : Int) ch ∈ t →
        r = (ty - 1) / ctx.sc ∧ c = (tx - 1) / ctx.sc) := by
  have hsc : 0 < ctx.sc := by
    rcases Nat.eq_zero_or_pos ctx.sc with h0 | h0
    · rw [h0, Nat.mul_zero] at hty2; omega
    · exact h0
  have hr0 : (ty - 1) / ctx.sc < ctx.h := (Nat.div_lt_iff_lt_mul hsc).mpr (by omega)
  have hc0 : (tx - 1) / ctx.sc < ctx.w := (Nat.div_lt_iff_lt_mul hsc).mpr (by omega)
  obtain ⟨tiles, htiles, hall⟩ := redraw_grid_eq ctx hs hi
  obtain ⟨v, hv, _⟩ := draw_tile_eq ctx hs hi _ _ hr0 hc0
  have hby := (block_iff ctx.sc ((ty - 1) / ctx.sc) ty hsc hty1).mpr rfl
  have hbx := (block_iff ctx.sc ((tx - 1) / ctx.sc) tx hsc htx1).mpr rfl
  have hw : writes_at tiles (ty : Int) (tx : Int) = [glyph v] := by
    have h1 := htiles
    unfold draw_tiles at h1
    rw [writes_at_seq_calls _ _ _ tiles h1, List.flatMap_assoc]
    simp only [List.flatMap_map, List.range_eq_range']
    rw [range'_flatMap_single _ ((ty - 1) / ctx.sc) ctx.h 0 (Nat.zero_le _) (by omega)
      (fun i _ hlt hi1 => by
        apply flatMap_eq_nil_of
        intro x hx
        rw [List.mem_range'_1] at hx
        apply writes_at_draw_tile_outside ctx hs hi hf i x ty tx (by omega) (by omega)
        intro hb
        exact hi1 ((block_iff ctx.sc i ty hsc hty1).mp hb.1))]
    rw [range'_flatMap_single _ ((tx - 1) / ctx.sc) ctx.w 0 (Nat.zero_le _) (by omega)
      (fun i _ hlt hi1 => by
        apply writes_at_draw_tile_outside ctx hs hi hf _ i ty tx hr0 (by omega)
        intro hb
        exact hi1 ((block_iff ctx.sc i tx hsc htx1).mp hb.2))]
    exact writes_at_draw_tile_inside ctx hs hi hf _ _ v ty tx hr0 hc0 hv ⟨hby, hbx⟩
  refine ⟨tiles, _, v, htiles, hall, hr0, hc0, hv, hw, ?_, glyph_eq v, ?_⟩
  · rw [writes_at_append, writes_at_append, writes_at_draw_border_interior ctx hf ty tx hty1
      hty2 htx1 htx2, hw]
    rfl
  · intro r c t ch hr hc ht hm
    obtain ⟨v1, _, ht1⟩ := draw_tile_block ctx hs hi hf r c hr hc
    rw [ht1, Option.some.injEq] at ht
    rw [← ht] at hm
    obtain ⟨ty0, tx0, he, b1, b2, b3, b4⟩ := (mem_tile_block _ _ _ _ _ _).mp hm
    simp only [term_call.mvaddch.injEq] at he
    obtain ⟨e1, e2, _⟩ := he
    rw [← e1] at b1 b2
    rw [← e2] at b3 b4
    exact ⟨(block_iff ctx.sc r ty hsc hty1).mp ((block_cast r ctx.sc ty).mp ⟨b1, b2⟩),
      (block_iff ctx.sc c tx hsc htx1).mp ((block_cast c ctx.sc tx).mp ⟨b3, b4⟩)⟩

/-- Witness of C17: the terminal position `(4, 9)` of the 5x5 board at scale 2 belongs to
the logical cell `(1, 4)`. -/
theorem tiles_cover_witness :
    ∃ tiles all v, draw_tiles board5_s2 = some tiles ∧ redraw_grid board5_s2 = some all ∧
      (4 - 1) / board5_s2.sc < board5_s2.h ∧ (9 - 1) / board5_s2.sc < board5_s2.w ∧
      cell board5_s2 ((4 - 1) / board5_s2.sc) ((9 - 1) / board5_s2.sc) = some v ∧
      writes_at tiles ((4 : Nat) : Int) ((9 : Nat) : Int) = [glyph v] ∧
      writes_at all ((4 : Nat) : Int) ((9 : Nat) : Int) = [glyph v] ∧
      (v < 128 → glyph v = v) ∧
      (∀ r c t ch, r < board5_s2.h → c < board5_s2.w → draw_tile board5_s2 r c = some t →
        term_call.mvaddch ((4 : Nat) : Int) ((9 : Nat) : Int) ch ∈ t →
        r = (4 - 1) / board5_s2.sc ∧ c = (9 - 1) / board5_s2.sc) :=
  tiles_cover board5_s2 (by decide) (by decide) (by decide) 4 9 (by decide) (by decide)
    (by decide) (by decide)

/-! ## Toggles commute -/

theorem flip_at_length (g : List Nat) (i : Nat) : (flip_at g i).length = g.length := by
  unfold flip_at; simp

theorem flip_at_comm (g : List Nat) (i j : Nat) :
    flip_at (flip_at g i) j = flip_at (flip_at g j) i := by
  by_cases hij : i = j
  · subst hij; rfl
  · have h1 : (g.set i (flip_ch (g.getD i 0))).getD j 0 = g.getD j 0 := by
      simp [List.getD_eq_getElem?_getD, List.getElem?_set, hij]
    have h2 : (g.set j (flip_ch (g.getD j 0))).getD i 0 = g.getD i 0 := by
      simp [List.getD_eq_getElem?_getD, List.getElem?_set, Ne.symm hij]
    unfold flip_at
    rw [h1, h2]
    exact List.set_comm _ _ _ hij

theorem flip_if_eq_flip_at (b : Prop) [Decidable b] (g : List Nat) (i : Nat) :
    flip_if b g i = if b then flip_at g i else g := rfl

/-- The buffer left by `toggle_adjacent` is the fold of single toggles over the cells it
addresses. -/
theorem toggled_grid_eq_foldl (ctx : ctx_t) :
    toggled_grid ctx = ((toggle_targets ctx.w ctx.h ctx.cursor).map
      fun t => t.1 * ctx.w + t.2).foldl flip_at ctx.grid := by
  unfold toggled_grid toggle_targets
  simp only [flip_if_eq_flip_at, if_true]
  by_cases h1 : ctx.cursor.y > 0 <;>
  by_cases h2 : (ctx.cursor.y : Int) < (ctx.h : Int) - 1 <;>
  by_cases h3 : ctx.cursor.x > 0 <;>
  by_cases h4 : (ctx.cursor.x : Int) < (ctx.w : Int) - 1 <;>
  simp only [h1, h2, h3, h4, if_true, if_false, List.append_nil, List.cons_append,
    List.nil_append, List.map_cons, List.map_nil, List.foldl_cons, List.foldl_nil]

theorem foldl_flip_at_perm (l1 l2 : List Nat) (hp : l1.Perm l2) (g : List Nat) :
    l1.foldl flip_at g = l2.foldl flip_at g :=
  @List.Perm.foldl_eq Nat (List Nat) flip_at l1 l2 ⟨flip_at_comm⟩ hp g

/-- Two toggles commute on every buffer. -/
theorem toggled_at_comm (w h : Nat) (g : List Nat) (p q : point_t) :
    toggled_at w h (toggled_at w h g p) q = toggled_at w h (toggled_at w h g q) p := by
  unfold toggled_at
  rw [toggled_grid_eq_foldl, toggled_grid_eq_foldl, toggled_grid_eq_foldl,
    toggled_grid_eq_foldl]
  simp only []
  rw [← List.foldl_append, ← List.foldl_append]
  exact foldl_flip_at_perm _ _ List.perm_append_comm g

theorem toggled_at_length (w h : Nat) (g : List Nat) (p : point_t) :
    (toggled_at w h g p).length = g.length := by
  unfold toggled_at
  rw [toggled_grid_length]


theorem toggle_at_eq (ctx : ctx_t) (p : point_t) (hs : grid_sized ctx) (hi : int_sized ctx)
    (hp : point_in_bounds ctx p) :
    toggle_at ctx p
      = some { ctx with cursor := p, grid := toggled_at ctx.w ctx.h ctx.grid p } := by
  unfold toggle_at
  have hb : cursor_in_bounds (ctx_t.mk ctx.w ctx.h ctx.sc p ctx.grid) := hp
  have hs1 : grid_sized (ctx_t.mk ctx.w ctx.h ctx.sc p ctx.grid) := hs
  have hi1 : int_sized (ctx_t.mk ctx.w ctx.h ctx.sc p ctx.grid) := hi
  exact toggle_adjacent_eq _ hb hs1 hi1

/-- A sequence of toggles at in-bounds positions is defined; its buffer is the fold of the
single toggles. -/
theorem toggle_all_eq (ps : List point_t) : ∀ (ctx : ctx_t), grid_sized ctx → int_sized ctx →
    (∀ p ∈ ps, point_in_bounds ctx p) →
    ∃ a, toggle_all ctx ps = some a ∧ a.grid = ps.foldl (toggled_at ctx.w ctx.h) ctx.grid
      ∧ a.w = ctx.w ∧ a.h = ctx.h ∧ a.sc = ctx.sc := by
  induction ps with
  | nil => intro ctx _ _ _; exact ⟨ctx, rfl, rfl, rfl, rfl, rfl⟩
  | cons p rest ih =>
    intro ctx hs hi hall
    have hp := hall p (List.mem_cons_self _ _)
    have hs1 : grid_sized (ctx_t.mk ctx.w ctx.h ctx.sc p (toggled_at ctx.w ctx.h ctx.grid p)) := by
      unfold grid_sized at hs ⊢
      simp only [toggled_at_length]; exact hs
    have hi1 : int_sized (ctx_t.mk ctx.w ctx.h ctx.sc p (toggled_at ctx.w ctx.h ctx.grid p)) :=
      hi
    obtain ⟨a, h1, h2, h3, h4, h5⟩ := ih _ hs1 hi1
      (fun q hq => hall q (List.mem_cons_of_mem _ hq))
    refine ⟨a, ?_, h2, h3, h4, h5⟩
    simp only [toggle_all, toggle_at_eq ctx p hs hi hp, Option.some_bind]
    exact h1

/-- C18, as stated, fails: on a 65535x65535 grid of `w * h` cells with the in-bounds
positions `p = (65534, 7)` and `q = (0, 0)`, the index of the cell `p` overflows `int`, the
toggle at `p` leaves the buffer, and `toggle_adjacent` at `p` and then at `q` yields no
grid. -/
theorem toggles_commute_counterexample :
    grid_sized huge_board ∧ point_in_bounds huge_board ⟨65534, 7⟩ ∧
    point_in_bounds huge_board ⟨0, 0⟩ ∧
    (toggle_at huge_board ⟨65534, 7⟩).bind (fun c => toggle_at c ⟨0, 0⟩) = none := by
  refine ⟨?_, ?_, ?_, ?_⟩
  · unfold grid_sized huge_board
    exact off_cells_length _
  · unfold point_in_bounds huge_board
    exact ⟨by decide, by decide⟩
  · unfold point_in_bounds huge_board
    exact ⟨by decide, by decide⟩
  · have e : toggle_at huge_board ⟨65534, 7⟩ = none :=
      huge_board_toggle_none
    rw [e, Option.none_bind]

/-- C18 (amended): on a grid of `w * h` cells with `w * h` at most `INT_MAX`, for two
in-bounds positions `p` and `q`, `toggle_adjacent` at `p` and then at `q` is defined and
leaves the same grid as `toggle_adjacent` at `q` and then at `p`; more generally two
sequences of in-bounds positions that are permutations of each other (each position
toggled the same number of times) leave the same grid. -/
theorem toggles_commute (ctx : ctx_t) (hs : grid_sized ctx) (hi : int_sized ctx) :
    (∀ p q, point_in_bounds ctx p → point_in_bounds ctx q →
      ∃ a b, (toggle_at ctx p).bind (fun c => toggle_at c q) = some a ∧
        (toggle_at ctx q).bind (fun c => toggle_at c p) = some b ∧ a.grid = b.grid) ∧
    (∀ ps qs : List point_t, ps.Perm qs → (∀ p ∈ ps, point_in_bounds ctx p) →
      ∃ a b, toggle_all ctx ps = some a ∧ toggle_all ctx qs = some b ∧ a.grid = b.grid) := by
  have hseq : ∀ ps qs : List point_t, ps.Perm qs → (∀ p ∈ ps, point_in_bounds ctx p) →
      ∃ a b, toggle_all ctx ps = some a ∧ toggle_all ctx qs = some b ∧ a.grid = b.grid := by
    intro ps qs hperm hall
    obtain ⟨a, ha, hga, _⟩ := toggle_all_eq ps ctx hs hi hall
    obtain ⟨b, hb, hgb, _⟩ := toggle_all_eq qs ctx hs hi
      (fun p hp => hall p (hperm.mem_iff.mpr hp))
    refine ⟨a, b, ha, hb, ?_⟩
    rw [hga, hgb]
    exact @List.Perm.foldl_eq point_t (List Nat) (toggled_at ctx.w ctx.h) ps qs
      ⟨toggled_at_comm ctx.w ctx.h⟩ hperm ctx.grid
  refine ⟨?_, hseq⟩
  intro p q hp hq
  obtain ⟨a, b, ha, hb, hab⟩ := hseq [p, q] [q, p] (List.Perm.swap q p [])
    (fun r hr => by
      rcases List.mem_cons.mp hr with h | h
      · rw [h]; exact hp
      · rw [List.mem_singleton.mp h]; exact hq)
  refine ⟨a, b, ?_, ?_, hab⟩
  · rw [← ha]
    simp only [toggle_all, Option.bind_some]
  · rw [← hb]
    simp only [toggle_all, Option.bind_some]

/-- Witness of C18: the positions `(0, 0)` and `(0, 1)` of the 5x5 board, whose plus shapes
overlap. -/
theorem toggles_commute_witness :
    (∀ p q, point_in_bounds board5 p → point_in_bounds board5 q →
      ∃ a b, (toggle_at board5 p).bind (fun c => toggle_at c q) = some a ∧
        (toggle_at board5 q).bind (fun c => toggle_at c p) = some b ∧ a.grid = b.grid) ∧
    (∀ ps qs : List point_t, ps.Perm qs → (∀ p ∈ ps, point_in_bounds board5 p) →
      ∃ a b, toggle_all board5 ps = some a ∧ toggle_all board5 qs = some b
        ∧ a.grid = b.grid) ∧
    ((toggle_at board5 ⟨0, 0⟩).bind (fun c => toggle_at c ⟨0, 1⟩)).map (fun c => c.grid)
      = ((toggle_at board5 ⟨0, 1⟩).bind (fun c => toggle_at c ⟨0, 0⟩)).map (fun c => c.grid) :=
  ⟨(toggles_commute board5 (by decide) (by decide)).1,
    (toggles_commute board5 (by decide) (by decide)).2, by decide⟩

/-! ## Grid indexing -/

theorem foldlM_toggle_single (i : Int) (g : List Nat) :
    [i].foldlM toggle_cell g = toggle_cell g i := by
  simp only [List.foldlM_cons, List.foldlM_nil, Option.bind_eq_bind, Option.pure_def,
    Option.bind_some]

theorem foldlM_toggle_guard (b : Prop) [Decidable b] (i : Int) (g : List Nat) :
    (if b then [i] else []).foldlM toggle_cell g = if b then toggle_cell g i else some g := by
  by_cases hb : b
  · rw [if_pos hb, if_pos hb, foldlM_toggle_single]
  · rw [if_neg hb, if_neg hb]
    rfl

/-- `toggle_adjacent` reads and writes the buffer exactly at the values of
`toggle_indices`, in that order. -/
theorem toggle_adjacent_eq_foldlM (ctx : ctx_t) :
    toggle_adjacent ctx =
      ((toggle_indices ctx).foldlM toggle_cell ctx.grid).bind
        fun g => some { ctx with grid := g } := by
  unfold toggle_adjacent toggle_indices
  simp only [List.foldlM_append, foldlM_toggle_single, foldlM_toggle_guard,
    Option.bind_eq_bind, Option.bind_assoc]

theorem map_guard {α β : Type} (f : α → β) (b : Prop) [Decidable b] (t : α) :
    (if b then [t] else []).map f = if b then [f t] else [] := by
  by_cases hb : b
  · rw [if_pos hb, if_pos hb]; rfl
  · rw [if_neg hb, if_neg hb]; rfl

theorem guard_congr (b : Prop) [Decidable b] (i n : Int) (h : b → i = n) :
    (if b then [i] else []) = (if b then [n] else []) := by
  by_cases hb : b
  · rw [if_pos hb, if_pos hb, h hb]
  · rw [if_neg hb, if_neg hb]

/-- With the cursor inside the grid and `w * h` a value of `int`, the index expressions of
`toggle_adjacent` have the exact values `y1 * w + x1` of the cells of `toggle_targets`. -/
theorem toggle_indices_eq (ctx : ctx_t) (hi : int_sized ctx) (hb : cursor_in_bounds ctx) :
    toggle_indices ctx = (toggle_targets ctx.w ctx.h ctx.cursor).map
      fun t => ((t.1 * ctx.w + t.2 : Nat) : Int) := by
  obtain ⟨hy, hx⟩ := hb
  unfold int_sized INT_MAX at hi
  have hlt := idx_lt hy hx
  have hyw : ctx.cursor.y ≤ 2147483647 := by
    have h1 : ctx.cursor.y ≤ ctx.cursor.y * ctx.w :=
      Nat.le_mul_of_pos_right _ (by omega)
    omega
  have hxw : ctx.cursor.x ≤ 2147483647 := by omega
  have hhw : ctx.h ≤ ctx.w * ctx.h := Nat.le_mul_of_pos_left _ (by omega)
  have e0 : iadd (imul (ctx.cursor.y : Int) (ctx.w : Int)) (ctx.cursor.x : Int)
      = ((ctx.cursor.y * ctx.w + ctx.cursor.x : Nat) : Int) := idx_cast _ _ _ (by omega)
  have e1 : ctx.cursor.y > 0 →
      iadd (imul (isub (ctx.cursor.y : Int) 1) (ctx.w : Int)) (ctx.cursor.x : Int)
        = (((ctx.cursor.y - 1) * ctx.w + ctx.cursor.x : Nat) : Int) := by
    intro hg
    have hl : (ctx.cursor.y - 1) * ctx.w + ctx.cursor.x < ctx.w * ctx.h :=
      idx_lt (by omega) hx
    have e : isub (ctx.cursor.y : Int) 1 = ((ctx.cursor.y - 1 : Nat) : Int) :=
      isub_cast ctx.cursor.y 1 (by omega) hyw
    rw [e]
    exact idx_cast _ _ _ (by omega)
  have e2 : (ctx.cursor.y : Int) < (ctx.h : Int) - 1 →
      iadd (imul (iadd (ctx.cursor.y : Int) 1) (ctx.w : Int)) (ctx.cursor.x : Int)
        = (((ctx.cursor.y + 1) * ctx.w + ctx.cursor.x : Nat) : Int) := by
    intro hg
    have hl : (ctx.cursor.y + 1) * ctx.w + ctx.cursor.x < ctx.w * ctx.h :=
      idx_lt (by omega) hx
    have e : iadd (ctx.cursor.y : Int) 1 = ((ctx.cursor.y + 1 : Nat) : Int) :=
      iadd_cast ctx.cursor.y 1 (by omega)
    rw [e]
    exact idx_cast _ _ _ (by omega)
  have e3 : ctx.cursor.x > 0 →
      iadd (imul (ctx.cursor.y : Int) (ctx.w : Int)) (isub (ctx.cursor.x : Int) 1)
        = ((ctx.cursor.y * ctx.w + (ctx.cursor.x - 1) : Nat) : Int) := by
    intro hg
    have hl : ctx.cursor.y * ctx.w + (ctx.cursor.x - 1) < ctx.w * ctx.h :=
      idx_lt hy (by omega)
    have e : isub (ctx.cursor.x : Int) 1 = ((ctx.cursor.x - 1 : Nat) : Int) :=
      isub_cast ctx.cursor.x 1 (by omega) hxw
    rw [e]
    exact idx_cast _ _ _ (by omega)
  have e4 : (ctx.cursor.x : Int) < (ctx.w : Int) - 1 →
      iadd (imul (ctx.cursor.y : Int) (ctx.w : Int)) (iadd (ctx.cursor.x : Int) 1)
        = ((ctx.cursor.y * ctx.w + (ctx.cursor.x + 1) : Nat) : Int) := by
    intro hg
    have hl : ctx.cursor.y * ctx.w + (ctx.cursor.x + 1) < ctx.w * ctx.h :=
      idx_lt hy (by omega)
    have e : iadd (ctx.cursor.x : Int) 1 = ((ctx.cursor.x + 1 : Nat) : Int) :=
      iadd_cast ctx.cursor.x 1 (by omega)
    rw [e]
    exact idx_cast _ _ _ (by omega)
  unfold toggle_indices toggle_targets
  simp only [List.map_append, List.map_cons, List.map_nil, map_guard]
  rw [e0, guard_congr _ _ _ e1, guard_congr _ _ _ e2, guard_congr _ _ _ e3,
    guard_congr _ _ _ e4]

theorem idx_div_mod {w y x : Nat} (hx : x < w) :
    (y * w + x) / w = y ∧ (y * w + x) % w = x := by
  have hw : 0 < w := by omega
  constructor
  · rw [Nat.add_comm, Nat.add_mul_div_right _ _ hw, Nat.div_eq_of_lt hx, Nat.zero_add]
  · rw [Nat.add_comm, Nat.add_mul_mod_self_right, Nat.mod_eq_of_lt hx]

theorem toggle_targets_in_range (w h : Nat) (cur : point_t) (hy : cur.y < h) (hx : cur.x < w)
    (t : Nat × Nat) (ht : t ∈ toggle_targets w h cur) :
    t.1 < h ∧ t.2 < w ∧ in_plus cur.y cur.x t.1 t.2 := by
  unfold toggle_targets at ht
  unfold in_plus
  simp only [List.mem_append, List.mem_singleton] at ht
  rcases ht with (((h0 | h1) | h2) | h3) | h4
  · subst h0
    exact ⟨hy, hx, Or.inl ⟨rfl, rfl⟩⟩
  · by_cases hg : cur.y > 0
    · rw [if_pos hg, List.mem_singleton] at h1
      subst h1
      exact ⟨by simp only []; omega, hx, Or.inr (Or.inl ⟨by simp only []; omega, rfl⟩)⟩
    · rw [if_neg hg] at h1
      exact absurd h1 (List.not_mem_nil _)
  · by_cases hg : (cur.y : Int) < (h : Int) - 1
    · rw [if_pos hg, List.mem_singleton] at h2
      subst h2
      exact ⟨by simp only []; omega, hx, Or.inr (Or.inr (Or.inl ⟨rfl, rfl⟩))⟩
    · rw [if_neg hg] at h2
      exact absurd h2 (List.not_mem_nil _)
  · by_cases hg : cur.x > 0
    · rw [if_pos hg, List.mem_singleton] at h3
      subst h3
      exact ⟨hy, by simp only []; omega,
        Or.inr (Or.inr (Or.inr (Or.inl ⟨rfl, by simp only []; omega⟩)))⟩
    · rw [if_neg hg] at h3
      exact absurd h3 (List.not_mem_nil _)
  · by_cases hg : (cur.x : Int) < (w : Int) - 1
    · rw [if_pos hg, List.mem_singleton] at h4
      subst h4
      exact ⟨hy, by simp only []; omega, Or.inr (Or.inr (Or.inr (Or.inr ⟨rfl, rfl⟩)))⟩
    · rw [if_neg hg] at h4
      exact absurd h4 (List.not_mem_nil _)


/-- C19, as stated, fails: on a 65535x65535 grid with a buffer of exactly `w * h` cells
and the in-bounds cursor `(65534, 7)`, the index `y * w + x` that `toggle_adjacent`
evaluates for the cursor cell is the `int` value `-196599`, which is not in
`0 .. w * h - 1`, and the access leaves the buffer. -/
theorem grid_indexing_in_range_counterexample :
    grid_sized huge_board ∧ cursor_in_bounds huge_board ∧
    (-196599 : Int) ∈ toggle_indices huge_board ∧
    (toggle_indices huge_board).foldlM toggle_cell huge_board.grid = none := by
  have e : iadd (imul ((65534 : Nat) : Int) ((65535 : Nat) : Int)) ((7 : Nat) : Int)
      = -196599 := by decide
  refine ⟨?_, ?_, ?_, ?_⟩
  · unfold grid_sized huge_board
    exact off_cells_length _
  · unfold cursor_in_bounds huge_board
    exact ⟨by decide, by decide⟩
  · unfold toggle_indices huge_board
    simp only [e, List.cons_append, List.mem_cons, true_or]
  · unfold toggle_indices huge_board
    simp only [e, List.cons_append, List.foldlM_cons, toggle_cell_neg _ (-196599) (by decide),
      Option.bind_eq_bind, Option.none_bind]

/-- C19 (amended): on a buffer of exactly `w * h` cells with `w * h` at most `INT_MAX`
and the cursor inside the grid, `toggle_adjacent` reads and writes the buffer only at the
values of its index expressions, which are the numbers `y1 * w + x1` of the cells it
addresses; each of these cells is the cursor cell or an orthogonal neighbour inside the
grid, its index is below `w * h`, and the index divided by `w` gives back the row `y1` and
its remainder the column `x1` (a left or right neighbour stays in the row of the cursor);
no access leaves the buffer (`toggle_adjacent` is defined).  The same holds for every
index `y * w + x`, `y < h`, `x < w`, used by the loops of `redraw_grid` and `init_grid`,
which are defined as well. -/
theorem grid_indexing_in_range (ctx : ctx_t) (hs : grid_sized ctx) (hi : int_sized ctx)
    (hb : cursor_in_bounds ctx) :
    (toggle_adjacent ctx =
      ((toggle_indices ctx).foldlM toggle_cell ctx.grid).bind
        fun g => some { ctx with grid := g }) ∧
    (toggle_indices ctx = (toggle_targets ctx.w ctx.h ctx.cursor).map
      fun t => ((t.1 * ctx.w + t.2 : Nat) : Int)) ∧
    (∀ t ∈ toggle_targets ctx.w ctx.h ctx.cursor,
      t.1 < ctx.h ∧ t.2 < ctx.w ∧ in_plus ctx.cursor.y ctx.cursor.x t.1 t.2 ∧
      t.1 * ctx.w + t.2 < ctx.w * ctx.h ∧ t.1 * ctx.w + t.2 < ctx.grid.length ∧
      (t.1 * ctx.w + t.2) / ctx.w = t.1 ∧ (t.1 * ctx.w + t.2) % ctx.w = t.2) ∧
    (∃ ctx1, toggle_adjacent ctx = some ctx1) ∧
    (∀ y x, y < ctx.h → x < ctx.w →
      iadd (imul (y : Int) (ctx.w : Int)) (x : Int) = ((y * ctx.w + x : Nat) : Int) ∧
      y * ctx.w + x < ctx.w * ctx.h ∧ y * ctx.w + x < ctx.grid.length ∧
      (y * ctx.w + x) / ctx.w = y ∧ (y * ctx.w + x) % ctx.w = x) ∧
    (∃ calls, redraw_grid ctx = some calls) ∧
    (∃ ctx1, init_grid ctx false = some ctx1) := by
  have hidx : ∀ y x, y < ctx.h → x < ctx.w →
      iadd (imul (y : Int) (ctx.w : Int)) (x : Int) = ((y * ctx.w + x : Nat) : Int) ∧
      y * ctx.w + x < ctx.w * ctx.h ∧ y * ctx.w + x < ctx.grid.length ∧
      (y * ctx.w + x) / ctx.w = y ∧ (y * ctx.w + x) % ctx.w = x := by
    intro y x hy hx
    have h1 : y * ctx.w + x < ctx.w * ctx.h := idx_lt hy hx
    have h2 : ctx.w * ctx.h ≤ 2147483647 := hi
    exact ⟨idx_cast _ _ _ (by omega), h1, by rw [hs]; exact h1, (idx_div_mod hx).1,
      (idx_div_mod hx).2⟩
  refine ⟨toggle_adjacent_eq_foldlM ctx, toggle_indices_eq ctx hi hb, ?_,
    ⟨_, toggle_adjacent_eq ctx hb hs hi⟩, hidx, ?_, ⟨_, init_grid_eq ctx hs hi⟩⟩
  · intro t ht
    obtain ⟨h1, h2, h3⟩ := toggle_targets_in_range ctx.w ctx.h ctx.cursor hb.1 hb.2 t ht
    obtain ⟨_, k1, k2, k3, k4⟩ := hidx t.1 t.2 h1 h2
    exact ⟨h1, h2, h3, k1, k2, k3, k4⟩
  · obtain ⟨tiles, _, hall⟩ := redraw_grid_eq ctx hs hi
    exact ⟨_, hall⟩

/-- Witness of C19: the 5x5 board with the cursor in the top-left corner; only the cells
`(0,0)`, `(1,0)` and `(0,1)` are addressed, at the indices 0, 5 and 1. -/
theorem grid_indexing_in_range_witness :
    (toggle_targets board5_corner.w board5_corner.h board5_corner.cursor
      = [(0, 0), (1, 0), (0, 1)] ∧ toggle_indices board5_corner = [0, 5, 1]) ∧
    ((toggle_adjacent board5_corner =
      ((toggle_indices board5_corner).foldlM toggle_cell board5_corner.grid).bind
        fun g => some { board5_corner with grid := g }) ∧
    (toggle_indices board5_corner
      = (toggle_targets board5_corner.w board5_corner.h board5_corner.cursor).map
        fun t => ((t.1 * board5_corner.w + t.2 : Nat) : Int)) ∧
    (∀ t ∈ toggle_targets board5_corner.w board5_corner.h board5_corner.cursor,
      t.1 < board5_corner.h ∧ t.2 < board5_corner.w ∧
      in_plus board5_corner.cursor.y board5_corner.cursor.x t.1 t.2 ∧
      t.1 * board5_corner.w + t.2 < board5_corner.w * board5_corner.h ∧
      t.1 * board5_corner.w + t.2 < board5_corner.grid.length ∧
      (t.1 * board5_corner.w + t.2) / board5_corner.w = t.1 ∧
      (t.1 * board5_corner.w + t.2) % board5_corner.w = t.2) ∧
    (∃ ctx1, toggle_adjacent board5_corner = some ctx1) ∧
    (∀ y x, y < board5_corner.h → x < board5_corner.w →
      iadd (imul (y : Int) (board5_corner.w : Int)) (x : Int)
        = ((y * board5_corner.w + x : Nat) : Int) ∧
      y * board5_corner.w + x < board5_corner.w * board5_corner.h ∧
      y * board5_corner.w + x < board5_corner.grid.length ∧
      (y * board5_corner.w + x) / board5_corner.w = y ∧
      (y * board5_corner.w + x) % board5_corner.w = x) ∧
    (∃ calls, redraw_grid board5_corner = some calls) ∧
    (∃ ctx1, init_grid board5_corner false = some ctx1)) :=
  ⟨⟨by decide, by decide⟩,
    grid_indexing_in_range board5_corner (by decide) (by decide) (by decide)⟩

/-! ## Frame of one input step -/

theorem key_toggle_eq (ctx : ctx_t) (c : Int) (hc : c = 32) :
    key_switch ctx c = (toggle_adjacent ctx).map fun ctx1 => (ctx1, c) := by
  subst hc
  unfold key_switch
  rw [if_neg (by decide), if_neg (by decide), if_neg (by decide), if_neg (by decide),
    if_pos rfl]

theorem key_other_eq (ctx : ctx_t) (c : Int) (hv : ¬ is_vertical_key c)
    (hh : ¬ is_horizontal_key c) (ht : c ≠ 32) :
    key_switch ctx c = some (ctx, if c = KEY_CTRLC then 113 else c) := by
  unfold is_vertical_key at hv
  unfold is_horizontal_key at hh
  unfold key_switch
  rw [if_neg (fun h => hv (Or.inl h)), if_neg (fun h => hv (Or.inr h)),
    if_neg (fun h => hh (Or.inl h)), if_neg (fun h => hh (Or.inr h)), if_neg ht]
  by_cases h1 : c = 114
  · rw [if_pos h1, if_neg (by unfold KEY_CTRLC; omega)]
  · rw [if_neg h1]
    by_cases h2 : c = KEY_CTRLC
    · rw [if_pos h2, if_pos h2]
    · rw [if_neg h2, if_neg h2]


/-- C20: for every state and every key code `c` (as the loop has it after `tolower`), if
the action of the main loop is defined it leaves `w`, `h` and the scale unchanged; an up or
down key leaves the grid and the cursor column unchanged, a left or right key leaves the
grid and the cursor row unchanged; the toggle key leaves the cursor unchanged; every other
key (`r`, `q`, Ctrl-C included) leaves grid and cursor unchanged.  The action is defined in
every state for every key but the toggle key, and for the toggle key when the buffer has
`w * h` cells, `w * h` is a value of `int` and the cursor is inside the grid. -/
theorem key_step_frame (ctx : ctx_t) (c : Int) :
    (∀ r, key_switch ctx c = some r →
      (r.1.w = ctx.w ∧ r.1.h = ctx.h ∧ r.1.sc = ctx.sc) ∧
      (is_vertical_key c → r.1.grid = ctx.grid ∧ r.1.cursor.x = ctx.cursor.x) ∧
      (is_horizontal_key c → r.1.grid = ctx.grid ∧ r.1.cursor.y = ctx.cursor.y) ∧
      (c = 32 → r.1.cursor = ctx.cursor) ∧
      (¬ is_vertical_key c → ¬ is_horizontal_key c → c ≠ 32 →
        r.1.grid = ctx.grid ∧ r.1.cursor = ctx.cursor)) ∧
    (c ≠ 32 → ∃ r, key_switch ctx c = some r) ∧
    (grid_sized ctx → int_sized ctx → cursor_in_bounds ctx →
      ∃ r, key_switch ctx c = some r) := by
  refine ⟨?_, ?_, ?_⟩
  · intro r hk
    by_cases hup : c = 107 ∨ c = KEY_UP
    · rw [key_up_eq ctx c hup, Option.some.injEq] at hk
      subst hk
      unfold is_vertical_key is_horizontal_key
      unfold KEY_UP at hup
      unfold KEY_UP KEY_DOWN KEY_LEFT KEY_RIGHT
      by_cases hg : ctx.cursor.y > 0
      · rw [if_pos hg]
        exact ⟨⟨rfl, rfl, rfl⟩, fun _ => ⟨rfl, rfl⟩, fun h => by omega, fun h => by omega,
          fun h => by omega⟩
      · rw [if_neg hg]
        exact ⟨⟨rfl, rfl, rfl⟩, fun _ => ⟨rfl, rfl⟩, fun _ => ⟨rfl, rfl⟩, fun _ => rfl,
          fun _ _ _ => ⟨rfl, rfl⟩⟩
    by_cases hdown : c = 106 ∨ c = KEY_DOWN
    · rw [key_down_eq ctx c hdown, Option.some.injEq] at hk
      subst hk
      unfold is_vertical_key is_horizontal_key
      unfold KEY_DOWN at hdown
      unfold KEY_UP KEY_DOWN KEY_LEFT KEY_RIGHT
      by_cases hg : (ctx.cursor.y : Int) < (ctx.h : Int) - 1
      · rw [if_pos hg]
        exact ⟨⟨rfl, rfl, rfl⟩, fun _ => ⟨rfl, rfl⟩, fun h => by omega, fun h => by omega,
          fun h => by omega⟩
      · rw [if_neg hg]
        exact ⟨⟨rfl, rfl, rfl⟩, fun _ => ⟨rfl, rfl⟩, fun _ => ⟨rfl, rfl⟩, fun _ => rfl,
          fun _ _ _ => ⟨rfl, rfl⟩⟩
    by_cases hleft : c = 104 ∨ c = KEY_LEFT
    · rw [key_left_eq ctx c hleft, Option.some.injEq] at hk
      subst hk
      unfold is_vertical_key is_horizontal_key
      unfold KEY_LEFT at hleft
      unfold KEY_UP KEY_DOWN KEY_LEFT KEY_RIGHT
      by_cases hg : ctx.cursor.x > 0
      · rw [if_pos hg]
        exact ⟨⟨rfl, rfl, rfl⟩, fun h => by omega, fun _ => ⟨rfl, rfl⟩, fun h => by omega,
          fun _ h => by omega⟩
      · rw [if_neg hg]
        exact ⟨⟨rfl, rfl, rfl⟩, fun _ => ⟨rfl, rfl⟩, fun _ => ⟨rfl, rfl⟩, fun _ => rfl,
          fun _ _ _ => ⟨rfl, rfl⟩⟩
    by_cases hright : c = 108 ∨ c = KEY_RIGHT
    · rw [key_right_eq ctx c hright, Option.some.injEq] at hk
      subst hk
      unfold is_vertical_key is_horizontal_key
      unfold KEY_RIGHT at hright
      unfold KEY_UP KEY_DOWN KEY_LEFT KEY_RIGHT
      by_cases hg : (ctx.cursor.x : Int) < (ctx.w : Int) - 1
      · rw [if_pos hg]
        exact ⟨⟨rfl, rfl, rfl⟩, fun h => by omega, fun _ => ⟨rfl, rfl⟩, fun h => by omega,
          fun _ h => by omega⟩
      · rw [if_neg hg]
        exact ⟨⟨rfl, rfl, rfl⟩, fun _ => ⟨rfl, rfl⟩, fun _ => ⟨rfl, rfl⟩, fun _ => rfl,
          fun _ _ _ => ⟨rfl, rfl⟩⟩
    have hv : ¬ is_vertical_key c := by
      unfold is_vertical_key; exact fun h => h.elim hup hdown
    have hh : ¬ is_horizontal_key c := by
      unfold is_horizontal_key; exact fun h => h.elim hleft hright
    by_cases ht : c = 32
    · rw [key_toggle_eq ctx c ht, Option.map_eq_some'] at hk
      obtain ⟨c1, h1, h2⟩ := hk
      subst h2
      obtain ⟨f1, f2, f3, f4⟩ := toggle_adjacent_frame ctx c1 h1
      exact ⟨⟨f1, f2, f3⟩, fun h => absurd h hv, fun h => absurd h hh, fun _ => f4,
        fun _ _ h => absurd ht h⟩
    · rw [key_other_eq ctx c hv hh ht, Option.some.injEq] at hk
      subst hk
      exact ⟨⟨rfl, rfl, rfl⟩, fun _ => ⟨rfl, rfl⟩, fun _ => ⟨rfl, rfl⟩, fun _ => rfl,
        fun _ _ _ => ⟨rfl, rfl⟩⟩
  · intro ht
    by_cases hup : c = 107 ∨ c = KEY_UP
    · exact ⟨_, key_up_eq ctx c hup⟩
    by_cases hdown : c = 106 ∨ c = KEY_DOWN
    · exact ⟨_, key_down_eq ctx c hdown⟩
    by_cases hleft : c = 104 ∨ c = KEY_LEFT
    · exact ⟨_, key_left_eq ctx c hleft⟩
    by_cases hright : c = 108 ∨ c = KEY_RIGHT
    · exact ⟨_, key_right_eq ctx c hright⟩
    exact ⟨_, key_other_eq ctx c (by unfold is_vertical_key; exact fun h => h.elim hup hdown)
      (by unfold is_horizontal_key; exact fun h => h.elim hleft hright) ht⟩
  · intro hs hi hb
    exact key_switch_defined ctx c hs hb (fun _ => hi)

/-- Witness of C20: the toggle key and the key `r` on the 5x5 board. -/
theorem key_step_frame_witness :
    (∃ r, key_switch board5 32 = some r ∧
      (r.1.w = board5.w ∧ r.1.h = board5.h ∧ r.1.sc = board5.sc) ∧
      r.1.cursor = board5.cursor) ∧
    (∃ r, key_switch board5 114 = some r ∧
      r.1.grid = board5.grid ∧ r.1.cursor = board5.cursor) :=
  ⟨match (key_step_frame board5 32).2.2 (by decide) (by decide) (by decide) with
    | ⟨r, hr⟩ => ⟨r, hr, ((key_step_frame board5 32).1 r hr).1,
        ((key_step_frame board5 32).1 r hr).2.2.2.1 rfl⟩,
   match (key_step_frame board5 114).2.1 (by decide) with
    | ⟨r, hr⟩ => ⟨r, hr, ((key_step_frame board5 114).1 r hr).2.2.2.2
        (by decide) (by decide) (by decide)⟩⟩

end FiveByFive
